import Mathlib

/-!
# Planguard rule evaluation engine

A shallow embedding of the scanner of `pkg/scanner/scanner.go`, of the
resource index of `pkg/parser/context.go`, of the functions of the rule
language in `pkg/functions` (`security.go`, `domain.go`, `cidr.go`,
`datetime.go`), of the
rule loader of `pkg/config/loader.go` and of the exit decision of
`pkg/reporter/reporter.go`, with the properties of the specification stated
and proved over it.

Conventions of the embedding:

* Go strings are `String`, Go `int` is `Int`, a Go slice is a `List`, a Go
  pointer that may be nil is an `Option`.
* A Go `error` is the text of its `Error()` method; `fmt.Errorf("p: %w", err)`
  is `"p: " ++ err`.
* A Go map is an association list with pairwise distinct keys; the order in
  which `range` visits a map is not fixed by the language and is a parameter
  (`MapOrder`).
* The HCL expression engine (`hclsyntax.ParseExpression`, `Expression.Value`,
  the function table built by `functions.BuildFunctions`) is a collaborator
  outside `pkg/scanner`; it is the parameter `HclEngine`.
* Every call of `evaluateExpression` made by the scan loops is recorded in a
  log of `EvalCall`s, so that "this expression is not evaluated" is a
  statement about the log.
* The syntax trees of package `hclsyntax` are the inductive type `Expression`,
  with every node type of the package that is an expression.
* Of package `regexp` the file models `QuoteMeta`, the replacement of a pair
  of characters, and the match of the expressions that `GetResourcesByType`
  builds; of `path/filepath` it models `Match`, `Base` and `IsAbs` on Unix.
* Of package `net` the file models `ParseCIDR`, `CIDRMask`, `IPMask.Size`,
  `IP.Mask`, `IP.String`, `IPNet.String` and `IPNet.Contains`; an address is
  the list of its bytes. A number of the rule language is a whole number, and
  a Go `int` has 64 bits.
* A call that panics in Go is `none`, or an error where the model of the
  function already returns one.
* The file system that `LoadRules` reads is the parameter `FileSystem`.
* A loop that may not end in Go runs on a bound here and is `none` when the
  bound is reached (`replaceAll` with an empty string to replace).
-/

namespace Planguard

/-! ## The cty value model (github.com/zclconf/go-cty) -/

/-- The cty types (`bool` is `cty.Bool`, `dynamic` is
`cty.DynamicPseudoType`), with the element types of collections and tuples and
the attribute types of objects; the attribute types of an object type are a Go
map, here an association list. Capsule types and optional attributes are left
out. -/
inductive CtyType where
  | bool
  | string
  | number
  | dynamic
  | list (ety : CtyType)
  | set (ety : CtyType)
  | map (ety : CtyType)
  | tuple (etys : List CtyType)
  | object (atys : List (String × CtyType))

/-- The comparison `ty == cty.Bool`. -/
instance CtyType.decEqBool (t : CtyType) : Decidable (t = CtyType.bool) :=
  match t with
  | .bool => isTrue rfl
  | .string => isFalse nofun
  | .number => isFalse nofun
  | .dynamic => isFalse nofun
  | .list _ => isFalse nofun
  | .set _ => isFalse nofun
  | .map _ => isFalse nofun
  | .tuple _ => isFalse nofun
  | .object _ => isFalse nofun

/-- The comparison `ty == cty.DynamicPseudoType`. -/
instance CtyType.decEqDynamic (t : CtyType) : Decidable (t = CtyType.dynamic) :=
  match t with
  | .bool => isFalse nofun
  | .string => isFalse nofun
  | .number => isFalse nofun
  | .dynamic => isTrue rfl
  | .list _ => isFalse nofun
  | .set _ => isFalse nofun
  | .map _ => isFalse nofun
  | .tuple _ => isFalse nofun
  | .object _ => isFalse nofun

/-- The text of `Type.FriendlyName()`. -/
def CtyType.FriendlyName : CtyType → String
  | .bool => "bool"
  | .string => "string"
  | .number => "number"
  | .dynamic => "dynamic"
  | .list ety => "list of " ++ ety.FriendlyName
  | .set ety => "set of " ++ ety.FriendlyName
  | .map ety => "map of " ++ ety.FriendlyName
  | .tuple _ => "tuple"
  | .object _ => "object"

mutual

/-- The result of `t.Equals(other)`: primitive types are equal to themselves,
collection types when their element types are equal, tuple types when they
have as many elements with equal types, and object types when they have as
many attributes and every attribute of the first has an equal type in the
second. -/
def CtyType.Equals : CtyType → CtyType → Bool
  | .bool, other => match other with
    | .bool => true
    | _ => false
  | .string, other => match other with
    | .string => true
    | _ => false
  | .number, other => match other with
    | .number => true
    | _ => false
  | .dynamic, other => match other with
    | .dynamic => true
    | _ => false
  | .list ety, other => match other with
    | .list oety => ety.Equals oety
    | _ => false
  | .set ety, other => match other with
    | .set oety => ety.Equals oety
    | _ => false
  | .map ety, other => match other with
    | .map oety => ety.Equals oety
    | _ => false
  | .tuple etys, other => match other with
    | .tuple oetys => CtyType.tupleEquals etys oetys
    | _ => false
  | .object atys, other => match other with
    | .object oatys => atys.length == oatys.length && CtyType.attrsEqual atys oatys
    | _ => false

/-- The element loop of `typeTuple.Equals`. -/
def CtyType.tupleEquals : List CtyType → List CtyType → Bool
  | [], oetys => oetys.isEmpty
  | ety :: etys, oetys => match oetys with
    | [] => false
    | oety :: rest => ety.Equals oety && CtyType.tupleEquals etys rest

/-- The attribute loop of `typeObject.Equals`: every attribute of the first
map is in the second map with an equal type. -/
def CtyType.attrsEqual : List (String × CtyType) → List (String × CtyType) → Bool
  | [], _ => true
  | (attr, ty) :: rest, oatys =>
    (match oatys.find? fun kv => kv.1 = attr with
      | some (_, oty) => ty.Equals oty
      | none => false) && CtyType.attrsEqual rest oatys

end

/-- Known cty values and the null value of each type: `NullVal ty` is
`cty.NullVal(ty)`, so the literal `null` is `NullVal .dynamic` and a null that
HCL converted to booleans is `NullVal .bool`. Numbers are the integers that
`cty.NumberIntVal` builds. Unknown and marked values are not represented:
attribute values come from `attr.Expr.Value(nil)` (parser.go:144), which has
no variables to leave unknown, no function of the repository returns an
unknown value, and HCL gives `cty.DynamicVal` only together with error
diagnostics, which `evaluateExpression` reads before the value. -/
inductive CtyValue where
  | BoolVal (b : Bool)
  | StringVal (s : String)
  | NumberIntVal (n : Int)
  | ListVal (ety : CtyType) (elems : List CtyValue)
  | SetVal (ety : CtyType) (elems : List CtyValue)
  | MapVal (ety : CtyType) (elems : List (String × CtyValue))
  | TupleVal (elems : List CtyValue)
  | ObjectVal (attrs : List (String × CtyValue))
  | NullVal (ty : CtyType)

mutual

/-- The result of `Value.Type()`. -/
def CtyValue.Type_ : CtyValue → CtyType
  | .BoolVal _ => .bool
  | .StringVal _ => .string
  | .NumberIntVal _ => .number
  | .ListVal ety _ => .list ety
  | .SetVal ety _ => .set ety
  | .MapVal ety _ => .map ety
  | .TupleVal elems => .tuple (CtyValue.elemTypes elems)
  | .ObjectVal attrs => .object (CtyValue.attrTypes attrs)
  | .NullVal ty => ty

/-- The types of the elements of a tuple value. -/
def CtyValue.elemTypes : List CtyValue → List CtyType
  | [] => []
  | val :: rest => val.Type_ :: CtyValue.elemTypes rest

/-- The types of the attributes of an object value. -/
def CtyValue.attrTypes : List (String × CtyValue) → List (String × CtyType)
  | [] => []
  | (name, val) :: rest => (name, val.Type_) :: CtyValue.attrTypes rest

end

/-- The result of `Value.True()`, which is `val.Equals(cty.True)` read as a Go
bool: the null of type `cty.Bool` is not equal to `cty.True`, so it gives
false. The library defines it on values of type `cty.Bool` only, which is
where the scanner calls it. -/
def CtyValue.True_ : CtyValue → Bool
  | .BoolVal b => b
  | _ => false

/-- The value `cty.ListValEmpty(ety)`. -/
def ListValEmpty (ety : CtyType) : CtyValue :=
  .ListVal ety []

/-- The element loop of `cty.ListVal`: the element type of the list, starting
from `cty.DynamicPseudoType`, or `none` where the library panics because the
types of the elements are inconsistent. -/
def listElementType : CtyType → List CtyValue → Option CtyType
  | elementType, [] => some elementType
  | elementType, val :: rest =>
    if elementType = CtyType.dynamic then
      listElementType val.Type_ rest
    else if ¬ val.Type_ = CtyType.dynamic ∧ elementType.Equals val.Type_ = false then
      none
    else
      listElementType elementType rest

/-- The value `cty.ListVal(vals)`, or `none` where the library panics: on the
empty slice, and on elements whose types are inconsistent. -/
def ListVal (vals : List CtyValue) : Option CtyValue :=
  if vals.length = 0 then
    none
  else
    (listElementType CtyType.dynamic vals).map fun elementType => .ListVal elementType vals

/-! ## Expression syntax trees (github.com/hashicorp/hcl/v2/hclsyntax) -/

/-- The node types of package `hclsyntax` that implement `hcl.Expression`,
with their child expressions and the fields that tell nodes apart; source
ranges are left out. A child that the source tests against nil before use is
an `Option`. The parser wraps every key of an object constructor in an
`ObjectConsKeyExpr`, and turns a template `for` directive into a
`TemplateJoinExpr` over a `ForExpr`. -/
inductive Expression where
  | LiteralValueExpr (val : CtyValue)
  | ScopeTraversalExpr (traversal : List String)
  | RelativeTraversalExpr (source : Expression) (traversal : List String)
  | FunctionCallExpr (name : String) (args : List Expression)
  | ConditionalExpr (condition trueResult falseResult : Expression)
  | IndexExpr (collection key : Expression)
  | TupleConsExpr (exprs : List Expression)
  | ObjectConsExpr (items : List (Expression × Expression))
  | ObjectConsKeyExpr (wrapped : Expression)
  | ForExpr (collExpr : Expression) (keyExpr valExpr condExpr : Option Expression)
  | SplatExpr (source : Expression) (each : Option Expression)
  | AnonSymbolExpr
  | TemplateExpr (parts : List Expression)
  | TemplateJoinExpr (tuple : Expression)
  | TemplateWrapExpr (wrapped : Expression)
  | BinaryOpExpr (lhs : Expression) (op : String) (rhs : Expression)
  | UnaryOpExpr (op : String) (val : Expression)
  | ParenthesesExpr (expression : Expression)
  | ExprSyntaxError

mutual
/-- `walkExpression` (security.go:48-143): the type switch has a case for
thirteen node types; every other node type falls through to the final
`return false`. -/
def walkExpression : Expression → String → Bool
  | .FunctionCallExpr name args, targetFunc =>
    if name = targetFunc then true else walkExpressions args targetFunc
  | .TemplateExpr parts, targetFunc => walkExpressions parts targetFunc
  | .TemplateWrapExpr wrapped, targetFunc => walkExpression wrapped targetFunc
  | .ConditionalExpr condition trueResult falseResult, targetFunc =>
    walkExpression condition targetFunc || walkExpression trueResult targetFunc
      || walkExpression falseResult targetFunc
  | .BinaryOpExpr lhs _ rhs, targetFunc =>
    walkExpression lhs targetFunc || walkExpression rhs targetFunc
  | .UnaryOpExpr _ val, targetFunc => walkExpression val targetFunc
  | .ParenthesesExpr expression, targetFunc => walkExpression expression targetFunc
  | .IndexExpr collection key, targetFunc =>
    walkExpression collection targetFunc || walkExpression key targetFunc
  | .RelativeTraversalExpr source _, targetFunc => walkExpression source targetFunc
  | .SplatExpr source each, targetFunc =>
    walkExpression source targetFunc || walkOptional each targetFunc
  | .ForExpr collExpr keyExpr valExpr condExpr, targetFunc =>
    walkExpression collExpr targetFunc || walkOptional keyExpr targetFunc
      || walkOptional valExpr targetFunc || walkOptional condExpr targetFunc
  | .ObjectConsExpr items, targetFunc => walkItems items targetFunc
  | .TupleConsExpr exprs, targetFunc => walkExpressions exprs targetFunc
  | .LiteralValueExpr _, _ => false
  | .ScopeTraversalExpr _, _ => false
  | .ObjectConsKeyExpr _, _ => false
  | .AnonSymbolExpr, _ => false
  | .TemplateJoinExpr _, _ => false
  | .ExprSyntaxError, _ => false
/-- The loops of `walkExpression` over a slice of expressions (arguments,
template parts, tuple elements): true at the first element that holds the
call. -/
def walkExpressions : List Expression → String → Bool
  | [], _ => false
  | expr :: rest, targetFunc =>
    if walkExpression expr targetFunc then true else walkExpressions rest targetFunc
/-- The loop of `walkExpression` over the items of an object constructor
(security.go:126-130). -/
def walkItems : List (Expression × Expression) → String → Bool
  | [], _ => false
  | (keyExpr, valueExpr) :: rest, targetFunc =>
    if walkExpression keyExpr targetFunc || walkExpression valueExpr targetFunc then true
    else walkItems rest targetFunc
/-- The step `if e.X != nil { result = result || walkExpression(e.X, targetFunc) }`
of `walkExpression`, as the value that is or-ed to `result`. -/
def walkOptional : Option Expression → String → Bool
  | none, _ => false
  | some expr, targetFunc => walkExpression expr targetFunc
end

/-- `containsFunctionCall` (security.go:38-45); `none` is the nil
expression. -/
def containsFunctionCall (expr : Option Expression) (targetFunc : String) : Bool :=
  match expr with
  | none => false
  | some e => walkExpression e targetFunc

/-! ## Data model (pkg/config) -/

/-- One declared configuration unit (`config.Resource`); `Type_` is the Go
field `Type`. The Go maps `Attributes` and `RawExprs` are association lists;
a value of `RawExprs` is an `hcl.Expression`, which may be nil. -/
structure Resource where
  Type_ : String
  Name : String
  File : String := ""
  Line : Int := 0
  Column : Int := 0
  Labels : List String := []
  Attributes : List (String × CtyValue) := []
  RawExprs : List (String × Option Expression) := []

/-- The `when` block of a rule (`config.WhenBlock`). -/
structure WhenBlock where
  Expression : String
  deriving DecidableEq, Repr

/-- One violation condition of a rule (`config.Condition`). -/
structure Condition where
  Expression : String
  deriving DecidableEq, Repr

/-- One named policy check (`config.Rule`). -/
structure Rule where
  ID : String
  Name : String := ""
  Severity : String := ""
  ResourceType : String
  When : Option WhenBlock := none
  Conditions : List Condition := []
  Message : String := ""
  Remediation : Option String := none
  deriving DecidableEq, Repr

/-- One override record (`config.Exception`). -/
structure Exception where
  Rules : List String
  Paths : List String := []
  ResourceNames : List String := []
  Reason : String := ""
  ApprovedBy : String := ""
  Ticket : Option String := none
  ExpiresAt : Option String := none
  deriving DecidableEq, Repr

/-- The result of one rule firing on one resource (`config.Violation`). -/
structure Violation where
  RuleID : String
  RuleName : String := ""
  Severity : String := ""
  Message : String := ""
  Remediation : String := ""
  File : String := ""
  Line : Int := 0
  Column : Int := 0
  ResourceType : String := ""
  ResourceName : String := ""
  deriving DecidableEq, Repr

/-- A violation that an exception suppresses (`config.FilteredViolation`). -/
structure FilteredViolation where
  Violation : Violation
  Exception : Exception
  deriving DecidableEq, Repr

/-- The part of `config.Config` that the scanner reads. -/
structure Config where
  Rules : List Rule := []
  Exceptions : List Exception := []

/-! ## Resource index (pkg/parser/context.go) -/

/-- A Go `map[string][]*config.Resource`. -/
abbrev ResourceMap := List (String × List Resource)

/-- The value `m[k]`: the nil slice when the key is absent. -/
def ResourceMap.get (m : ResourceMap) (k : String) : List Resource :=
  match m with
  | [] => []
  | (k', rs) :: rest => if k' = k then rs else ResourceMap.get rest k

/-- The assignment `m[k] = rs`. -/
def ResourceMap.set (m : ResourceMap) (k : String) (rs : List Resource) : ResourceMap :=
  match m with
  | [] => [(k, rs)]
  | (k', rs') :: rest => if k' = k then (k, rs) :: rest else (k', rs') :: ResourceMap.set rest k rs

/-- The resource index (`parser.ScanContext`); the `Metadata` map, which
nothing in the scanner reads, is left out. -/
structure ScanContext where
  ResourcesByType : ResourceMap := []
  ResourcesByFile : ResourceMap := []
  AllResources : List Resource := []
  CurrentResource : Option Resource := none

/-- The indexing loop of `NewScanContext` (context.go:38-41). -/
def indexResources (ctx : ScanContext) : List Resource → ScanContext
  | [] => ctx
  | resource :: rest =>
    indexResources
      { ctx with
        ResourcesByType :=
          ctx.ResourcesByType.set resource.Type_ (ctx.ResourcesByType.get resource.Type_ ++ [resource])
        ResourcesByFile :=
          ctx.ResourcesByFile.set resource.File (ctx.ResourcesByFile.get resource.File ++ [resource]) }
      rest

/-- `NewScanContext` (context.go:29-44). -/
def NewScanContext (resources : List Resource) : ScanContext :=
  indexResources { AllResources := resources } resources

/-- The order in which a `range` statement visits the entries of a map. -/
abbrev MapOrder := ResourceMap → ResourceMap

/-! ### Regular expressions (package regexp), as far as `GetResourcesByType`
uses them -/

/-- The characters that `regexp.QuoteMeta` escapes. -/
def regexpSpecial : List Char :=
  ['\\', '.', '+', '*', '?', '(', ')', '|', '[', ']', '\x7b', '\x7d', '^', '$']

/-- `regexp.QuoteMeta`: a backslash is put in front of every special
character. -/
def QuoteMeta (s : List Char) : List Char :=
  s.flatMap fun c => if c ∈ regexpSpecial then ['\\', c] else [c]

/-- `ReplaceAllString(src, repl)` for a regular expression that matches the
two characters `a`, `b` in a row and nothing else: every occurrence, from the
left and without overlap, is replaced with `repl`. -/
def replaceAllPair (a b : Char) (repl : List Char) : List Char → List Char
  | [] => []
  | [c] => [c]
  | c :: d :: rest =>
    if c = a ∧ d = b then repl ++ replaceAllPair a b repl rest
    else c :: replaceAllPair a b repl (d :: rest)

/-- The text of the regular expression that `GetResourcesByType` compiles for
a type pattern (context.go:57-60). -/
def typeRegexp (typePattern : String) : List Char :=
  let pattern := '^' :: QuoteMeta typePattern.toList
  let pattern := replaceAllPair '\\' '*' ['.', '*'] pattern
  let pattern := replaceAllPair '\\' '?' ['.'] pattern
  pattern ++ ['$']

/-- The pieces of a regular expression of the syntax that this model covers:
a literal character, `.`, `.*`, and `$`. -/
inductive RegexpNode where
  | lit (c : Char)
  | anyChar
  | anyStar
  | endText
  deriving DecidableEq, Repr

/-- The parse of a regular expression made of literal characters, escaped
special characters, `.`, `.*` and `$`; `none` for every other syntax (a
special character that is not escaped, an escape of another character, a
repetition of anything but `.`), which this model does not cover. -/
def regexpParse : List Char → Option (List RegexpNode)
  | [] => some []
  | [c] =>
    if c = '$' then some [.endText]
    else if c = '.' then some [.anyChar]
    else if c ∈ regexpSpecial then none
    else some [.lit c]
  | c :: d :: rest =>
    if c = '\\' then
      if d ∈ regexpSpecial then (regexpParse rest).map fun nodes => .lit d :: nodes else none
    else if c = '.' then
      if d = '*' then (regexpParse rest).map fun nodes => .anyStar :: nodes
      else (regexpParse (d :: rest)).map fun nodes => .anyChar :: nodes
    else if c = '$' then (regexpParse (d :: rest)).map fun nodes => .endText :: nodes
    else if c ∈ regexpSpecial then none
    else (regexpParse (d :: rest)).map fun nodes => .lit c :: nodes

/-- The match of `.*` followed by the rest of an expression: the rest is
tried after each run of characters other than a line feed, since `.` does not
match a line feed in Go's regexp syntax. -/
def matchAnyStar (k : List Char → Bool) : List Char → Bool
  | [] => k []
  | c :: cs => k (c :: cs) || (c ≠ '\n' && matchAnyStar k cs)

/-- Whether the pieces match a text from its beginning on; after the last
piece anything may follow. -/
def regexpMatchNodes : List RegexpNode → List Char → Bool
  | [], _ => true
  | .endText :: nodes, s => s.isEmpty && regexpMatchNodes nodes s
  | .anyStar :: nodes, s => matchAnyStar (regexpMatchNodes nodes) s
  | .anyChar :: nodes, s =>
    match s with
    | [] => false
    | c :: cs => c ≠ '\n' && regexpMatchNodes nodes cs
  | .lit p :: nodes, s =>
    match s with
    | [] => false
    | c :: cs => p = c && regexpMatchNodes nodes cs

/-- The call `regexp.MustCompile(re).MatchString(s)` for an expression that
starts with `^` and goes on in the syntax of `regexpParse`; `none` for every
other expression. -/
def regexpMatchString (re s : List Char) : Option Bool :=
  match re with
  | '^' :: body => (regexpParse body).map fun nodes => regexpMatchNodes nodes s
  | _ => none

/-- The test `regexp.MustCompile("[*?]").MatchString(typePattern)`. -/
def hasWildcard (typePattern : String) : Bool :=
  typePattern.toList.any fun c => c = '*' || c = '?'

/-- `ScanContext.GetResourcesByType` (context.go:47-72). The expression of
`typeRegexp` is always in the syntax of `regexpMatchString`
(`typeRegexp_match`), so that the default of `getD` is never used. -/
def GetResourcesByType (order : MapOrder) (ctx : ScanContext) (typePattern : String) :
    List Resource :=
  if typePattern = "*" then
    ctx.AllResources
  else if hasWildcard typePattern then
    ((order ctx.ResourcesByType).filter
      fun entry => (regexpMatchString (typeRegexp typePattern) entry.1.toList).getD false).flatMap
        fun entry => entry.2
  else
    ctx.ResourcesByType.get typePattern

/-! ## The predicate `contains_function_call` (pkg/functions/security.go) -/

/-- The order in which a `range` statement visits the entries of the map
`RawExprs` of a resource. -/
abbrev ExprMapOrder := List (String × Option Expression) → List (String × Option Expression)

/-- The implementation of the function that `ContainsFunctionCallFunc(ctx)`
builds (security.go:18-33), called with the string `targetFunc`: the value
returned, or the error. -/
def ContainsFunctionCallFunc (order : ExprMapOrder) (ctx : ScanContext) (targetFunc : String) :
    Except String CtyValue :=
  match ctx.CurrentResource with
  | none => .ok (.BoolVal false)
  | some resource =>
    if (order resource.RawExprs).any fun entry => containsFunctionCall entry.2 targetFunc then
      .ok (.BoolVal true)
    else
      .ok (.BoolVal false)

/-! ## Path matching (path/filepath on Unix, and `MatchesPath`) -/

/-- The bytes of a character in UTF-8. -/
def utf8EncodeChar (c : Char) : List Nat :=
  let n := c.toNat
  if n < 0x80 then [n]
  else if n < 0x800 then [0xC0 + n / 64, 0x80 + n % 64]
  else if n < 0x10000 then [0xE0 + n / 4096, 0x80 + n / 64 % 64, 0x80 + n % 64]
  else [0xF0 + n / 262144, 0x80 + n / 4096 % 64, 0x80 + n / 64 % 64, 0x80 + n % 64]

/-- The bytes of a Go string: `path/filepath` indexes and slices strings by
bytes and decodes a character where it needs one. -/
def stringBytes (text : String) : List Nat :=
  text.toList.flatMap utf8EncodeChar

/-- The rune `utf8.RuneError`. -/
def RuneError : Nat := 0xFFFD

/-- `utf8.DecodeRuneInString`: the rune at the beginning of the bytes and its
width; `(RuneError, 0)` for no bytes and `(RuneError, 1)` where the bytes do
not begin with the encoding of a rune. -/
def DecodeRuneInString (text : List Nat) : Nat × Nat :=
  match text with
  | [] => (RuneError, 0)
  | s0 :: rest =>
    if s0 < 0x80 then (s0, 1)
    else if s0 < 0xC2 || 0xF4 < s0 then (RuneError, 1)
    else
      let sz := if s0 < 0xE0 then 2 else if s0 < 0xF0 then 3 else 4
      let lo := if s0 = 0xE0 then 0xA0 else if s0 = 0xF0 then 0x90 else 0x80
      let hi := if s0 = 0xED then 0x9F else if s0 = 0xF4 then 0x8F else 0xBF
      if text.length < sz then (RuneError, 1)
      else
        match rest with
        | [] => (RuneError, 1)
        | s1 :: rest1 =>
          if s1 < lo || hi < s1 then (RuneError, 1)
          else if sz ≤ 2 then (s0 % 32 * 64 + s1 % 64, 2)
          else
            match rest1 with
            | [] => (RuneError, 1)
            | s2 :: rest2 =>
              if s2 < 0x80 || 0xBF < s2 then (RuneError, 1)
              else if sz ≤ 3 then (s0 % 16 * 4096 + s1 % 64 * 64 + s2 % 64, 3)
              else
                match rest2 with
                | [] => (RuneError, 1)
                | s3 :: _ =>
                  if s3 < 0x80 || 0xBF < s3 then (RuneError, 1)
                  else (s0 % 8 * 262144 + s1 % 64 * 4096 + s2 % 64 * 64 + s3 % 64, 4)

/-- The helper `getEsc` of `path/filepath`: the next rune of a character
class, with its escape removed, and the rest of the chunk; `none` is
`ErrBadPattern`. -/
def getEsc (chunk : List Nat) : Option (Nat × List Nat) :=
  match chunk with
  | [] => none
  | c :: rest =>
    if c = '-'.toNat || c = ']'.toNat then none
    else
      let chunk1 := if c = '\\'.toNat then rest else c :: rest
      if chunk1.isEmpty then none
      else
        let (r, n) := DecodeRuneInString chunk1
        let nchunk := chunk1.drop n
        if (r = RuneError && n = 1) || nchunk.isEmpty then none else some (r, nchunk)

/-- The range loop of a character class in `matchChunk`: whether some range
holds the rune `r`, and the chunk after the closing bracket; `none` is
`ErrBadPattern`. -/
def matchRanges (r : Nat) : Nat → List Nat → Bool → Nat → Option (Bool × List Nat)
  | 0, _, _, _ => none
  | fuel + 1, chunk, found, nrange =>
    if chunk.head? = some ']'.toNat && nrange > 0 then some (found, chunk.tail)
    else
      match getEsc chunk with
      | none => none
      | some (lo, chunk1) =>
        if chunk1.head? = some '-'.toNat then
          match getEsc chunk1.tail with
          | none => none
          | some (hi, chunk2) =>
            matchRanges r fuel chunk2 (found || (lo ≤ r && r ≤ hi)) (nrange + 1)
        else matchRanges r fuel chunk1 (found || (lo ≤ r && r ≤ lo)) (nrange + 1)

/-- The result of `matchChunk`: `ErrBadPattern`, no match, or a match with the
rest of the name. -/
inductive ChunkResult where
  | bad
  | fail
  | ok (rest : List Nat)
  deriving DecidableEq, Repr

/-- The helper `matchChunk` of `path/filepath`: `chunk` against the beginning
of `s`, both as bytes; `failed` is the flag of the same name in the source.
A class and `?` take the rune that `DecodeRuneInString` finds at the beginning
of `s`, any other byte of the chunk takes one byte of `s`. -/
def matchChunkLoop : Nat → List Nat → List Nat → Bool → ChunkResult
  | 0, _, _, _ => .bad
  | fuel + 1, chunk, s, failed =>
    match chunk with
    | [] => if failed then .fail else .ok s
    | c :: chunk1 =>
      let failed := failed || s.isEmpty
      if c = '['.toNat then
        let r : Nat := if failed then 0 else (DecodeRuneInString s).1
        let s1 := if failed then s else s.drop (DecodeRuneInString s).2
        let negated := chunk1.head? = some '^'.toNat
        let chunk2 := if negated then chunk1.tail else chunk1
        match matchRanges r (chunk2.length + 1) chunk2 false 0 with
        | none => .bad
        | some (found, chunk3) =>
          matchChunkLoop fuel chunk3 s1 (failed || (found == decide negated))
      else if c = '?'.toNat then
        matchChunkLoop fuel chunk1 (if failed then s else s.drop (DecodeRuneInString s).2)
          (failed || s.head? = some '/'.toNat)
      else if c = '\\'.toNat then
        match chunk1 with
        | [] => .bad
        | d :: chunk2 =>
          matchChunkLoop fuel chunk2 (if failed then s else s.tail) (failed || s.head? ≠ some d)
      else
        matchChunkLoop fuel chunk1 (if failed then s else s.tail) (failed || s.head? ≠ some c)

/-- A call `matchChunk(chunk, s)`. -/
def matchChunk (chunk s : List Nat) : ChunkResult :=
  matchChunkLoop (chunk.length + 1) chunk s false

/-- The scan of `scanChunk` after the leading stars: the chunk, up to the
first star outside brackets, and the rest of the pattern. -/
def scanChunkBody (inrange : Bool) : List Nat → List Nat × List Nat
  | [] => ([], [])
  | [c] => if c = '*'.toNat && !inrange then ([], [c]) else ([c], [])
  | c :: d :: rest =>
    if c = '\\'.toNat then
      let r := scanChunkBody inrange rest
      (c :: d :: r.1, r.2)
    else if c = '*'.toNat && !inrange then
      ([], c :: d :: rest)
    else
      let r := scanChunkBody
        (if c = '['.toNat then true else if c = ']'.toNat then false else inrange) (d :: rest)
      (c :: r.1, r.2)

/-- The helper `scanChunk` of `path/filepath`: whether the segment starts with
stars, the chunk, and the rest of the pattern. -/
def scanChunk (pattern : List Nat) : Bool × List Nat × List Nat :=
  let stripped := pattern.dropWhile fun c => c = '*'.toNat
  let r := scanChunkBody false stripped
  (decide (stripped.length < pattern.length), r.1, r.2)

/-- The loop "look for a match skipping i+1 bytes" of `filepath.Match`: the
first name left by a match of `chunk` after a skipped run of bytes without
separator; `last` says that no pattern is left, in which case the match must
use up the name. The outer `none` is `ErrBadPattern`, the inner `none` no
match. -/
def skipMatch (chunk : List Nat) (last : Bool) : List Nat → Option (Option (List Nat))
  | [] => some none
  | c :: rest =>
    if c = '/'.toNat then some none
    else
      match matchChunk chunk rest with
      | .ok t => if last && !t.isEmpty then skipMatch chunk last rest else some (some t)
      | .bad => none
      | .fail => skipMatch chunk last rest

/-- The check that `filepath.Match` makes before it returns false with no
error: the chunks of the rest of the pattern are matched against the empty
name, for their syntax only. The value is the result of `Match`: `none` is
`ErrBadPattern` and `some false` is no match. -/
def checkRest : Nat → List Nat → Option Bool
  | 0, _ => some false
  | fuel + 1, pattern =>
    if pattern.isEmpty then some false
    else
      let (_, chunk, rest) := scanChunk pattern
      match matchChunk chunk [] with
      | .bad => none
      | _ => checkRest fuel rest

/-- The loop of `filepath.Match`: `some matched` is the result
`(matched, nil)` and `none` is the result `(false, ErrBadPattern)`. -/
def matchLoop : Nat → List Nat → List Nat → Option Bool
  | 0, _, _ => some false
  | fuel + 1, pattern, name =>
    if pattern.isEmpty then some name.isEmpty
    else
      let (star, chunk, rest) := scanChunk pattern
      if star && chunk.isEmpty then
        some (!name.contains '/'.toNat)
      else
        match matchChunk chunk name with
        | .bad => none
        | .ok t =>
          if t.isEmpty || !rest.isEmpty then matchLoop fuel rest t
          else if star then
            match skipMatch chunk rest.isEmpty name with
            | some (some t1) => matchLoop fuel rest t1
            | some none => checkRest fuel rest
            | none => none
          else checkRest fuel rest
        | .fail =>
          if star then
            match skipMatch chunk rest.isEmpty name with
            | some (some t1) => matchLoop fuel rest t1
            | some none => checkRest fuel rest
            | none => none
          else checkRest fuel rest

/-- The call `filepath.Match(pattern, name)` on Unix: `*` is any run of
non-separator bytes, `?` one non-separator character, `[...]` a character
class, a backslash escapes the next character. `some matched` is the result
`(matched, nil)` and `none` is the result `(false, ErrBadPattern)` for a
malformed pattern. Pattern and name are taken as the bytes of their UTF-8
encoding, as in the source. -/
def filepathMatchResult (pattern name : String) : Option Bool :=
  matchLoop ((stringBytes pattern).length + 1) (stringBytes pattern) (stringBytes name)

/-- The first result of `filepath.Match(pattern, name)`, which is what the
callers that drop the error use; it is false when the second result is
`ErrBadPattern`. -/
def filepathMatch (pattern name : String) : Bool :=
  (filepathMatchResult pattern name).getD false

/-- `filepath.IsAbs` on Unix. -/
def filepathIsAbs (path : String) : Bool :=
  path.toList.head? = some '/'

/-- `filepath.Base` on Unix. -/
def filepathBase (path : String) : String :=
  if path = "" then "."
  else
    let stripped := (path.toList.reverse.dropWhile fun c => c = '/').reverse
    let last := (stripped.reverse.takeWhile fun c => c ≠ '/').reverse
    if last.isEmpty then "/" else String.mk last

/-- `parser.MatchesPath` (context.go:80-96). -/
def MatchesPath (pattern path : String) : Bool :=
  if filepathIsAbs pattern then
    filepathMatch pattern path
  else if filepathMatch pattern (filepathBase path) then
    true
  else
    filepathMatch pattern path

/-! ## The expression engine (collaborator) -/

/-- What parsing and evaluating one expression text gives: the diagnostics of
`hclsyntax.ParseExpression`, the diagnostics of `expr.Value`, or a value. -/
inductive HclOutcome where
  | parseDiags (text : String)
  | valueDiags (text : String)
  | value (v : CtyValue)

/-- The HCL engine with the function table of `functions.BuildFunctions(ctx)`:
it receives the expression text, the value bound to `self`, and the scan
context that the functions `resources`, `resources_in_file` and
`contains_function_call` read. -/
structure HclEngine where
  run : String → CtyValue → ScanContext → HclOutcome

/-- The assignment `attrs[key] = val` on the Go map that `resourceToCtyValue`
fills. -/
def setAttr (attrs : List (String × CtyValue)) (key : String) (val : CtyValue) :
    List (String × CtyValue) :=
  match attrs with
  | [] => [(key, val)]
  | (k, v) :: rest => if k = key then (key, val) :: rest else (k, v) :: setAttr rest key val

/-- `resourceToCtyValue` (scanner.go:236-251). -/
def resourceToCtyValue (resource : Resource) : CtyValue :=
  let attrs : List (String × CtyValue) := []
  let attrs := setAttr attrs "type" (.StringVal resource.Type_)
  let attrs := setAttr attrs "name" (.StringVal resource.Name)
  let attrs := setAttr attrs "file" (.StringVal resource.File)
  let attrs := setAttr attrs "line" (.NumberIntVal resource.Line)
  .ObjectVal (resource.Attributes.foldl (fun acc kv => setAttr acc kv.1 kv.2) attrs)

/-! ## Functions of the rule language (pkg/functions/domain.go) -/

/-- `resourceToCty` (domain.go:220-235). -/
def resourceToCty (resource : Resource) : CtyValue :=
  let attrs : List (String × CtyValue) := []
  let attrs := setAttr attrs "type" (.StringVal resource.Type_)
  let attrs := setAttr attrs "name" (.StringVal resource.Name)
  let attrs := setAttr attrs "file" (.StringVal resource.File)
  let attrs := setAttr attrs "line" (.NumberIntVal resource.Line)
  .ObjectVal (resource.Attributes.foldl (fun acc kv => setAttr acc kv.1 kv.2) attrs)

/-- `resourcesToCty` (domain.go:206-217): the value returned, or `none` where
`cty.ListVal` panics. -/
def resourcesToCty (resources : List Resource) : Option CtyValue :=
  if resources.length = 0 then
    some (ListValEmpty CtyType.dynamic)
  else
    ListVal (resources.map resourceToCty)

/-- The implementation of the function `resources` that `ResourcesFunc(ctx)`
builds (domain.go:24-28), called with the string `resourceType`: the value
returned (the error returned is always nil), or `none` where the
implementation panics. -/
def ResourcesFunc (order : MapOrder) (ctx : ScanContext) (resourceType : String) :
    Option CtyValue :=
  resourcesToCty (GetResourcesByType order ctx resourceType)

/-- `Value.IsNull()`. -/
def CtyValue.IsNull : CtyValue → Bool
  | .NullVal _ => true
  | _ => false

/-- The loop of `AnyTrueFunc` over the elements of the list
(domain.go:128-136). -/
def anyTrueLoop : List CtyValue → Bool
  | [] => false
  | val :: rest => if val.True_ then true else anyTrueLoop rest

/-- The loop of `AllTrueFunc` over the elements of the list
(domain.go:157-165). -/
def allTrueLoop : List CtyValue → Bool
  | [] => true
  | val :: rest => if !val.True_ then false else allTrueLoop rest

/-- The implementation of `AnyTrueFunc` (domain.go:117-137). The parameter has
the type `cty.List(cty.Bool)`, so the argument is null or a list; on another
value `LengthInt` panics, which is the error here. -/
def AnyTrueFunc (list : CtyValue) : Except String CtyValue :=
  if list.IsNull then
    .ok (.BoolVal false)
  else
    match list with
    | .ListVal _ elems =>
      if elems.length = 0 then
        .ok (.BoolVal false)
      else if anyTrueLoop elems then
        .ok (.BoolVal true)
      else
        .ok (.BoolVal false)
    | _ => .error "value is not a collection"

/-- The implementation of `AllTrueFunc` (domain.go:146-166), with the same
convention as `AnyTrueFunc`. -/
def AllTrueFunc (list : CtyValue) : Except String CtyValue :=
  if list.IsNull then
    .ok (.BoolVal false)
  else
    match list with
    | .ListVal _ elems =>
      if elems.length = 0 then
        .ok (.BoolVal true)
      else if allTrueLoop elems then
        .ok (.BoolVal true)
      else
        .ok (.BoolVal false)
    | _ => .error "value is not a collection"

/-! ## The scanner (pkg/scanner/scanner.go) -/

/-- The scanner (`scanner.Scanner`). The field `functions` of the Go struct is
the function table inside `hcl`. Go chooses the iteration order of a map anew
at each `range` statement, and `GetResourcesByType` ranges over the type index
once in each call (context.go:62), that is once for each rule: `orders i` is
the order of the range made for the rule that is scanned after `i` other
rules. -/
structure Scanner where
  config : Config
  rules : List Rule
  context : ScanContext
  hcl : HclEngine
  orders : Nat → MapOrder := fun _ => id

/-- The iteration order of the range over the type index that the scanner
makes for the next rule it scans. -/
def Scanner.order (s : Scanner) : MapOrder :=
  s.orders 0

/-- The scanner once a rule is scanned: the orders of the ranges that are
still to come. -/
def Scanner.nextRange (s : Scanner) : Scanner :=
  { s with orders := fun i => s.orders (i + 1) }

/-- `NewScanner` (scanner.go:26-33). -/
def NewScanner (hcl : HclEngine) (cfg : Config) (rules : List Rule) (ctx : ScanContext) : Scanner :=
  { config := cfg, rules := rules, context := ctx, hcl := hcl }

/-- `Scanner.evaluateExpression` (scanner.go:123-150); `ctx` is the state of
`s.context` at the call. -/
def evaluateExpression (hcl : HclEngine) (ctx : ScanContext) (exprStr : String)
    (resource : Resource) : Except String Bool :=
  match hcl.run exprStr (resourceToCtyValue resource) ctx with
  | .parseDiags diags => .error ("invalid expression: " ++ diags)
  | .valueDiags diags => .error ("evaluation error: " ++ diags)
  | .value value =>
    if value.Type_ = CtyType.bool then
      .ok value.True_
    else
      .error ("expression must return boolean, got " ++ value.Type_.FriendlyName)

/-- Where in `scanRule` a call of `evaluateExpression` is made: for the `when`
block (scanner.go:75) or for the condition of a given index (scanner.go:87). -/
inductive CallSite where
  | when
  | condition (index : Nat)
  deriving DecidableEq, Repr

/-- One call of `evaluateExpression`: the rule being scanned, the call site,
the expression text, the resource passed, `s.context.CurrentResource` at the
call, and what the call returned. -/
structure EvalCall where
  ruleID : String
  site : CallSite
  expr : String
  resource : Resource
  current : Option Resource
  outcome : Except String Bool

/-- The condition loop of `scanRule` (scanner.go:85-97) from the condition of
index `i` on: the value of `violated`, or the error returned, and the calls
made. -/
def evalConditions (hcl : HclEngine) (ctx : ScanContext) (rule : Rule) (resource : Resource) :
    Nat → List Condition → Except String Bool × List EvalCall
  | _, [] => (.ok false, [])
  | i, condition :: rest =>
    let outcome := evaluateExpression hcl ctx condition.Expression resource
    let call : EvalCall :=
      ⟨rule.ID, .condition i, condition.Expression, resource, ctx.CurrentResource, outcome⟩
    match outcome with
    | .error err => (.error ("error evaluating condition: " ++ err), [call])
    | .ok true => (.ok true, [call])
    | .ok false =>
      let r := evalConditions hcl ctx rule resource (i + 1) rest
      (r.1, call :: r.2)

/-- The violation record that `scanRule` builds (scanner.go:100-114). -/
def mkViolation (rule : Rule) (resource : Resource) : Violation :=
  { RuleID := rule.ID
    RuleName := rule.Name
    Severity := rule.Severity
    Message := rule.Message
    File := resource.File
    Line := resource.Line
    Column := resource.Column
    ResourceType := resource.Type_
    ResourceName := resource.Name
    Remediation := match rule.Remediation with
      | some text => text
      | none => "" }

/-- The part of the body of the resource loop of `scanRule` after the `when`
check (scanner.go:84-117): the violation appended, if any. -/
def checkConditions (hcl : HclEngine) (ctx : ScanContext) (rule : Rule) (resource : Resource) :
    Except String (Option Violation) × List EvalCall :=
  match evalConditions hcl ctx rule resource 0 rule.Conditions with
  | (.error err, calls) => (.error err, calls)
  | (.ok true, calls) => (.ok (some (mkViolation rule resource)), calls)
  | (.ok false, calls) => (.ok none, calls)

/-- The body of the resource loop of `scanRule` (scanner.go:73-117), run with
`CurrentResource` already set: the violation appended, if any, or the error
returned, and the calls made. -/
def scanResource (hcl : HclEngine) (ctx : ScanContext) (rule : Rule) (resource : Resource) :
    Except String (Option Violation) × List EvalCall :=
  match rule.When with
  | some w =>
    let outcome := evaluateExpression hcl ctx w.Expression resource
    let call : EvalCall := ⟨rule.ID, .when, w.Expression, resource, ctx.CurrentResource, outcome⟩
    match outcome with
    | .error err => (.error ("error evaluating when condition: " ++ err), [call])
    | .ok false => (.ok none, [call])
    | .ok true =>
      let r := checkConditions hcl ctx rule resource
      (r.1, call :: r.2)
  | none => checkConditions hcl ctx rule resource

/-- What a run of `scanRule` or of the rule loop of `Scan` leaves: the value
returned, the scan context afterwards, and the calls of `evaluateExpression`
made, in order. -/
structure RuleRun where
  result : Except String (List Violation)
  context : ScanContext
  calls : List EvalCall

/-- The resource loop of `scanRule` (scanner.go:69-118). The violations a
resource adds are put in front of those of the later resources, which is the
order the appends of the source give. -/
def scanResources (hcl : HclEngine) (rule : Rule) : ScanContext → List Resource → RuleRun
  | ctx, [] => { result := .ok [], context := ctx, calls := [] }
  | ctx, resource :: rest =>
    let ctx1 := { ctx with CurrentResource := some resource }
    match scanResource hcl ctx1 rule resource with
    | (.error err, calls) => { result := .error err, context := ctx1, calls := calls }
    | (.ok found, calls) =>
      let r := scanResources hcl rule ctx1 rest
      { result := r.result.map fun vs => found.toList ++ vs
        context := r.context
        calls := calls ++ r.calls }

/-- `Scanner.scanRule` (scanner.go:63-121), run on the scan context `ctx`. -/
def scanRule (s : Scanner) (ctx : ScanContext) (rule : Rule) : RuleRun :=
  scanResources s.hcl rule ctx (GetResourcesByType s.order ctx rule.ResourceType)

/-- The rule loop of `Scan` (scanner.go:46-52). Each call of `scanRule` makes
its own range over the type index, so the rules after the first are scanned
with the orders that follow. -/
def scanRules : Scanner → ScanContext → List Rule → RuleRun
  | _, ctx, [] => { result := .ok [], context := ctx, calls := [] }
  | s, ctx, rule :: rest =>
    let r1 := scanRule s ctx rule
    match r1.result with
    | .error err =>
      { result := .error ("error scanning rule " ++ rule.ID ++ ": " ++ err)
        context := r1.context
        calls := r1.calls }
    | .ok ruleViolations =>
      let r := scanRules s.nextRange r1.context rest
      { result := r.result.map fun vs => ruleViolations ++ vs
        context := r.context
        calls := r1.calls ++ r.calls }

/-! ## Time (package time) -/

/-- An instant: nanoseconds since 1970-01-01 00:00:00 UTC. -/
abbrev Time := Int

/-- Nanoseconds in a day. -/
def nanosPerDay : Int := 86400 * 1000000000

/-- The helper `isLeap` of package time. -/
def isLeap (year : Int) : Bool :=
  year % 4 = 0 && (year % 100 ≠ 0 || year % 400 = 0)

/-- The helper `daysIn` of package time: the number of days of a month. -/
def daysIn (month year : Int) : Int :=
  if month = 2 then (if isLeap year then 29 else 28)
  else if month = 4 || month = 6 || month = 9 || month = 11 then 30
  else 31

/-- Days of a year that come before its month `month`. -/
def daysBefore (month year : Int) : Int :=
  ((List.range (month - 1).toNat).map fun i => daysIn (i + 1) year).sum

/-- Days between 1970-01-01 and the given date of the proleptic Gregorian
calendar, for a year from 0 on. -/
def daysSinceEpoch (year month day : Int) : Int :=
  365 * year + (year + 3) / 4 - (year + 99) / 100 + (year + 399) / 400
    + daysBefore month year + (day - 1) - 719528

/-- The instant `time.Date(year, month, day, 0, 0, 0, 0, time.UTC)`. -/
def dateUTC (year month day : Int) : Time :=
  daysSinceEpoch year month day * nanosPerDay

/-- The value of a decimal digit, if the character is one. -/
def digitVal (c : Char) : Option Int :=
  if c.isDigit then some (c.toNat - 48 : Nat) else none

/-- `time.Parse("2006-01-02", value)`: a four-digit year, a two-digit month
from 01 to 12 and a two-digit day that exists in that month, with `-` between
them and nothing after; the result is midnight UTC of that date, and `none`
stands for the parse error. -/
def timeParse (value : String) : Option Time :=
  match value.toList with
  | [y1, y2, y3, y4, s1, m1, m2, s2, d1, d2] =>
    match digitVal y1, digitVal y2, digitVal y3, digitVal y4,
        digitVal m1, digitVal m2, digitVal d1, digitVal d2 with
    | some a, some b, some c, some d, some e, some f, some g, some h =>
      let year := 1000 * a + 100 * b + 10 * c + d
      let month := 10 * e + f
      let day := 10 * g + h
      if s1 = '-' ∧ s2 = '-' ∧ 1 ≤ month ∧ month ≤ 12 ∧ 1 ≤ day ∧ day ≤ daysIn month year then
        some (dateUTC year month day)
      else none
    | _, _, _, _, _, _, _, _ => none
  | _ => none

/-! ## Exceptions (scanner.go:152-234) -/

/-- The rule check of `findException` (scanner.go:180-190). -/
def ruleMatched (exception : Exception) (violation : Violation) : Bool :=
  exception.Rules.any fun ruleID => ruleID = violation.RuleID

/-- The path check of `findException` (scanner.go:192-204). -/
def pathMatched (exception : Exception) (violation : Violation) : Bool :=
  if exception.Paths.length > 0 then
    exception.Paths.any fun pattern => MatchesPath pattern violation.File
  else true

/-- The resource name check of `findException` (scanner.go:206-218). -/
def nameMatched (exception : Exception) (violation : Violation) : Bool :=
  if exception.ResourceNames.length > 0 then
    exception.ResourceNames.any fun pattern => MatchesPath pattern violation.ResourceName
  else true

/-- The expiration check of `findException` (scanner.go:220-227): true when
the exception is skipped as expired; `now` is the reading of `time.Now()`. -/
def expired (now : Time) (exception : Exception) : Bool :=
  match exception.ExpiresAt with
  | none => false
  | some text =>
    match timeParse text with
    | none => false
    | some expiryDate => decide (now > expiryDate)

/-- The loop of `findException` over the exceptions that are left. -/
def findExceptionIn (now : Time) (violation : Violation) : List Exception → Option Exception
  | [] => none
  | exception :: rest =>
    if !ruleMatched exception violation then findExceptionIn now violation rest
    else if !pathMatched exception violation then findExceptionIn now violation rest
    else if !nameMatched exception violation then findExceptionIn now violation rest
    else if expired now exception then findExceptionIn now violation rest
    else some exception

/-- `Scanner.findException` (scanner.go:178-234); `some e` is the Go result
`(&e, true)` and `none` is `(nil, false)`. -/
def findException (cfg : Config) (now : Time) (violation : Violation) : Option Exception :=
  findExceptionIn now violation cfg.Exceptions

/-- The line that `filterExceptions` writes to standard error for an applied
exception (scanner.go:160-164). -/
def exceptionNotice (violation : Violation) (exception : Exception) : String :=
  "✓ Exception applied: " ++ violation.ResourceType ++ "." ++ violation.ResourceName
    ++ " - " ++ violation.RuleID ++ " (Reason: " ++ exception.Reason ++ ")\n"

/-- What `filterExceptions` leaves: the two slices returned and the lines
written to standard error. -/
structure FilterRun where
  filtered : List Violation
  excepted : List FilteredViolation
  stderr : List String
  deriving DecidableEq, Repr

/-- `Scanner.filterExceptions` (scanner.go:152-176). -/
def filterExceptions (cfg : Config) (now : Time) : List Violation → FilterRun
  | [] => { filtered := [], excepted := [], stderr := [] }
  | violation :: rest =>
    let r := filterExceptions cfg now rest
    match findException cfg now violation with
    | some exception =>
      { filtered := r.filtered
        excepted := { Violation := violation, Exception := exception } :: r.excepted
        stderr := exceptionNotice violation exception :: r.stderr }
    | none => { r with filtered := violation :: r.filtered }

/-- The value `Scan` returns on success (`scanner.ScanResult`). -/
structure ScanResult where
  Violations : List Violation
  FilteredViolations : List FilteredViolation
  deriving DecidableEq, Repr

/-- What a run of `Scan` leaves: the value returned, the calls of
`evaluateExpression` made, and the lines written to standard error. -/
structure ScanRun where
  result : Except String ScanResult
  calls : List EvalCall
  stderr : List String

/-- `Scanner.Scan` (scanner.go:42-61). -/
def Scan (s : Scanner) (now : Time) : ScanRun :=
  let r := scanRules s s.context s.rules
  match r.result with
  | .error err => { result := .error err, calls := r.calls, stderr := [] }
  | .ok violations =>
    let f := filterExceptions s.config now violations
    { result := .ok { Violations := f.filtered, FilteredViolations := f.excepted }
      calls := r.calls
      stderr := f.stderr }

/-! ## Package net, as far as the CIDR functions use it -/

/-- An IP address (`net.IP`): a slice of bytes, 4 for IPv4 and 16 for IPv6;
the nil slice is the empty list. -/
abbrev IP := List Nat

/-- A network mask (`net.IPMask`): a slice of bytes. -/
abbrev IPMask := List Nat

/-- An IP network (`net.IPNet`). -/
structure IPNet where
  IP : IP
  Mask : IPMask
  deriving DecidableEq, Repr

/-- The byte loop of `net.CIDRMask`: `l` bytes are left to fill and `n` one
bits are left to place. -/
def cidrMaskLoop : Nat → Nat → List Nat
  | 0, _ => []
  | l + 1, n =>
    if n ≥ 8 then
      0xff :: cidrMaskLoop l (n - 8)
    else
      (0xff - (0xff >>> n)) :: cidrMaskLoop l 0

/-- `net.CIDRMask(ones, bits)`; the nil mask is the empty list. -/
def CIDRMask (ones bits : Int) : IPMask :=
  if bits ≠ 8 * 4 ∧ bits ≠ 8 * 16 then
    []
  else if ones < 0 ∨ ones > bits then
    []
  else
    cidrMaskLoop (bits / 8).toNat ones.toNat

/-- The loop `for v&0x80 != 0` of `simpleMaskLength` on the byte `v`: the
number of leading one bits counted and the byte left. -/
def leadingOnes : Nat → Nat → Nat × Nat
  | 0, v => (0, v)
  | fuel + 1, v =>
    if v &&& 0x80 ≠ 0 then
      let r := leadingOnes fuel ((v <<< 1) % 256)
      (r.1 + 1, r.2)
    else
      (0, v)

/-- The loop of `simpleMaskLength`, with the bits counted so far. -/
def simpleMaskLengthLoop (n : Int) : List Nat → Int
  | [] => n
  | v :: rest =>
    if v = 0xff then
      simpleMaskLengthLoop (n + 8) rest
    else
      let r := leadingOnes 8 v
      if r.2 ≠ 0 then -1
      else if rest.all fun b => b = 0 then n + r.1
      else -1

/-- `simpleMaskLength(mask)`: the number of leading ones of a mask made of
ones followed by zeros, and -1 for another mask. -/
def simpleMaskLength (mask : IPMask) : Int :=
  simpleMaskLengthLoop 0 mask

/-- `IPMask.Size()`: the number of leading ones and the number of bits. -/
def IPMask.Size (m : IPMask) : Int × Int :=
  if simpleMaskLength m = -1 then (0, 0) else (simpleMaskLength m, m.length * 8)

/-- The first twelve bytes of an IPv4 address in its 16-byte form. -/
def v4InV6Prefix : List Nat := [0, 0, 0, 0, 0, 0, 0, 0, 0, 0, 0xff, 0xff]

/-- `IP.Mask(mask)`; the nil result is the empty list. -/
def IP.Mask (ip : IP) (mask : IPMask) : IP :=
  let mask :=
    if mask.length = 16 ∧ ip.length = 4 ∧ (mask.take 12).all (fun b => b = 0xff) then
      mask.drop 12
    else mask
  let ip :=
    if mask.length = 4 ∧ ip.length = 16 ∧ ip.take 12 = v4InV6Prefix then ip.drop 12 else ip
  if ip.length ≠ mask.length then
    []
  else
    List.zipWith (fun b m => b &&& m) ip mask

/-- `IP.To4()`; the nil result is the empty list. -/
def IP.To4 (ip : IP) : IP :=
  if ip.length = 4 then ip
  else if ip.length = 16 ∧ ip.take 12 = v4InV6Prefix then ip.drop 12
  else []

/-- The digits of `n` in the given base, lowest last, with `fuel` digits at
most. -/
def digitsLoop (base : Nat) : Nat → Nat → List Char → List Char
  | 0, _, acc => acc
  | fuel + 1, n, acc =>
    let d := n % base
    let c := if d < 10 then Char.ofNat (48 + d) else Char.ofNat (87 + d)
    if n / base = 0 then c :: acc else digitsLoop base fuel (n / base) (c :: acc)

/-- The decimal text of a number (`uitoa`, `strconv.Itoa`). -/
def uitoa (n : Nat) : List Char :=
  digitsLoop 10 (n + 1) n []

/-- The hexadecimal text of a number, in lower case without leading zeros
(`appendHex`). -/
def appendHex (n : Nat) : List Char :=
  digitsLoop 16 (n + 1) n []

/-- The text of `hexString(b)`: two hexadecimal digits for each byte. -/
def hexString (b : List Nat) : List Char :=
  b.flatMap fun x => digitsLoop 16 1 (x / 16) [] ++ digitsLoop 16 1 (x % 16) []

/-- The 16-bit groups of a 16-byte address. -/
def v6u16 : List Nat → List Nat
  | hi :: lo :: rest => (hi * 256 + lo) :: v6u16 rest
  | _ => []

/-- The number of zero groups at the head of a list of groups. -/
def zeroRun : List Nat → Nat
  | [] => 0
  | g :: rest => if g = 0 then zeroRun rest + 1 else 0

/-- The first loop of `appendTo6`: the start and the end of the leftmost
longest run of two or more zero groups, from the group of index `i` on; the
start and the end are 255 while no run is found. -/
def zeroRange : Nat → List Nat → Nat × Nat → Nat × Nat
  | _, [], best => best
  | i, g :: rest, best =>
    let l := zeroRun (g :: rest)
    if l ≥ 2 ∧ l > best.2 - best.1 then
      zeroRange (i + 1) rest (i, i + l)
    else
      zeroRange (i + 1) rest best

/-- The second loop of `appendTo6`, from the group of index `i` on: the groups
of the zero run are replaced by two colons, and the other groups are written
in hexadecimal with a colon between two of them. -/
def appendGroups (zeroStart zeroEnd : Nat) : Nat → List Nat → List Char
  | _, [] => []
  | i, g :: rest =>
    if zeroStart ≤ i ∧ i < zeroEnd then
      (if i = zeroStart then [':', ':'] else []) ++ appendGroups zeroStart zeroEnd (i + 1) rest
    else
      (if i > 0 ∧ i ≠ zeroEnd then [':'] else []) ++ appendHex g
        ++ appendGroups zeroStart zeroEnd (i + 1) rest

/-- The text of a 16-byte address that is not an IPv4 address (`appendTo6`
without zone). -/
def string6 (ip : List Nat) : List Char :=
  let range := zeroRange 0 (v6u16 ip) (255, 255)
  appendGroups range.1 range.2 0 (v6u16 ip)

/-- The dotted text of a 4-byte address. -/
def string4 : List Nat → List Char
  | [] => []
  | [b] => uitoa b
  | b :: rest => uitoa b ++ '.' :: string4 rest

/-- The text of an address (`IP.String()`), as a list of characters. -/
def IP.chars (ip : IP) : List Char :=
  if ip.length = 0 then
    "<nil>".toList
  else if ip.length ≠ 4 ∧ ip.length ≠ 16 then
    '?' :: hexString ip
  else if (IP.To4 ip).length = 4 then
    string4 (IP.To4 ip)
  else
    string6 ip

/-- `IP.String()`. -/
def IP.String (ip : IP) : String :=
  String.mk (IP.chars ip)

/-- `networkNumberAndMask(n)`: `none` where the Go function returns two nil
slices. -/
def networkNumberAndMask (n : IPNet) : Option (IP × IPMask) :=
  let ip := if (IP.To4 n.IP).length = 0 then n.IP else IP.To4 n.IP
  if (IP.To4 n.IP).length = 0 ∧ ip.length ≠ 16 then
    none
  else if n.Mask.length = 4 then
    if ip.length ≠ 4 then none else some (ip, n.Mask)
  else if n.Mask.length = 16 then
    if ip.length = 4 then some (ip, n.Mask.drop 12) else some (ip, n.Mask)
  else
    none

/-- `IPNet.String()`. -/
def IPNet.String (n : IPNet) : String :=
  match networkNumberAndMask n with
  | none => "<nil>"
  | some (nn, m) =>
    if simpleMaskLength m = -1 then
      String.mk (IP.chars nn ++ '/' :: hexString m)
    else
      String.mk (IP.chars nn ++ '/' :: uitoa (simpleMaskLength m).toNat)

/-- The value of a decimal digit. -/
def decimalDigit (c : Char) : Option Nat :=
  if '0' ≤ c ∧ c ≤ '9' then some (c.toNat - 48) else none

/-- The value of a hexadecimal digit. -/
def hexDigit (c : Char) : Option Nat :=
  if '0' ≤ c ∧ c ≤ '9' then some (c.toNat - 48)
  else if 'a' ≤ c ∧ c ≤ 'f' then some (c.toNat - 97 + 10)
  else if 'A' ≤ c ∧ c ≤ 'F' then some (c.toNat - 65 + 10)
  else none

/-- The loop of `parseIPv4Fields` (package net/netip): `prev` is the
character before the current one, `val` and `digLen` are the value and the
number of digits of the current field, and `fields` are the fields closed so
far; `none` is a parse error. -/
def parseIPv4Fields : List Char → Option Char → Nat → Nat → List Nat → Option (List Nat)
  | [], _, val, _, fields => if fields.length < 3 then none else some (fields ++ [val])
  | c :: rest, prev, val, digLen, fields =>
    match decimalDigit c with
    | some d =>
      if digLen = 1 ∧ val = 0 then none
      else if val * 10 + d > 255 then none
      else parseIPv4Fields rest (some c) (val * 10 + d) (digLen + 1) fields
    | none =>
      if c = '.' then
        if prev = none ∨ rest = [] ∨ prev = some '.' then none
        else if fields.length = 3 then none
        else parseIPv4Fields rest (some c) 0 0 (fields ++ [val])
      else none

/-- `parseIPv4` (package net/netip): the four bytes, or `none`. -/
def parseIPv4 (s : List Char) : Option (List Nat) :=
  parseIPv4Fields s none 0 0 []

/-- The inner loop of `parseIPv6` that reads one group of hexadecimal digits:
the number of digits read, the value and the text left; `none` is the error
of a group of more than four digits. -/
def scanHex : List Char → Nat → Nat → Option (Nat × Nat × List Char)
  | [], off, acc => some (off, acc, [])
  | c :: rest, off, acc =>
    match hexDigit c with
    | none => some (off, acc, c :: rest)
    | some d =>
      if off > 3 then none
      else if acc * 16 + d > 0xffff then none
      else scanHex rest (off + 1) (acc * 16 + d)

/-- The end of `parseIPv6`: the text must be used up, and an address of fewer
than 16 bytes is filled with zeros at the ellipsis. -/
def expandEllipsis (s : List Char) (ip : List Nat) (ellipsis : Option Nat) :
    Option (List Nat) :=
  if s.length ≠ 0 then none
  else if ip.length < 16 then
    match ellipsis with
    | none => none
    | some e => some (ip.take e ++ List.replicate (16 - ip.length) 0 ++ ip.drop e)
  else
    match ellipsis with
    | some _ => none
    | none => some ip

/-- The main loop of `parseIPv6`, run at most `fuel` times: `s` is the text
left, `ip` holds the bytes read so far and `ellipsis` the position of the
double colon, if one was read. -/
def parseIPv6Loop : Nat → List Char → List Nat → Option Nat → Option (List Nat)
  | 0, s, ip, ellipsis => expandEllipsis s ip ellipsis
  | fuel + 1, s, ip, ellipsis =>
    if ¬ ip.length < 16 then expandEllipsis s ip ellipsis
    else
      match scanHex s 0 0 with
      | none => none
      | some (off, acc, rest) =>
        if off = 0 then none
        else if rest.head? = some '.' then
          if ellipsis = none ∧ ip.length ≠ 12 then none
          else if ip.length + 4 > 16 then none
          else
            match parseIPv4 s with
            | none => none
            | some fields => expandEllipsis [] (ip ++ fields) ellipsis
        else
          let ip := ip ++ [acc / 256, acc % 256]
          match rest with
          | [] => expandEllipsis [] ip ellipsis
          | c :: s1 =>
            if c ≠ ':' then none
            else
              match s1 with
              | [] => none
              | c1 :: s2 =>
                if c1 = ':' then
                  if ellipsis ≠ none then none
                  else if s2.length = 0 then expandEllipsis [] ip (some ip.length)
                  else parseIPv6Loop fuel s2 ip (some ip.length)
                else parseIPv6Loop fuel (c1 :: s2) ip ellipsis

/-- `parseIPv6` (package net/netip) on a text without zone: the 16 bytes, or
`none`. -/
def parseIPv6 (s : List Char) : Option (List Nat) :=
  match s with
  | ':' :: ':' :: rest =>
    if rest.length = 0 then some (List.replicate 16 0)
    else parseIPv6Loop 8 rest [] (some 0)
  | _ => parseIPv6Loop 8 s [] none

/-- `netip.ParseAddr` on a text that `net.ParseCIDR` accepts: the bytes of the
address, 4 for the dotted form and 16 for the form with colons; `none` is a
parse error or an address with a zone. -/
def ParseAddr (s : List Char) : Option (List Nat) :=
  match s.find? fun c => c = '.' ∨ c = ':' ∨ c = '%' with
  | some '.' => parseIPv4 s
  | some ':' => if s.contains '%' then none else parseIPv6 s
  | _ => none

/-- The loop of `dtoi`: the value and the text left, or `none` when the value
reaches `0xFFFFFF`. -/
def dtoiLoop : List Char → Nat → Option (Nat × List Char)
  | [], n => some (n, [])
  | c :: rest, n =>
    match decimalDigit c with
    | none => some (n, c :: rest)
    | some d => if n * 10 + d ≥ 0xFFFFFF then none else dtoiLoop rest (n * 10 + d)

/-- The prefix length that `net.ParseCIDR` reads after the slash: the text
must be a run of decimal digits with a value below `0xFFFFFF`. -/
def dtoi (s : List Char) : Option Nat :=
  match s with
  | [] => none
  | _ =>
    match dtoiLoop s 0 with
    | some (n, []) => if (s.head?.bind decimalDigit).isSome then some n else none
    | _ => none

/-- `net.ParseCIDR(s)`: the network of the result, `none` for a parse error. -/
def ParseCIDR (s : String) : Option IPNet :=
  match s.toList.span fun c => c ≠ '/' with
  | (_, []) => none
  | (addr, _ :: mask) =>
    match ParseAddr addr with
    | none => none
    | some ip =>
      match dtoi mask with
      | none => none
      | some n =>
        if n > 8 * ip.length then none
        else
          let m := CIDRMask n (8 * ip.length)
          let ip16 := if ip.length = 4 then v4InV6Prefix ++ ip else ip
          some { IP := IP.Mask ip16 m, Mask := m }

/-- The method `IPNet.Contains(ip)`. -/
def IPNet.Contains (n : IPNet) (ip : List Nat) : Bool :=
  match networkNumberAndMask n with
  | none => false
  | some (nn, m) =>
    let ip := if (IP.To4 ip).length = 0 then ip else IP.To4 ip
    if ip.length ≠ nn.length then false
    else (List.zipWith (fun b m => b &&& m) nn m) == (List.zipWith (fun b m => b &&& m) ip m)

/-! ## The CIDR functions (pkg/functions/cidr.go) -/

/-- The value of a Go `int` expression whose exact value is `x`: the integers
of 64 bits wrap around (`9223372036854775808` is `2^63`). -/
def wrapInt64 (x : Int) : Int :=
  (x + 9223372036854775808) % 18446744073709551616 - 9223372036854775808

/-- The result of `big.Float.Int64()` on the whole number `x`: the number
itself when it fits 64 bits, and the nearest of the bounds `-2^63` and
`2^63 - 1` otherwise. -/
def bigFloatInt64 (x : Int) : Int :=
  if x < -9223372036854775808 then -9223372036854775808
  else if x > 9223372036854775807 then 9223372036854775807
  else x

/-- The Go expression `x << s` on an `int` and an unsigned shift count. -/
def shiftLeftInt (x : Int) (s : Int) : Int :=
  if s ≥ 64 then 0 else wrapInt64 (x * 2 ^ s.toNat)

/-- The loop of `cidrHost` (cidr.go:121-125) on the bytes from the last one to
the first one. -/
def cidrHostLoop : List Nat → Int → List Nat
  | [], _ => []
  | b :: rest, hostBig =>
    if hostBig > 0 then
      (((hostBig % 256).toNat + b) % 256) :: cidrHostLoop rest (hostBig / 256)
    else
      b :: rest

/-- `cidrHost` (cidr.go:113-128). -/
def cidrHost (base : IP) (_mask : IPMask) (hostNum : Int) : IP :=
  (cidrHostLoop base.reverse hostNum).reverse

/-- `cidrSubnet` (cidr.go:130-149). -/
def cidrSubnet (network : IPNet) (newbits netnum : Int) : IPNet :=
  let ones := (IPMask.Size network.Mask).1
  let bits := (IPMask.Size network.Mask).2
  let newOnes := wrapInt64 (ones + newbits)
  if newOnes > bits then
    network
  else
    let newMask := CIDRMask newOnes bits
    let base := IP.Mask network.IP network.Mask
    let shiftAmount := wrapInt64 (bits - newOnes) % 18446744073709551616
    let subnet := cidrHost base newMask (shiftLeftInt netnum shiftAmount)
    { IP := IP.Mask subnet newMask, Mask := newMask }

/-- The implementation of `CIDRHostFunc` (cidr.go:19-32), called with a string
and a whole number. -/
def CIDRHostFunc (pfx : String) (hostnum : Int) : Except String CtyValue :=
  match ParseCIDR pfx with
  | none => .error ("invalid CIDR: invalid CIDR address: " ++ pfx)
  | some network =>
    .ok (.StringVal (IP.String (cidrHost network.IP network.Mask (bigFloatInt64 hostnum))))

/-- The implementation of `CIDRSubnetFunc` (cidr.go:62-77), called with a
string and two whole numbers. -/
def CIDRSubnetFunc (pfx : String) (newbits netnum : Int) : Except String CtyValue :=
  match ParseCIDR pfx with
  | none => .error ("invalid CIDR: invalid CIDR address: " ++ pfx)
  | some network =>
    .ok (.StringVal
      (IPNet.String (cidrSubnet network (bigFloatInt64 newbits) (bigFloatInt64 netnum))))

/-- The loop of `CIDRSubnetsFunc` over its arguments from the index `i` on
(cidr.go:99-105): the texts of the subnets, in order. -/
def cidrSubnetsLoop (network : IPNet) : Int → List Int → List CtyValue
  | _, [] => []
  | i, newbits :: rest =>
    .StringVal (IPNet.String (cidrSubnet network (bigFloatInt64 newbits) (i - 1)))
      :: cidrSubnetsLoop network (i + 1) rest

/-- The implementation of `CIDRSubnetsFunc` (cidr.go:90-108), called with a
string and the whole numbers of the variadic parameter: the value or the error
returned, or `none` where `cty.ListVal` panics. -/
def CIDRSubnetsFunc (pfx : String) (newbits : List Int) : Option (Except String CtyValue) :=
  match ParseCIDR pfx with
  | none => some (.error ("invalid CIDR: invalid CIDR address: " ++ pfx))
  | some network => (ListVal (cidrSubnetsLoop network 1 newbits)).map Except.ok

/-! ## Date formats (pkg/functions/datetime.go) -/

/-- The loop of `replaceAll` (datetime.go:98-106) on the characters of `s`,
with `result` built so far. A string of the rule language is valid UTF-8 and
the strings replaced are ASCII, so that the bytes the Go loop copies one by one
make up the characters copied here. The loop ends after at most one turn for
each character unless `old` is empty; `none` is the loop that does not end. -/
def replaceAllLoop (old new : List Char) : Nat → List Char → List Char → Option (List Char)
  | _, [], result => some result
  | 0, _ :: _, _ => none
  | fuel + 1, c :: s, result =>
    if (c :: s).length ≥ old.length ∧ (c :: s).take old.length = old then
      replaceAllLoop old new fuel ((c :: s).drop old.length) (result ++ new)
    else
      replaceAllLoop old new fuel s (result ++ [c])

/-- `replaceAll` (datetime.go:95-108). -/
def replaceAll (s old new : String) : Option String :=
  (replaceAllLoop old.toList new.toList s.length s.toList []).map String.mk

/-- The table `replacements` of `convertTerraformDateFormat`
(datetime.go:77-85), a Go map. -/
def replacements : List (String × String) :=
  [("YYYY", "2006"), ("YY", "06"), ("MM", "01"), ("DD", "02"), ("hh", "15"), ("mm", "04"),
    ("ss", "05")]

/-- The order in which a `range` statement visits the entries of the map
`replacements`. -/
abbrev ReplacementOrder := List (String × String) → List (String × String)

/-- The loop of `convertTerraformDateFormat` over the entries that are left
(datetime.go:88-90). -/
def convertLoop : List (String × String) → String → Option String
  | [], result => some result
  | (tf, go_) :: rest, result =>
    match replaceAll result tf go_ with
    | none => none
    | some replaced => convertLoop rest replaced

/-- `convertTerraformDateFormat` (datetime.go:75-93). -/
def convertTerraformDateFormat (order : ReplacementOrder) (tfFormat : String) : Option String :=
  convertLoop (order replacements) tfFormat

/-! ## Rule loading (pkg/config/loader.go) -/

/-- What `LoadRules` asks of its surroundings: `Glob` is `filepath.Glob` (the
error is the text of `filepath.ErrBadPattern`), `Stat` is `os.Stat` followed by
`IsDir` (`none` when `os.Stat` fails), `Join` is `filepath.Join` of a
directory and a pattern, and `DecodeFile` is `hclsimple.DecodeFile` into the
rule blocks of a file. -/
structure FileSystem where
  Glob : String → Except String (List String)
  Stat : String → Option Bool
  Join : String → String → String
  DecodeFile : String → Except String (List Rule)

/-- The loop over the matches of one path (loader.go:47-74). `pending` holds
the elements that the `range` statement has still to visit; the statement
reads the slice once, when the loop begins, so what the directory branch
appends to the variable `found` (the Go variable `matches`) is not visited.
The result is `allRules` and `found` after the loop. -/
def loadMatches (fs : FileSystem) :
    List String → List String → List Rule → Except String (List Rule × List String)
  | [], found, allRules => .ok (allRules, found)
  | path :: pending, found, allRules =>
    match fs.Stat path with
    | none => loadMatches fs pending found allRules
    | some true =>
      match fs.Glob (fs.Join path "*.hcl") with
      | .error _ => loadMatches fs pending found allRules
      | .ok files => loadMatches fs pending (found ++ files) allRules
    | some false =>
      match fs.DecodeFile path with
      | .error err => .error ("failed to load rules from " ++ path ++ ": " ++ err)
      | .ok rules => loadMatches fs pending found (allRules ++ rules)

/-- The loop over the paths of `LoadRules` (loader.go:35-75). -/
def loadPaths (fs : FileSystem) : List String → List Rule → Except String (List Rule)
  | [], allRules => .ok allRules
  | path :: rest, allRules =>
    match fs.Glob path with
    | .error err => .error ("invalid pattern " ++ path ++ ": " ++ err)
    | .ok found =>
      let found := if found.length = 0 then [path] else found
      match loadMatches fs found found allRules with
      | .error err => .error err
      | .ok (allRules, _) => loadPaths fs rest allRules

/-- `LoadRules` (loader.go:32-78). -/
def LoadRules (fs : FileSystem) (rulesPaths : List String) : Except String (List Rule) :=
  loadPaths fs rulesPaths []

/-! ## The reporter (pkg/reporter/reporter.go) -/

/-- The reporter (`reporter.Reporter`): the active violations and the
violations that an exception suppresses. -/
structure Reporter where
  violations : List Violation
  filteredViolations : List FilteredViolation

/-- `NewReporter` (reporter.go:17-22). -/
def NewReporter (violations : List Violation) (filtered : List FilteredViolation) : Reporter :=
  { violations := violations, filteredViolations := filtered }

/-- The loop of `Reporter.filterBySeverity` (reporter.go:236-243). -/
def filterBySeverityLoop (severity : String) : List Violation → List Violation
  | [] => []
  | v :: rest =>
    if v.Severity = severity then
      v :: filterBySeverityLoop severity rest
    else
      filterBySeverityLoop severity rest

/-- `Reporter.filterBySeverity` (reporter.go:234-244). -/
def Reporter.filterBySeverity (r : Reporter) (severity : String) : List Violation :=
  filterBySeverityLoop severity r.violations

/-- `Reporter.ShouldFail` (reporter.go:246-262). -/
def Reporter.ShouldFail (r : Reporter) (failOn : String) : Bool :=
  if r.violations.length = 0 then
    false
  else if failOn = "error" then
    decide ((r.filterBySeverity "error").length > 0)
  else if failOn = "warning" then
    decide ((r.filterBySeverity "warning").length > 0)
      || decide ((r.filterBySeverity "error").length > 0)
  else if failOn = "info" then
    decide (r.violations.length > 0)
  else
    decide ((r.filterBySeverity "error").length > 0)

/-! ## Definitions used to state the properties -/

/-- All checks of `findException` pass for this exception: the rule, path and
resource name checks hold and the exception is not skipped as expired. -/
def exceptionApplies (now : Time) (violation : Violation) (exception : Exception) : Bool :=
  ruleMatched exception violation && pathMatched exception violation
    && nameMatched exception violation && !expired now exception

/-- The number of the UTC day that holds the instant `now`, counted from
1970-01-01. -/
def utcDay (now : Time) : Int :=
  now / nanosPerDay

/-- The number of the calendar day, counted from 1970-01-01, of the instant
`now` on a host whose zone is `zone` nanoseconds east of UTC: the day whose
date `time.Now().Format("2006-01-02")` prints on that host. -/
def localDay (zone : Int) (now : Time) : Int :=
  (now + zone) / nanosPerDay

/-- An engine for literals: `true`, `false`, `null`, a string between double
quotes, and a run of decimal digits evaluate to their value; the conditional
`false ? true : null`, whose two results HCL converts to the one type
`cty.Bool`, evaluates to the null of that type; every other text gives parse
diagnostics. -/
def literalEngine : HclEngine where
  run text _ _ :=
    if text = "true" then .value (.BoolVal true)
    else if text = "false" then .value (.BoolVal false)
    else if text = "null" then .value (.NullVal .dynamic)
    else if text = "false ? true : null" then .value (.NullVal .bool)
    else
      match text.toList with
      | [] => .parseDiags "Missing expression"
      | c :: rest =>
        if c = '"' && rest.getLast? = some '"' then
          .value (.StringVal (String.mk rest.dropLast))
        else if (c :: rest).all Char.isDigit then
          .value (.NumberIntVal ((c :: rest).foldl (fun n d => 10 * n + (d.toNat - 48 : Nat)) 0))
        else .parseDiags "Invalid expression"

/-- The calls of `evaluateExpression` that evaluate the given conditions for
a resource one after the other, the first of them with index `i`. -/
def conditionCalls (hcl : HclEngine) (ctx : ScanContext) (rule : Rule) (resource : Resource) :
    Nat → List Condition → List EvalCall
  | _, [] => []
  | i, c :: cs =>
    ⟨rule.ID, .condition i, c.Expression, resource, ctx.CurrentResource,
      evaluateExpression hcl ctx c.Expression resource⟩
      :: conditionCalls hcl ctx rule resource (i + 1) cs

/-- The call of `evaluateExpression` for the `when` block of a rule, if the
rule has one. -/
def whenCalls (hcl : HclEngine) (ctx : ScanContext) (rule : Rule) (resource : Resource) :
    List EvalCall :=
  match rule.When with
  | some w =>
    [⟨rule.ID, .when, w.Expression, resource, ctx.CurrentResource,
      evaluateExpression hcl ctx w.Expression resource⟩]
  | none => []

/-- The call returned an error. -/
def EvalCall.failed (c : EvalCall) : Bool :=
  match c.outcome with
  | .error _ => true
  | .ok _ => false

/-- The error that `scanRule` returns when the call `c` returns the error
`err` (scanner.go:77 and scanner.go:89). -/
def ruleErrorText (c : EvalCall) (err : String) : String :=
  match c.site with
  | .when => "error evaluating when condition: " ++ err
  | .condition _ => "error evaluating condition: " ++ err

/-- The text `needle` occurs in the text `text`. -/
def Contains (text needle : String) : Prop :=
  ∃ before after : String, text = before ++ needle ++ after

/-- The fail-fast shape of what a loop of `scanRule` leaves: every call is
for the rule, no call of a successful run returned an error, and a failed run
ends with the one call that returned an error, whose text it wraps. -/
def FailFast {α : Type} (ruleID : String) (result : Except String α) (calls : List EvalCall) :
    Prop :=
  (∀ c ∈ calls, c.ruleID = ruleID) ∧
    match result with
    | .ok _ => ∀ c ∈ calls, c.failed = false
    | .error msg =>
      ∃ before c e, calls = before ++ [c] ∧ (∀ c' ∈ before, c'.failed = false) ∧
        c.outcome = .error e ∧ msg = ruleErrorText c e

/-- The fail-fast shape of what the rule loop of `Scan` leaves. -/
def ScanFailFast {α : Type} (result : Except String α) (calls : List EvalCall) : Prop :=
  match result with
  | .ok _ => ∀ c ∈ calls, c.failed = false
  | .error msg =>
    ∃ before c e, calls = before ++ [c] ∧ (∀ c' ∈ before, c'.failed = false) ∧
      c.outcome = .error e ∧
      msg = "error scanning rule " ++ c.ruleID ++ ": " ++ ruleErrorText c e

/-- The violations that the loop body of `scanRule` appends for a candidate
resource: the violation of the resource if the body finds one, and nothing
otherwise. -/
def resourceViolations (hcl : HclEngine) (ctx : ScanContext) (rule : Rule) (x : Resource) :
    List Violation :=
  match (scanResource hcl { ctx with CurrentResource := some x } rule x).1 with
  | .ok (some v) => [v]
  | _ => []

/-- Every resource that the map holds is held under its own type. -/
def ResourceMap.Typed (m : ResourceMap) : Prop :=
  ∀ entry ∈ m, ∀ r ∈ entry.2, r.Type_ = entry.1

/-- What `regexp.QuoteMeta` makes of one character. -/
def quotedChar (c : Char) : List Char :=
  if c ∈ regexpSpecial then ['\\', c] else [c]

/-- What `typeRegexp` makes of one character of the type pattern after the
first replacement: `.*` for `*`. -/
def starPiece (c : Char) : List Char :=
  if c = '*' then ['.', '*'] else quotedChar c

/-- What `typeRegexp` makes of one character of the type pattern: `.*` for
`*`, `.` for `?`, and the quoted character for any other. -/
def regexpPiece (c : Char) : List Char :=
  if c = '*' then ['.', '*'] else if c = '?' then ['.'] else quotedChar c

/-- The piece of a regular expression that one character of the type pattern
stands for. -/
def patternNode (c : Char) : RegexpNode :=
  if c = '*' then .anyStar else if c = '?' then .anyChar else .lit c

/-- What a type pattern with wildcards matches, as a function: `*` is any
run of characters other than a line feed, `?` is one character other than a
line feed, and every other character is itself. -/
def typePatternMatch : List Char → List Char → Bool
  | [], s => s.isEmpty
  | p :: ps, s =>
    if p = '*' then
      matchAnyStar (typePatternMatch ps) s
    else
      match s with
      | [] => false
      | c :: cs => (if p = '?' then c ≠ '\n' else p = c) && typePatternMatch ps cs

/-- What a type pattern with wildcards matches, as a relation between the
pattern and the type: `*` stands for a run of zero or more characters other
than a line feed, `?` for one character other than a line feed, and every
other character of the pattern for itself. -/
inductive WildcardMatch : List Char → List Char → Prop where
  | done : WildcardMatch [] []
  | star (ps run s : List Char) :
    (∀ c ∈ run, c ≠ '\n') → WildcardMatch ps s → WildcardMatch ('*' :: ps) (run ++ s)
  | one (ps : List Char) (c : Char) (s : List Char) :
    c ≠ '\n' → WildcardMatch ps s → WildcardMatch ('?' :: ps) (c :: s)
  | char (p : Char) (ps s : List Char) :
    p ≠ '*' → p ≠ '?' → WildcardMatch ps s → WildcardMatch (p :: ps) (p :: s)

mutual
/-- The callee names of all function-call nodes that occur in an expression,
at any depth and below every child of every node type. -/
def allCallNames : Expression → List String
  | .FunctionCallExpr name args => name :: allCallNamesList args
  | .TemplateExpr parts => allCallNamesList parts
  | .TemplateWrapExpr wrapped => allCallNames wrapped
  | .ConditionalExpr condition trueResult falseResult =>
    allCallNames condition ++ allCallNames trueResult ++ allCallNames falseResult
  | .BinaryOpExpr lhs _ rhs => allCallNames lhs ++ allCallNames rhs
  | .UnaryOpExpr _ val => allCallNames val
  | .ParenthesesExpr expression => allCallNames expression
  | .IndexExpr collection key => allCallNames collection ++ allCallNames key
  | .RelativeTraversalExpr source _ => allCallNames source
  | .SplatExpr source each => allCallNames source ++ allCallNamesOptional each
  | .ForExpr collExpr keyExpr valExpr condExpr =>
    allCallNames collExpr ++ allCallNamesOptional keyExpr ++ allCallNamesOptional valExpr
      ++ allCallNamesOptional condExpr
  | .ObjectConsExpr items => allCallNamesItems items
  | .TupleConsExpr exprs => allCallNamesList exprs
  | .ObjectConsKeyExpr wrapped => allCallNames wrapped
  | .TemplateJoinExpr tuple => allCallNames tuple
  | .LiteralValueExpr _ => []
  | .ScopeTraversalExpr _ => []
  | .AnonSymbolExpr => []
  | .ExprSyntaxError => []
/-- The callee names in a list of expressions. -/
def allCallNamesList : List Expression → List String
  | [] => []
  | expr :: rest => allCallNames expr ++ allCallNamesList rest
/-- The callee names in the keys and values of the items of an object
constructor. -/
def allCallNamesItems : List (Expression × Expression) → List String
  | [] => []
  | (keyExpr, valueExpr) :: rest =>
    allCallNames keyExpr ++ allCallNames valueExpr ++ allCallNamesItems rest
/-- The callee names in a child that may be nil. -/
def allCallNamesOptional : Option Expression → List String
  | none => []
  | some expr => allCallNames expr
end

mutual
/-- No node of the expression is an `ObjectConsKeyExpr` or a
`TemplateJoinExpr`, the two node types with a child expression for which
`walkExpression` has no case. -/
def allNodesWalked : Expression → Bool
  | .FunctionCallExpr _ args => allNodesWalkedList args
  | .TemplateExpr parts => allNodesWalkedList parts
  | .TemplateWrapExpr wrapped => allNodesWalked wrapped
  | .ConditionalExpr condition trueResult falseResult =>
    allNodesWalked condition && allNodesWalked trueResult && allNodesWalked falseResult
  | .BinaryOpExpr lhs _ rhs => allNodesWalked lhs && allNodesWalked rhs
  | .UnaryOpExpr _ val => allNodesWalked val
  | .ParenthesesExpr expression => allNodesWalked expression
  | .IndexExpr collection key => allNodesWalked collection && allNodesWalked key
  | .RelativeTraversalExpr source _ => allNodesWalked source
  | .SplatExpr source each => allNodesWalked source && allNodesWalkedOptional each
  | .ForExpr collExpr keyExpr valExpr condExpr =>
    allNodesWalked collExpr && allNodesWalkedOptional keyExpr && allNodesWalkedOptional valExpr
      && allNodesWalkedOptional condExpr
  | .ObjectConsExpr items => allNodesWalkedItems items
  | .TupleConsExpr exprs => allNodesWalkedList exprs
  | .ObjectConsKeyExpr _ => false
  | .TemplateJoinExpr _ => false
  | .LiteralValueExpr _ => true
  | .ScopeTraversalExpr _ => true
  | .AnonSymbolExpr => true
  | .ExprSyntaxError => true
/-- The same for a list of expressions. -/
def allNodesWalkedList : List Expression → Bool
  | [] => true
  | expr :: rest => allNodesWalked expr && allNodesWalkedList rest
/-- The same for the items of an object constructor. -/
def allNodesWalkedItems : List (Expression × Expression) → Bool
  | [] => true
  | (keyExpr, valueExpr) :: rest =>
    allNodesWalked keyExpr && allNodesWalked valueExpr && allNodesWalkedItems rest
/-- The same for a child that may be nil. -/
def allNodesWalkedOptional : Option Expression → Bool
  | none => true
  | some expr => allNodesWalked expr
end

/-- The value `val.GetAttr(name)` of an object value, `none` where the library
panics: on a value that is not an object, or on an object without the
attribute. -/
def CtyValue.GetAttr (val : CtyValue) (name : String) : Option CtyValue :=
  match val with
  | .ObjectVal attrs => (attrs.find? fun kv => kv.1 = name).map Prod.snd
  | _ => none

/-- The number that the bytes of an address write, the first byte being the
highest. -/
def ipValue (ip : List Nat) : Nat :=
  ip.foldl (fun acc b => acc * 256 + b) 0

/-- The address of `len` bytes that writes the number `v`. -/
def ipBytes : Nat → Nat → List Nat
  | 0, _ => []
  | len + 1, v => ipBytes len (v / 256) ++ [v % 256]

/-! ## Sample data -/

/-- A resource of type `aws_instance`. -/
def sampleInstance : Resource :=
  { Type_ := "aws_instance", Name := "web", File := "main.tf", Line := 3, Column := 1 }

/-- A resource of type `aws_s3_bucket`. -/
def sampleBucket : Resource :=
  { Type_ := "aws_s3_bucket", Name := "logs", File := "main.tf", Line := 9, Column := 1 }

/-- A scanner over the sample resources with the literal engine. -/
def sampleScanner (rules : List Rule) : Scanner :=
  NewScanner literalEngine {} rules (NewScanContext [sampleInstance, sampleBucket, sampleInstance])

/-- A rule whose `when` block is false and whose condition is true. -/
def gatedRule : Rule :=
  { ID := "gated", ResourceType := "aws_instance", When := some ⟨"false"⟩,
    Conditions := [⟨"true"⟩] }

/-- A rule with the conditions false, true and one that cannot be parsed. -/
def shortCircuitRule : Rule :=
  { ID := "short", ResourceType := "aws_instance",
    Conditions := [⟨"false"⟩, ⟨"true"⟩, ⟨"invalid \x7b\x7b\x7b syntax"⟩] }

/-- A rule with a single condition that is true. -/
def alwaysRule : Rule :=
  { ID := "always", ResourceType := "aws_instance", Conditions := [⟨"true"⟩] }

/-- A rule whose only condition cannot be parsed. -/
def brokenRule : Rule :=
  { ID := "invalid", ResourceType := "aws_s3_bucket", Conditions := [⟨"invalid \x7b\x7b\x7b syntax"⟩] }

/-- The call of `evaluateExpression` that fails when `brokenRule` is scanned
on the sample resources. -/
def brokenCall : EvalCall :=
  ⟨"invalid", .condition 0, "invalid \x7b\x7b\x7b syntax", sampleBucket, some sampleBucket,
    .error "invalid expression: Invalid expression"⟩

/-- An exception for rule `r` on resources named `x_*`. -/
def narrowException : Exception :=
  { Rules := ["r"], ResourceNames := ["x_*"] }

/-- An exception for rule `r` on every resource. -/
def broadException : Exception :=
  { Rules := ["r"] }

/-- A violation of rule `r` on the resource `y`. -/
def sampleViolation : Violation :=
  { RuleID := "r", ResourceName := "y", File := "main.tf" }

/-- An exception for rule `r` with the expiry date 2024-06-15. -/
def exceptionUntil15 : Exception :=
  { Rules := ["r"], ExpiresAt := some "2024-06-15" }

/-- An exception for rule `r` whose expiry is not a date. -/
def exceptionBadDate : Exception :=
  { Rules := ["r"], ExpiresAt := some "not-a-date" }

/-- An exception for rule `r` whose expiry is the empty string. -/
def exceptionEmptyDate : Exception :=
  { Rules := ["r"], ExpiresAt := some "" }

/-- The instant 2024-06-14 12:00:00 UTC. -/
def noonJune14 : Time := 1718366400000000000

/-- The expression `upper(trim(var.x))`. -/
def upperTrimExpr : Expression :=
  .FunctionCallExpr "upper" [.FunctionCallExpr "trim" [.ScopeTraversalExpr ["var", "x"]]]

/-- The expression `a ? f(x) : g(y)`. -/
def conditionalCallsExpr : Expression :=
  .ConditionalExpr (.ScopeTraversalExpr ["a"])
    (.FunctionCallExpr "f" [.ScopeTraversalExpr ["x"]])
    (.FunctionCallExpr "g" [.ScopeTraversalExpr ["y"]])

/-- The object constructor with the one item `(f(x)) = 1`, as the parser
builds it: the key is wrapped in an `ObjectConsKeyExpr`. -/
def computedKeyExpr : Expression :=
  .ObjectConsExpr
    [(.ObjectConsKeyExpr (.ParenthesesExpr (.FunctionCallExpr "f" [.ScopeTraversalExpr ["x"]])),
      .LiteralValueExpr (.NumberIntVal 1))]

/-- The object constructor with the one item `k = f(x)`, as the parser builds
it. -/
def callValueExpr : Expression :=
  .ObjectConsExpr
    [(.ObjectConsKeyExpr (.ScopeTraversalExpr ["k"]),
      .FunctionCallExpr "f" [.ScopeTraversalExpr ["x"]])]

/-- The tuple of `1` and the object constructor `computedKeyExpr`. -/
def tupleWithKeyExpr : Expression :=
  .TupleConsExpr [.LiteralValueExpr (.NumberIntVal 1), computedKeyExpr]

/-- The tuple `[1, f(x)]`. -/
def tupleWithCallExpr : Expression :=
  .TupleConsExpr [.LiteralValueExpr (.NumberIntVal 1),
    .FunctionCallExpr "f" [.ScopeTraversalExpr ["x"]]]

/-- A template whose only part is a `for` directive over the collection
`f(x)`, as the parser builds it: the directive is a `TemplateJoinExpr` over a
`ForExpr`. -/
def templateForExpr : Expression :=
  .TemplateExpr
    [.TemplateJoinExpr
      (.ForExpr (.FunctionCallExpr "f" [.ScopeTraversalExpr ["x"]]) none
        (some (.TemplateExpr [.ScopeTraversalExpr ["v"]])) none)]

/-- A resource whose attribute `tags` is `computedKeyExpr` and whose attribute
`name` is `upper(trim(var.x))`. -/
def sampleRawResource : Resource :=
  { Type_ := "aws_instance", Name := "raw",
    RawExprs := [("tags", some computedKeyExpr), ("name", some upperTrimExpr)] }

/-- A resource whose type is `aws_`, a line feed and `x`. -/
def lineFeedResource : Resource :=
  { Type_ := "aws_\nx", Name := "odd" }

/-- A resource of type `azurerm_virtual_machine`. -/
def sampleMachine : Resource :=
  { Type_ := "azurerm_virtual_machine", Name := "vm", File := "main.tf", Line := 20, Column := 1 }

/-- A second resource of type `aws_instance`, declared after the bucket. -/
def secondInstance : Resource :=
  { Type_ := "aws_instance", Name := "db", File := "main.tf", Line := 15, Column := 1 }

/-- A rule for the types `aws_*` with a single condition that is true. -/
def wildcardRule : Rule :=
  { ID := "wild", ResourceType := "aws_*", Conditions := [⟨"true"⟩] }

/-- A scanner with the rule `wildcardRule` over an instance, a bucket and a
second instance, extracted in this order, whose maps are visited in the given
order. -/
def wildcardScanner (order : MapOrder) : Scanner :=
  { config := {}, rules := [wildcardRule],
    context := NewScanContext [sampleInstance, sampleBucket, secondInstance],
    hcl := literalEngine, orders := fun _ => order }

/-- A second rule for the types `aws_*` with a single condition that is
true. -/
def wildcardAgainRule : Rule :=
  { ID := "wild-again", ResourceType := "aws_*", Conditions := [⟨"true"⟩] }

/-- A scanner with the two rules `wildcardRule` and `wildcardAgainRule` over
an instance, a bucket and a second instance, extracted in this order; the
range over the type index made for the first rule visits it in the order of
its keys and the range made for the second rule visits it in the reverse
order. -/
def twoWildcardScanner : Scanner :=
  { config := {}, rules := [wildcardRule, wildcardAgainRule],
    context := NewScanContext [sampleInstance, sampleBucket, secondInstance],
    hcl := literalEngine, orders := fun i => if i = 0 then id else List.reverse }

/-- A rule for buckets with a name, a severity, a message and a remediation
text, and a single condition that is true. -/
def remediationRule : Rule :=
  { ID := "fix", Name := "Bucket found", Severity := "warning", ResourceType := "aws_s3_bucket",
    Conditions := [⟨"true"⟩], Message := "a bucket is declared",
    Remediation := some "remove the bucket" }

/-- A resource named `admin` that declares the attribute `name`. -/
def namedRole : Resource :=
  { Type_ := "aws_iam_role", Name := "admin", File := "iam.tf", Line := 4, Column := 1,
    Attributes := [("name", .StringVal "prod-admin"), ("path", .StringVal "/")] }

/-- An instance that declares the attribute `ami`. -/
def plainInstance : Resource :=
  { Type_ := "aws_instance", Name := "app", File := "main.tf", Line := 1, Column := 1,
    Attributes := [("ami", .StringVal "ami-12345")] }

/-- An instance that declares the attributes `ami` and `monitoring`. -/
def monitoredInstance : Resource :=
  { Type_ := "aws_instance", Name := "job", File := "main.tf", Line := 6, Column := 1,
    Attributes := [("ami", .StringVal "ami-12345"), ("monitoring", .BoolVal true)] }

/-- A violation of severity `warning`. -/
def warningViolation : Violation :=
  { RuleID := "w", Severity := "warning" }

/-- A violation of severity `error`. -/
def errorViolation : Violation :=
  { RuleID := "e", Severity := "error" }

/-- A file system with the directory `rules`, which holds the one file
`rules/aws.hcl`, whose only rule is `alwaysRule`. -/
def rulesDirectory : FileSystem where
  Glob pattern :=
    if pattern = "rules" then .ok ["rules"]
    else if pattern = "rules/*.hcl" ∨ pattern = "rules/aws.hcl" then .ok ["rules/aws.hcl"]
    else .ok []
  Stat path :=
    if path = "rules" then some true
    else if path = "rules/aws.hcl" then some false
    else none
  Join dir pattern := dir ++ "/" ++ pattern
  DecodeFile path :=
    if path = "rules/aws.hcl" then .ok [alwaysRule]
    else .error "file not found"

/-- An exception for rule `r` with the expiry date 2024-06-14. -/
def exceptionUntil14 : Exception :=
  { Rules := ["r"], ExpiresAt := some "2024-06-14" }

/-- A rule for buckets whose `when` expression is a number and whose condition
cannot be parsed. -/
def unusableRule : Rule :=
  { ID := "unusable", ResourceType := "aws_s3_bucket", When := some ⟨"1"⟩,
    Conditions := [⟨"invalid \x7b\x7b\x7b syntax"⟩] }

/-- A scanner with the rule `unusableRule` over one instance. -/
def instanceScanner : Scanner :=
  NewScanner literalEngine {} [unusableRule] (NewScanContext [sampleInstance])

/-- The violation of `TestFilterExceptionsExpired` and
`TestFilterExceptionsNotExpired` (scanner_test.go:382-388, 420-426). -/
def expiryTestViolation : Violation :=
  { RuleID := "test", ResourceName := "resource", File := "test.tf" }

/-- The exception of these two tests (scanner_test.go:395-400, 433-438) with
the given expiry date. -/
def expiryTestException (date : String) : Exception :=
  { Rules := ["test"], Reason := "Temporary", ApprovedBy := "admin@example.com",
    ExpiresAt := some date }

/-- The instant 2024-06-15 03:00:00 UTC, which is 20:00:00 of 2024-06-14 on a
host seven hours west of UTC. -/
def eveningJune14 : Time := 1718420400000000000

/-- The zone seven hours west of UTC, in nanoseconds east of UTC. -/
def sevenHoursWest : Int := -25200000000000

/-! ## Lemmas on the exception filter -/

theorem findExceptionIn_cons (now : Time) (v : Violation) (e : Exception) (rest : List Exception) :
    findExceptionIn now v (e :: rest) =
      if exceptionApplies now v e then some e else findExceptionIn now v rest := by
  simp only [findExceptionIn, exceptionApplies]
  split_ifs <;> simp_all

theorem findExceptionIn_first (now : Time) (v : Violation) (e : Exception) :
    ∀ (pre post : List Exception), (∀ e' ∈ pre, exceptionApplies now v e' = false) →
      exceptionApplies now v e = true → findExceptionIn now v (pre ++ e :: post) = some e
  | [], post, _, he => by simp [findExceptionIn_cons, he]
  | p :: pre, post, hpre, he => by
    have hp : exceptionApplies now v p = false := hpre p (List.mem_cons_self _ _)
    have ih := findExceptionIn_first now v e pre post
      (fun e' he' => hpre e' (List.mem_cons_of_mem _ he')) he
    simp [findExceptionIn_cons, hp, ih]

theorem findExceptionIn_none (now : Time) (v : Violation) :
    ∀ (es : List Exception), (∀ e' ∈ es, exceptionApplies now v e' = false) →
      findExceptionIn now v es = none
  | [], _ => rfl
  | p :: es, h => by
    have hp : exceptionApplies now v p = false := h p (List.mem_cons_self _ _)
    have ih := findExceptionIn_none now v es (fun e' he' => h e' (List.mem_cons_of_mem _ he'))
    simp [findExceptionIn_cons, hp, ih]

theorem findExceptionIn_isSome (now : Time) (v : Violation) :
    ∀ (es : List Exception),
      (findExceptionIn now v es).isSome = true ↔ ∃ e ∈ es, exceptionApplies now v e = true
  | [] => by simp [findExceptionIn]
  | p :: es => by
    rw [findExceptionIn_cons]
    by_cases hp : exceptionApplies now v p = true
    · simp [hp]
    · simp [hp, findExceptionIn_isSome now v es]

theorem findExceptionIn_some_applies (now : Time) (v : Violation) (e : Exception) :
    ∀ (es : List Exception), findExceptionIn now v es = some e →
      e ∈ es ∧ exceptionApplies now v e = true
  | [], h => by simp [findExceptionIn] at h
  | p :: es, h => by
    rw [findExceptionIn_cons] at h
    by_cases hp : exceptionApplies now v p = true
    · simp [hp] at h
      subst h
      exact ⟨List.mem_cons_self _ _, hp⟩
    · simp [hp] at h
      have ih := findExceptionIn_some_applies now v e es h
      exact ⟨List.mem_cons_of_mem _ ih.1, ih.2⟩

theorem filterExceptions_cons (cfg : Config) (now : Time) (v : Violation) (rest : List Violation) :
    filterExceptions cfg now (v :: rest) =
      match findException cfg now v with
      | some e =>
        { filtered := (filterExceptions cfg now rest).filtered
          excepted := ⟨v, e⟩ :: (filterExceptions cfg now rest).excepted
          stderr := exceptionNotice v e :: (filterExceptions cfg now rest).stderr }
      | none =>
        { filtered := v :: (filterExceptions cfg now rest).filtered
          excepted := (filterExceptions cfg now rest).excepted
          stderr := (filterExceptions cfg now rest).stderr } := by
  simp only [filterExceptions]

theorem filterExceptions_filtered (cfg : Config) (now : Time) :
    ∀ (vs : List Violation), (filterExceptions cfg now vs).filtered =
      vs.filter fun v => (findException cfg now v).isNone
  | [] => rfl
  | v :: rest => by
    rw [filterExceptions_cons]
    have ih := filterExceptions_filtered cfg now rest
    cases h : findException cfg now v <;> simp [List.filter_cons, h, ih]

theorem filterExceptions_excepted (cfg : Config) (now : Time) :
    ∀ (vs : List Violation), (filterExceptions cfg now vs).excepted =
      vs.filterMap fun v => (findException cfg now v).map fun e => ⟨v, e⟩
  | [] => rfl
  | v :: rest => by
    rw [filterExceptions_cons]
    have ih := filterExceptions_excepted cfg now rest
    cases h : findException cfg now v <;> simp [List.filterMap_cons, h, ih]

theorem filterExceptions_length (cfg : Config) (now : Time) :
    ∀ (vs : List Violation),
      (filterExceptions cfg now vs).filtered.length + (filterExceptions cfg now vs).excepted.length
        = vs.length
  | [] => rfl
  | v :: rest => by
    rw [filterExceptions_cons]
    have ih := filterExceptions_length cfg now rest
    cases h : findException cfg now v <;> simp only [List.length_cons] <;> omega

theorem filterExceptions_excepted_sublist (cfg : Config) (now : Time) :
    ∀ (vs : List Violation),
      ((filterExceptions cfg now vs).excepted.map fun fv => fv.Violation).Sublist vs
  | [] => by simp [filterExceptions]
  | v :: rest => by
    rw [filterExceptions_cons]
    have ih := filterExceptions_excepted_sublist cfg now rest
    cases h : findException cfg now v
    · exact List.Sublist.cons _ ih
    · simpa using ih

theorem ruleMatched_iff (e : Exception) (v : Violation) :
    ruleMatched e v = true ↔ v.RuleID ∈ e.Rules := by
  simp only [ruleMatched, List.any_eq_true, decide_eq_true_eq]
  constructor
  · rintro ⟨x, hx, rfl⟩
    exact hx
  · intro h
    exact ⟨_, h, rfl⟩

theorem pathMatched_iff (e : Exception) (v : Violation) :
    pathMatched e v = true ↔ (e.Paths = [] ∨ ∃ p ∈ e.Paths, MatchesPath p v.File = true) := by
  unfold pathMatched
  cases h : e.Paths with
  | nil => simp
  | cons p ps => simp [List.any_cons]

theorem nameMatched_iff (e : Exception) (v : Violation) :
    nameMatched e v = true ↔
      (e.ResourceNames = [] ∨ ∃ p ∈ e.ResourceNames, MatchesPath p v.ResourceName = true) := by
  unfold nameMatched
  cases h : e.ResourceNames with
  | nil => simp
  | cons p ps => simp [List.any_cons]

theorem expired_eq_false_iff (now : Time) (e : Exception) :
    expired now e = false ↔
      (e.ExpiresAt = none ∨
        ∃ text, e.ExpiresAt = some text ∧ ¬ ∃ t, timeParse text = some t ∧ now > t) := by
  unfold expired
  cases hx : e.ExpiresAt with
  | none => simp
  | some text =>
    cases ht : timeParse text with
    | none => simp [ht]
    | some t => simp [ht]

theorem exceptionApplies_iff (now : Time) (v : Violation) (e : Exception) :
    exceptionApplies now v e = true ↔
      (v.RuleID ∈ e.Rules ∧
        (e.Paths = [] ∨ ∃ p ∈ e.Paths, MatchesPath p v.File = true) ∧
        (e.ResourceNames = [] ∨ ∃ p ∈ e.ResourceNames, MatchesPath p v.ResourceName = true) ∧
        (e.ExpiresAt = none ∨
          ∃ text, e.ExpiresAt = some text ∧ ¬ ∃ t, timeParse text = some t ∧ now > t)) := by
  rw [← ruleMatched_iff, ← pathMatched_iff, ← nameMatched_iff, ← expired_eq_false_iff]
  simp [exceptionApplies, and_assoc]

/-! ## Lemmas on the rule evaluator -/

theorem evalConditions_cons (hcl : HclEngine) (ctx : ScanContext) (rule : Rule) (x : Resource)
    (i : Nat) (c : Condition) (cs : List Condition) :
    evalConditions hcl ctx rule x i (c :: cs) =
      match evaluateExpression hcl ctx c.Expression x with
      | .error err =>
        (.error ("error evaluating condition: " ++ err), conditionCalls hcl ctx rule x i [c])
      | .ok true => (.ok true, conditionCalls hcl ctx rule x i [c])
      | .ok false =>
        ((evalConditions hcl ctx rule x (i + 1) cs).1,
          conditionCalls hcl ctx rule x i [c] ++ (evalConditions hcl ctx rule x (i + 1) cs).2) := by
  simp only [evalConditions, conditionCalls]
  split <;> simp_all

theorem conditionCalls_append (hcl : HclEngine) (ctx : ScanContext) (rule : Rule) (x : Resource) :
    ∀ (i : Nat) (as bs : List Condition),
      conditionCalls hcl ctx rule x i (as ++ bs) =
        conditionCalls hcl ctx rule x i as ++ conditionCalls hcl ctx rule x (i + as.length) bs
  | i, [], bs => by simp [conditionCalls]
  | i, a :: as, bs => by
    have ih := conditionCalls_append hcl ctx rule x (i + 1) as bs
    have hi : i + 1 + as.length = i + (as.length + 1) := by omega
    rw [hi] at ih
    rw [List.cons_append]
    simp only [conditionCalls, List.length_cons]
    rw [ih, List.cons_append]

theorem evalConditions_first_true (hcl : HclEngine) (ctx : ScanContext) (rule : Rule)
    (x : Resource) (ck : Condition) (post : List Condition)
    (hk : evaluateExpression hcl ctx ck.Expression x = .ok true) :
    ∀ (i : Nat) (pre : List Condition),
      (∀ c ∈ pre, evaluateExpression hcl ctx c.Expression x = .ok false) →
      evalConditions hcl ctx rule x i (pre ++ ck :: post) =
        (.ok true, conditionCalls hcl ctx rule x i (pre ++ [ck]))
  | i, [], _ => by
    rw [List.nil_append, evalConditions_cons, hk]
    rfl
  | i, p :: pre, hpre => by
    have hp := hpre p (List.mem_cons_self _ _)
    have ih := evalConditions_first_true hcl ctx rule x ck post hk (i + 1) pre
      (fun c hc => hpre c (List.mem_cons_of_mem _ hc))
    rw [List.cons_append, evalConditions_cons, hp]
    simp only [ih, List.cons_append, conditionCalls, List.nil_append]
    rfl

theorem failFast_append {α β : Type} (ruleID : String) (f : α → β) (r : Except String α)
    (calls1 calls2 : List EvalCall) (h1 : ∀ c ∈ calls1, c.ruleID = ruleID ∧ c.failed = false)
    (h2 : FailFast ruleID r calls2) : FailFast ruleID (r.map f) (calls1 ++ calls2) := by
  obtain ⟨hid, hres⟩ := h2
  refine ⟨?_, ?_⟩
  · intro c hc
    rcases List.mem_append.1 hc with hc | hc
    · exact (h1 c hc).1
    · exact hid c hc
  · cases r with
    | ok a =>
      intro c hc
      rcases List.mem_append.1 hc with hc | hc
      · exact (h1 c hc).2
      · exact hres c hc
    | error msg =>
      obtain ⟨before, c, e, hcalls, hbefore, hout, hmsg⟩ := hres
      refine ⟨calls1 ++ before, c, e, ?_, ?_, hout, hmsg⟩
      · rw [hcalls, List.append_assoc]
      · intro c' hc'
        rcases List.mem_append.1 hc' with hc' | hc'
        · exact (h1 c' hc').2
        · exact hbefore c' hc'

theorem evalConditions_failFast (hcl : HclEngine) (ctx : ScanContext) (rule : Rule)
    (x : Resource) :
    ∀ (i : Nat) (conds : List Condition),
      FailFast rule.ID (evalConditions hcl ctx rule x i conds).1
        (evalConditions hcl ctx rule x i conds).2
  | i, [] => by
    simp [evalConditions, FailFast]
  | i, c :: cs => by
    rw [evalConditions_cons]
    have ih := evalConditions_failFast hcl ctx rule x (i + 1) cs
    cases hc : evaluateExpression hcl ctx c.Expression x with
    | error err =>
      refine ⟨?_, [], _, err, rfl, ?_, ?_, rfl⟩
      · simp [conditionCalls]
      · simp
      · simp [hc]
    | ok b =>
      cases b with
      | true =>
        refine ⟨?_, ?_⟩ <;> simp [conditionCalls, EvalCall.failed, hc]
      | false =>
        have h := failFast_append rule.ID (fun b : Bool => b)
          (evalConditions hcl ctx rule x (i + 1) cs).1 (conditionCalls hcl ctx rule x i [c])
          (evalConditions hcl ctx rule x (i + 1) cs).2
          (by simp [conditionCalls, EvalCall.failed, hc]) ih
        have hmap : ∀ r : Except String Bool, r.map (fun b : Bool => b) = r := by
          intro r
          cases r <;> rfl
        rw [hmap] at h
        exact h

theorem checkConditions_eq (hcl : HclEngine) (ctx : ScanContext) (rule : Rule) (x : Resource) :
    checkConditions hcl ctx rule x =
      ((evalConditions hcl ctx rule x 0 rule.Conditions).1.map
          (fun b : Bool => if b then some (mkViolation rule x) else none),
        (evalConditions hcl ctx rule x 0 rule.Conditions).2) := by
  unfold checkConditions
  rcases h : evalConditions hcl ctx rule x 0 rule.Conditions with ⟨r, calls⟩
  cases r with
  | error err => rfl
  | ok b => cases b <;> rfl

theorem checkConditions_failFast (hcl : HclEngine) (ctx : ScanContext) (rule : Rule)
    (x : Resource) :
    FailFast rule.ID (checkConditions hcl ctx rule x).1 (checkConditions hcl ctx rule x).2 := by
  rw [checkConditions_eq]
  have h := failFast_append rule.ID (fun b : Bool => if b then some (mkViolation rule x) else none)
    (evalConditions hcl ctx rule x 0 rule.Conditions).1 []
    (evalConditions hcl ctx rule x 0 rule.Conditions).2 (by simp)
    (evalConditions_failFast hcl ctx rule x 0 rule.Conditions)
  simpa using h

theorem scanResource_eq (hcl : HclEngine) (ctx : ScanContext) (rule : Rule) (x : Resource) :
    scanResource hcl ctx rule x =
      match rule.When with
      | none => checkConditions hcl ctx rule x
      | some w =>
        match evaluateExpression hcl ctx w.Expression x with
        | .error err =>
          (.error ("error evaluating when condition: " ++ err), whenCalls hcl ctx rule x)
        | .ok false => (.ok none, whenCalls hcl ctx rule x)
        | .ok true =>
          ((checkConditions hcl ctx rule x).1,
            whenCalls hcl ctx rule x ++ (checkConditions hcl ctx rule x).2) := by
  unfold scanResource whenCalls
  cases hw : rule.When with
  | none => rfl
  | some w =>
    simp only
    split <;> simp_all

theorem scanResource_failFast (hcl : HclEngine) (ctx : ScanContext) (rule : Rule)
    (x : Resource) :
    FailFast rule.ID (scanResource hcl ctx rule x).1 (scanResource hcl ctx rule x).2 := by
  rw [scanResource_eq]
  cases hw : rule.When with
  | none => exact checkConditions_failFast hcl ctx rule x
  | some w =>
    simp only
    cases hc : evaluateExpression hcl ctx w.Expression x with
    | error err =>
      have hcalls : whenCalls hcl ctx rule x =
          [⟨rule.ID, .when, w.Expression, x, ctx.CurrentResource, .error err⟩] := by
        simp [whenCalls, hw, hc]
      rw [hcalls]
      refine ⟨?_, [], _, err, rfl, ?_, rfl, rfl⟩
      · simp
      · simp
    | ok b =>
      cases b with
      | false =>
        refine ⟨?_, ?_⟩ <;> simp [whenCalls, hw, EvalCall.failed, hc]
      | true =>
        have h := failFast_append rule.ID (fun v : Option Violation => v)
          (checkConditions hcl ctx rule x).1 (whenCalls hcl ctx rule x)
          (checkConditions hcl ctx rule x).2
          (by simp [whenCalls, hw, EvalCall.failed, hc]) (checkConditions_failFast hcl ctx rule x)
        have hmap : ∀ r : Except String (Option Violation),
            r.map (fun v : Option Violation => v) = r := by
          intro r
          cases r <;> rfl
        rw [hmap] at h
        exact h

theorem scanResources_cons (hcl : HclEngine) (rule : Rule) (ctx : ScanContext) (x : Resource)
    (rest : List Resource) :
    scanResources hcl rule ctx (x :: rest) =
      match (scanResource hcl { ctx with CurrentResource := some x } rule x).1 with
      | .error err =>
        { result := .error err
          context := { ctx with CurrentResource := some x }
          calls := (scanResource hcl { ctx with CurrentResource := some x } rule x).2 }
      | .ok found =>
        { result := (scanResources hcl rule { ctx with CurrentResource := some x } rest).result.map
            fun vs => found.toList ++ vs
          context := (scanResources hcl rule { ctx with CurrentResource := some x } rest).context
          calls := (scanResource hcl { ctx with CurrentResource := some x } rule x).2
            ++ (scanResources hcl rule { ctx with CurrentResource := some x } rest).calls } := by
  simp only [scanResources]
  rcases h : scanResource hcl { ctx with CurrentResource := some x } rule x with ⟨r, calls⟩
  cases r <;> rfl

theorem scanResources_failFast (hcl : HclEngine) (rule : Rule) :
    ∀ (ctx : ScanContext) (rs : List Resource),
      FailFast rule.ID (scanResources hcl rule ctx rs).result (scanResources hcl rule ctx rs).calls
  | ctx, [] => by simp [scanResources, FailFast]
  | ctx, x :: rest => by
    rw [scanResources_cons]
    have h1 := scanResource_failFast hcl { ctx with CurrentResource := some x } rule x
    have ih := scanResources_failFast hcl rule { ctx with CurrentResource := some x } rest
    cases hr : (scanResource hcl { ctx with CurrentResource := some x } rule x).1 with
    | error err =>
      rw [hr] at h1
      exact h1
    | ok found =>
      rw [hr] at h1
      exact failFast_append rule.ID _ _ _ _ (fun c hc => ⟨h1.1 c hc, h1.2 c hc⟩) ih

theorem scanRules_cons (s : Scanner) (ctx : ScanContext) (rule : Rule) (rest : List Rule) :
    scanRules s ctx (rule :: rest) =
      match (scanRule s ctx rule).result with
      | .error err =>
        { result := .error ("error scanning rule " ++ rule.ID ++ ": " ++ err)
          context := (scanRule s ctx rule).context
          calls := (scanRule s ctx rule).calls }
      | .ok ruleViolations =>
        { result := (scanRules s.nextRange (scanRule s ctx rule).context rest).result.map
            fun vs => ruleViolations ++ vs
          context := (scanRules s.nextRange (scanRule s ctx rule).context rest).context
          calls := (scanRule s ctx rule).calls
            ++ (scanRules s.nextRange (scanRule s ctx rule).context rest).calls } := by
  simp only [scanRules]

theorem scanRules_scanFailFast :
    ∀ (s : Scanner) (ctx : ScanContext) (rules : List Rule),
      ScanFailFast (scanRules s ctx rules).result (scanRules s ctx rules).calls
  | s, ctx, [] => by simp [scanRules, ScanFailFast]
  | s, ctx, rule :: rest => by
    rw [scanRules_cons]
    have h1 : FailFast rule.ID (scanRule s ctx rule).result (scanRule s ctx rule).calls :=
      scanResources_failFast s.hcl rule ctx _
    have ih := scanRules_scanFailFast s.nextRange (scanRule s ctx rule).context rest
    cases hr : (scanRule s ctx rule).result with
    | error err =>
      rw [hr] at h1
      obtain ⟨hid, before, c, e, hcalls, hbefore, hout, hmsg⟩ := h1
      refine ⟨before, c, e, hcalls, hbefore, hout, ?_⟩
      have hc : c.ruleID = rule.ID := hid c (by rw [hcalls]; simp)
      rw [hc, hmsg]
    | ok ruleViolations =>
      rw [hr] at h1
      simp only
      cases hrest : (scanRules s.nextRange (scanRule s ctx rule).context rest).result with
      | ok vs =>
        rw [hrest] at ih
        intro c hc
        rcases List.mem_append.1 hc with hc | hc
        · exact h1.2 c hc
        · exact ih c hc
      | error msg =>
        rw [hrest] at ih
        obtain ⟨before, c, e, hcalls, hbefore, hout, hmsg⟩ := ih
        refine ⟨(scanRule s ctx rule).calls ++ before, c, e, ?_, ?_, hout, hmsg⟩
        · rw [hcalls, List.append_assoc]
        · intro c' hc'
          rcases List.mem_append.1 hc' with hc' | hc'
          · exact h1.2 c' hc'
          · exact hbefore c' hc'

theorem scanFailFast_error_call {α : Type} (result : Except String α) (calls : List EvalCall)
    (h : ScanFailFast result calls) (c : EvalCall) (e : String) (hc : c ∈ calls)
    (he : c.outcome = .error e) :
    result = .error ("error scanning rule " ++ c.ruleID ++ ": " ++ ruleErrorText c e) ∧
      ∃ before, calls = before ++ [c] ∧ ∀ c' ∈ before, c'.failed = false := by
  have hfailed : c.failed = true := by simp [EvalCall.failed, he]
  cases result with
  | ok a =>
    have := h c hc
    rw [hfailed] at this
    cases this
  | error msg =>
    obtain ⟨before, c0, e0, hcalls, hbefore, hout, hmsg⟩ := h
    have hc0 : c = c0 := by
      rw [hcalls] at hc
      rcases List.mem_append.1 hc with hc | hc
      · have := hbefore c hc
        rw [hfailed] at this
        cases this
      · simpa using hc
    subst hc0
    have he0 : e0 = e := by
      rw [he] at hout
      cases hout
      rfl
    subst he0
    exact ⟨by rw [hmsg], before, hcalls, hbefore⟩

theorem scanRules_error_prefix :
    ∀ (s : Scanner) (ctx : ScanContext) (rules : List Rule) (before : List EvalCall)
      (c : EvalCall),
      (scanRules s ctx rules).calls = before ++ [c] → c.failed = true →
      ∃ pre rule post, rules = pre ++ rule :: post ∧ rule.ID = c.ruleID ∧
        ∀ post', scanRules s ctx (pre ++ rule :: post') = scanRules s ctx rules
  | s, ctx, [], before, c, hcalls, _ => by
    simp [scanRules] at hcalls
  | s, ctx, rule :: rest, before, c, hcalls, hfailed => by
    have h1 : FailFast rule.ID (scanRule s ctx rule).result (scanRule s ctx rule).calls :=
      scanResources_failFast s.hcl rule ctx _
    rw [scanRules_cons] at hcalls
    cases hr : (scanRule s ctx rule).result with
    | error err =>
      rw [hr] at hcalls
      refine ⟨[], rule, rest, rfl, ?_, ?_⟩
      · have hc : c ∈ (scanRule s ctx rule).calls := by
          simp only at hcalls
          rw [hcalls]
          simp
        exact (h1.1 c hc).symm
      · intro post'
        simp only [List.nil_append]
        rw [scanRules_cons, scanRules_cons, hr]
    | ok ruleViolations =>
      rw [hr] at hcalls h1
      simp only at hcalls
      rcases List.eq_nil_or_concat
          (scanRules s.nextRange (scanRule s ctx rule).context rest).calls with
        hnil | ⟨L, b, hL⟩
      · rw [hnil, List.append_nil] at hcalls
        have hc : c ∈ (scanRule s ctx rule).calls := by
          rw [hcalls]
          simp
        have := h1.2 c hc
        rw [hfailed] at this
        cases this
      · rw [List.concat_eq_append] at hL
        rw [hL, ← List.append_assoc] at hcalls
        have hbc : b = c := by
          have := List.append_inj_right' hcalls rfl
          simpa using this
        subst hbc
        obtain ⟨pre, rule', post, hsplit, hid, heq⟩ :=
          scanRules_error_prefix s.nextRange (scanRule s ctx rule).context rest L b hL hfailed
        refine ⟨rule :: pre, rule', post, by rw [hsplit]; rfl, hid, ?_⟩
        intro post'
        rw [List.cons_append, scanRules_cons, scanRules_cons, hr]
        simp only
        rw [heq post']

theorem evalConditions_calls (hcl : HclEngine) (ctx : ScanContext) (rule : Rule) (x : Resource) :
    ∀ (i : Nat) (conds : List Condition) (c : EvalCall),
      c ∈ (evalConditions hcl ctx rule x i conds).2 →
      c.resource = x ∧ c.current = ctx.CurrentResource ∧ c.site ≠ .when ∧
        c.outcome = evaluateExpression hcl ctx c.expr x
  | i, [], c, hc => by simp [evalConditions] at hc
  | i, cond :: cs, c, hc => by
    rw [evalConditions_cons] at hc
    have ih := evalConditions_calls hcl ctx rule x (i + 1) cs c
    have hhead : ∀ c, c ∈ conditionCalls hcl ctx rule x i [cond] →
        c.resource = x ∧ c.current = ctx.CurrentResource ∧ c.site ≠ .when ∧
          c.outcome = evaluateExpression hcl ctx c.expr x := by
      intro c hc
      simp only [conditionCalls, List.mem_singleton] at hc
      subst hc
      simp
    cases hout : evaluateExpression hcl ctx cond.Expression x with
    | error err =>
      rw [hout] at hc
      exact hhead c hc
    | ok b =>
      rw [hout] at hc
      cases b with
      | true => exact hhead c hc
      | false =>
        rcases List.mem_append.1 hc with hc | hc
        · exact hhead c hc
        · exact ih hc

theorem scanResource_calls (hcl : HclEngine) (ctx : ScanContext) (rule : Rule) (x : Resource)
    (c : EvalCall) (hc : c ∈ (scanResource hcl ctx rule x).2) :
    c.resource = x ∧ c.current = ctx.CurrentResource ∧
      c.outcome = evaluateExpression hcl ctx c.expr x ∧
      (c.site ≠ .when → ∀ w, rule.When = some w →
        evaluateExpression hcl ctx w.Expression x = .ok true) := by
  have hcond : ∀ c, c ∈ (checkConditions hcl ctx rule x).2 →
      c.resource = x ∧ c.current = ctx.CurrentResource ∧ c.site ≠ .when ∧
        c.outcome = evaluateExpression hcl ctx c.expr x := by
    intro c hc
    rw [checkConditions_eq] at hc
    exact evalConditions_calls hcl ctx rule x 0 rule.Conditions c hc
  rw [scanResource_eq] at hc
  cases hw : rule.When with
  | none =>
    rw [hw] at hc
    obtain ⟨h1, h2, _, h4⟩ := hcond c hc
    exact ⟨h1, h2, h4, fun _ w hw' => by cases hw'⟩
  | some w =>
    rw [hw] at hc
    have hwhen : ∀ c, c ∈ whenCalls hcl ctx rule x →
        c.resource = x ∧ c.current = ctx.CurrentResource ∧
          c.outcome = evaluateExpression hcl ctx c.expr x ∧ c.site = .when := by
      intro c hc
      simp only [whenCalls, hw, List.mem_singleton] at hc
      subst hc
      simp
    simp only at hc
    cases hout : evaluateExpression hcl ctx w.Expression x with
    | error err =>
      rw [hout] at hc
      obtain ⟨h1, h2, h4, h3⟩ := hwhen c hc
      exact ⟨h1, h2, h4, fun h => absurd h3 h⟩
    | ok b =>
      rw [hout] at hc
      cases b with
      | false =>
        obtain ⟨h1, h2, h4, h3⟩ := hwhen c hc
        exact ⟨h1, h2, h4, fun h => absurd h3 h⟩
      | true =>
        rcases List.mem_append.1 hc with hc | hc
        · obtain ⟨h1, h2, h4, h3⟩ := hwhen c hc
          exact ⟨h1, h2, h4, fun h => absurd h3 h⟩
        · obtain ⟨h1, h2, _, h4⟩ := hcond c hc
          refine ⟨h1, h2, h4, fun _ w' hw' => ?_⟩
          cases hw'
          exact hout

theorem scanResources_calls (hcl : HclEngine) (rule : Rule) :
    ∀ (ctx : ScanContext) (rs : List Resource) (c : EvalCall),
      c ∈ (scanResources hcl rule ctx rs).calls →
      c.resource ∈ rs ∧ c.current = some c.resource ∧
        c.outcome = evaluateExpression hcl { ctx with CurrentResource := some c.resource }
          c.expr c.resource ∧
        (c.site ≠ .when → ∀ w, rule.When = some w →
          evaluateExpression hcl { ctx with CurrentResource := some c.resource } w.Expression
            c.resource = .ok true)
  | ctx, [], c, hc => by simp [scanResources] at hc
  | ctx, x :: rest, c, hc => by
    rw [scanResources_cons] at hc
    have hhead : ∀ c, c ∈ (scanResource hcl { ctx with CurrentResource := some x } rule x).2 →
        c.resource ∈ x :: rest ∧ c.current = some c.resource ∧
        c.outcome = evaluateExpression hcl { ctx with CurrentResource := some c.resource }
          c.expr c.resource ∧
        (c.site ≠ .when → ∀ w, rule.When = some w →
          evaluateExpression hcl { ctx with CurrentResource := some c.resource } w.Expression
            c.resource = .ok true) := by
      intro c hc
      obtain ⟨h1, h2, h4, h3⟩ := scanResource_calls hcl _ rule x c hc
      subst h1
      exact ⟨List.mem_cons_self _ _, h2, h4, h3⟩
    have ih := scanResources_calls hcl rule { ctx with CurrentResource := some x } rest c
    cases hr : (scanResource hcl { ctx with CurrentResource := some x } rule x).1 with
    | error err =>
      rw [hr] at hc
      exact hhead c hc
    | ok found =>
      rw [hr] at hc
      rcases List.mem_append.1 hc with hc | hc
      · exact hhead c hc
      · obtain ⟨h1, h2, h4, h3⟩ := ih hc
        exact ⟨List.mem_cons_of_mem _ h1, h2, h4, h3⟩

theorem scanResources_context (hcl : HclEngine) (rule : Rule) :
    ∀ (ctx : ScanContext) (rs : List Resource),
      ∃ a, (scanResources hcl rule ctx rs).context = { ctx with CurrentResource := a }
  | ctx, [] => ⟨ctx.CurrentResource, rfl⟩
  | ctx, x :: rest => by
    rw [scanResources_cons]
    cases hr : (scanResource hcl { ctx with CurrentResource := some x } rule x).1 with
    | error err => exact ⟨some x, rfl⟩
    | ok found =>
      obtain ⟨a, ha⟩ := scanResources_context hcl rule { ctx with CurrentResource := some x } rest
      exact ⟨a, by simp only [ha]⟩

theorem scanRules_calls :
    ∀ (s : Scanner) (rules : List Rule) (ctx : ScanContext) (c : EvalCall),
      c ∈ (scanRules s ctx rules).calls →
      c.current = some c.resource ∧
        c.outcome = evaluateExpression s.hcl { ctx with CurrentResource := some c.resource }
          c.expr c.resource
  | s, [], ctx, c, hc => by simp [scanRules] at hc
  | s, rule :: rest, ctx, c, hc => by
    rw [scanRules_cons] at hc
    have hhead : ∀ c, c ∈ (scanRule s ctx rule).calls →
        c.current = some c.resource ∧
        c.outcome = evaluateExpression s.hcl { ctx with CurrentResource := some c.resource }
          c.expr c.resource := by
      intro c hc
      obtain ⟨_, h2, h4, _⟩ := scanResources_calls s.hcl rule ctx _ c hc
      exact ⟨h2, h4⟩
    cases hr : (scanRule s ctx rule).result with
    | error err =>
      rw [hr] at hc
      exact hhead c hc
    | ok vs =>
      rw [hr] at hc
      rcases List.mem_append.1 hc with hc | hc
      · exact hhead c hc
      · obtain ⟨a, ha⟩ := scanResources_context s.hcl rule ctx
          (GetResourcesByType s.order ctx rule.ResourceType)
        have hctx : (scanRule s ctx rule).context = { ctx with CurrentResource := a } := ha
        rw [hctx] at hc
        exact scanRules_calls s.nextRange rest { ctx with CurrentResource := a } c hc

theorem scanResources_result_current (hcl : HclEngine) (rule : Rule) (ctx : ScanContext)
    (a : Option Resource) (rs : List Resource) :
    (scanResources hcl rule { ctx with CurrentResource := a } rs).result
      = (scanResources hcl rule ctx rs).result := by
  cases rs with
  | nil => rfl
  | cons x rest =>
    rw [scanResources_cons, scanResources_cons]

theorem scanResources_skip (hcl : HclEngine) (rule : Rule) (x : Resource) (post : List Resource) :
    ∀ (ctx : ScanContext) (pre : List Resource),
      (scanResource hcl { ctx with CurrentResource := some x } rule x).1 = .ok none →
      (scanResources hcl rule ctx (pre ++ x :: post)).result
        = (scanResources hcl rule ctx (pre ++ post)).result
  | ctx, [], hx => by
    rw [List.nil_append, List.nil_append, scanResources_cons, hx]
    simp only [Option.toList, List.nil_append]
    rw [scanResources_result_current]
    cases (scanResources hcl rule ctx post).result <;> rfl
  | ctx, p :: pre, hx => by
    have ih := scanResources_skip hcl rule x post { ctx with CurrentResource := some p } pre hx
    rw [List.cons_append, List.cons_append, scanResources_cons, scanResources_cons]
    cases hr : (scanResource hcl { ctx with CurrentResource := some p } rule p).1 with
    | error err => rfl
    | ok found =>
      simp only
      rw [ih]

/-! ## Lemmas on the resource index -/

theorem ResourceMap.get_set (k k' : String) (v : List Resource) :
    ∀ (m : ResourceMap), (m.set k v).get k' = if k = k' then v else m.get k'
  | [] => by
    simp only [ResourceMap.set, ResourceMap.get]
  | (k0, v0) :: rest => by
    have ih := ResourceMap.get_set k k' v rest
    simp only [ResourceMap.set]
    by_cases h0 : k0 = k
    · subst h0
      simp only [if_true, ResourceMap.get]
      by_cases h1 : k0 = k' <;> simp [h1]
    · simp only [h0, if_false, ResourceMap.get, ih]
      by_cases h1 : k0 = k'
      · subst h1
        have : ¬ k = k0 := fun h => h0 h.symm
        simp [this]
      · simp [h1]

theorem indexResources_get (t : String) :
    ∀ (rs : List Resource) (ctx : ScanContext),
      (indexResources ctx rs).ResourcesByType.get t
        = ctx.ResourcesByType.get t ++ rs.filter fun r => r.Type_ = t
  | [], ctx => by simp [indexResources]
  | r :: rest, ctx => by
    rw [indexResources, indexResources_get t rest]
    simp only [ResourceMap.get_set, List.filter_cons]
    by_cases h : r.Type_ = t
    · simp [h]
    · simp [h]

theorem indexResources_all :
    ∀ (rs : List Resource) (ctx : ScanContext),
      (indexResources ctx rs).AllResources = ctx.AllResources
  | [], ctx => rfl
  | r :: rest, ctx => by
    rw [indexResources, indexResources_all rest]

theorem hasWildcard_star : hasWildcard "*" = true := by decide

theorem GetResourcesByType_exact (order : MapOrder) (R : List Resource) (t : String)
    (ht : hasWildcard t = false) :
    GetResourcesByType order (NewScanContext R) t = R.filter fun r => r.Type_ = t := by
  have hne : t ≠ "*" := by
    intro h
    rw [h, hasWildcard_star] at ht
    cases ht
  unfold GetResourcesByType NewScanContext
  rw [if_neg hne, ht]
  simp only [Bool.false_eq_true, if_false]
  rw [indexResources_get]
  simp [ResourceMap.get]

theorem scanResources_single_true (hcl : HclEngine) (rule : Rule) (c : Condition)
    (hwhen : rule.When = none) (hconds : rule.Conditions = [c]) :
    ∀ (rs : List Resource) (ctx : ScanContext),
      (∀ x ∈ rs, evaluateExpression hcl { ctx with CurrentResource := some x } c.Expression x
        = .ok true) →
      (scanResources hcl rule ctx rs).result = .ok (rs.map (mkViolation rule))
  | [], ctx, _ => rfl
  | x :: rest, ctx, h => by
    have hx := h x (List.mem_cons_self _ _)
    have ih := scanResources_single_true hcl rule c hwhen hconds rest
      { ctx with CurrentResource := some x } (fun y hy => h y (List.mem_cons_of_mem _ hy))
    have hbody : (scanResource hcl { ctx with CurrentResource := some x } rule x).1
        = .ok (some (mkViolation rule x)) := by
      rw [scanResource_eq, hwhen]
      simp only
      rw [checkConditions_eq, hconds, evalConditions_cons, hx]
      rfl
    rw [scanResources_cons, hbody]
    simp only
    rw [ih]
    rfl

theorem scanRules_congr :
    ∀ (s s' : Scanner), s'.hcl = s.hcl → s'.orders = s.orders →
      ∀ (ctx : ScanContext) (rules : List Rule), scanRules s' ctx rules = scanRules s ctx rules
  | _, _, _, _, ctx, [] => rfl
  | s, s', hhcl, horders, ctx, rule :: rest => by
    have h1 : scanRule s' ctx rule = scanRule s ctx rule := by
      unfold scanRule Scanner.order
      rw [hhcl, horders]
    have h2 : s'.nextRange.orders = s.nextRange.orders := by
      show (fun i => s'.orders (i + 1)) = fun i => s.orders (i + 1)
      rw [horders]
    rw [scanRules_cons, scanRules_cons, h1]
    cases (scanRule s ctx rule).result with
    | error err => rfl
    | ok vs =>
      simp only
      rw [scanRules_congr s.nextRange s'.nextRange hhcl h2]

theorem Scan_error (s : Scanner) (now : Time) (msg : String)
    (h : (scanRules s s.context s.rules).result = .error msg) :
    Scan s now = { result := .error msg, calls := (scanRules s s.context s.rules).calls,
                   stderr := [] } := by
  simp only [Scan, h]

theorem Scan_calls (s : Scanner) (now : Time) :
    (Scan s now).calls = (scanRules s s.context s.rules).calls := by
  cases h : (scanRules s s.context s.rules).result <;> simp only [Scan, h]

theorem filterExceptions_single_some (cfg : Config) (now : Time) (v : Violation) (e : Exception)
    (h : findException cfg now v = some e) :
    filterExceptions cfg now [v]
      = { filtered := [], excepted := [⟨v, e⟩], stderr := [exceptionNotice v e] } := by
  rw [filterExceptions_cons, h]
  rfl

theorem filterExceptions_single_none (cfg : Config) (now : Time) (v : Violation)
    (h : findException cfg now v = none) :
    filterExceptions cfg now [v] = { filtered := [v], excepted := [], stderr := [] } := by
  rw [filterExceptions_cons, h]
  rfl

theorem findExceptionIn_skip (now : Time) (v : Violation) (e : Exception)
    (he : exceptionApplies now v e = false) :
    ∀ (pre post : List Exception),
      findExceptionIn now v (pre ++ e :: post) = findExceptionIn now v (pre ++ post)
  | [], post => by simp [findExceptionIn_cons, he]
  | p :: pre, post => by
    rw [List.cons_append, List.cons_append, findExceptionIn_cons, findExceptionIn_cons,
      findExceptionIn_skip now v e he pre post]

theorem yesterday_is_past (zone now : Int) (hzone : zone < nanosPerDay) :
    now > (localDay zone now - 1) * nanosPerDay := by
  unfold localDay
  unfold nanosPerDay at hzone ⊢
  have h : (86400 * 1000000000 : Int) = 86400000000000 := by norm_num
  rw [h] at hzone ⊢
  omega

theorem tomorrow_is_not_past (zone now : Int) (hzone : 0 ≤ zone) :
    ¬ now > (localDay zone now + 1) * nanosPerDay := by
  unfold localDay nanosPerDay
  have h : (86400 * 1000000000 : Int) = 86400000000000 := by norm_num
  rw [h]
  omega

theorem tomorrow_is_past_in_the_west (zone now : Int)
    (hlate : nanosPerDay + zone < (now + zone) % nanosPerDay) :
    now > (localDay zone now + 1) * nanosPerDay := by
  unfold localDay
  unfold nanosPerDay at hlate ⊢
  have h : (86400 * 1000000000 : Int) = 86400000000000 := by norm_num
  rw [h] at hlate ⊢
  omega

/-- After a star `filepath.Match` skips bytes, not characters: the three bytes
of the euro sign match a star and two question marks, although the sign is one
character, which two question marks alone do not match. -/
theorem filepathMatch_star_skips_bytes :
    stringBytes "€" = [226, 130, 172] ∧
      filepathMatchResult "*??" "€" = some true ∧ MatchesPath "*??" "€" = true ∧
      filepathMatchResult "??" "€" = some false ∧ filepathMatchResult "?" "€" = some true := by
  decide

/-! ## The properties of the specification -/

/-- C1: when a rule has a `when` expression that evaluates to false for a
candidate resource, the loop body of `scanRule` yields no violation for it
and makes the `when` call only; in the whole run no condition is evaluated
for that resource, and the value returned is the one returned for the
candidates without it, whatever the conditions of the rule are. -/
theorem C1_when_false_skips_resource (s : Scanner) (ctx : ScanContext) (rule : Rule)
    (w : WhenBlock) (x : Resource) (hw : rule.When = some w)
    (hfalse : evaluateExpression s.hcl { ctx with CurrentResource := some x } w.Expression x
      = .ok false) :
    scanResource s.hcl { ctx with CurrentResource := some x } rule x
        = (.ok none, [⟨rule.ID, .when, w.Expression, x, some x, .ok false⟩]) ∧
      (∀ c ∈ (scanRule s ctx rule).calls, c.resource = x → c.site = .when) ∧
      (∀ pre post, GetResourcesByType s.order ctx rule.ResourceType = pre ++ x :: post →
        (scanRule s ctx rule).result = (scanResources s.hcl rule ctx (pre ++ post)).result) := by
  have hbody : scanResource s.hcl { ctx with CurrentResource := some x } rule x
      = (.ok none, [⟨rule.ID, .when, w.Expression, x, some x, .ok false⟩]) := by
    rw [scanResource_eq, hw]
    simp only
    rw [hfalse]
    simp [whenCalls, hw, hfalse]
  refine ⟨hbody, ?_, ?_⟩
  · intro c hc hx
    obtain ⟨_, _, _, h3⟩ := scanResources_calls s.hcl rule ctx _ c hc
    by_contra hsite
    have := h3 hsite w hw
    rw [hx, hfalse] at this
    cases this
  · intro pre post hsplit
    unfold scanRule
    rw [hsplit]
    exact scanResources_skip s.hcl rule x post ctx pre (by rw [hbody])

/-- C1 at a rule with `when = false` and the condition `true`. -/
theorem C1_when_false_skips_resource_witness :
    gatedRule.When = some ⟨"false"⟩ ∧
      scanResource literalEngine
          { (sampleScanner [gatedRule]).context with CurrentResource := some sampleInstance }
          gatedRule sampleInstance
        = (.ok none, [⟨"gated", .when, "false", sampleInstance, some sampleInstance, .ok false⟩]) :=
  ⟨rfl, (C1_when_false_skips_resource (sampleScanner [gatedRule])
    (sampleScanner [gatedRule]).context gatedRule ⟨"false"⟩ sampleInstance rfl rfl).1⟩

/-- C2: when, for a candidate resource that passes the `when` check, the
conditions before the k-th evaluate to false and the k-th evaluates to true,
the loop body of `scanRule` yields the violation of the resource and
evaluates the `when` expression and the conditions of index 0 to k, in this
order, and nothing else: no later condition is evaluated, so that none of
them can fail; the run goes on with the next candidate and returns the
violation in front of those of the later candidates. -/
theorem C2_conditions_short_circuit (hcl : HclEngine) (ctx : ScanContext) (rule : Rule)
    (x : Resource) (pre : List Condition) (ck : Condition) (post : List Condition)
    (hwhen : ∀ w, rule.When = some w →
      evaluateExpression hcl { ctx with CurrentResource := some x } w.Expression x = .ok true)
    (hsplit : rule.Conditions = pre ++ ck :: post)
    (hpre : ∀ c ∈ pre,
      evaluateExpression hcl { ctx with CurrentResource := some x } c.Expression x = .ok false)
    (hk : evaluateExpression hcl { ctx with CurrentResource := some x } ck.Expression x
      = .ok true) :
    scanResource hcl { ctx with CurrentResource := some x } rule x =
        (.ok (some (mkViolation rule x)),
          whenCalls hcl { ctx with CurrentResource := some x } rule x
            ++ conditionCalls hcl { ctx with CurrentResource := some x } rule x 0 (pre ++ [ck])) ∧
      ∀ rest, (scanResources hcl rule ctx (x :: rest)).result =
        (scanResources hcl rule { ctx with CurrentResource := some x } rest).result.map
          fun vs => mkViolation rule x :: vs := by
  have hcheck : checkConditions hcl { ctx with CurrentResource := some x } rule x =
      (.ok (some (mkViolation rule x)),
        conditionCalls hcl { ctx with CurrentResource := some x } rule x 0 (pre ++ [ck])) := by
    rw [checkConditions_eq, hsplit, evalConditions_first_true hcl _ rule x ck post hk 0 pre hpre]
    rfl
  have hbody : scanResource hcl { ctx with CurrentResource := some x } rule x =
      (.ok (some (mkViolation rule x)),
        whenCalls hcl { ctx with CurrentResource := some x } rule x
          ++ conditionCalls hcl { ctx with CurrentResource := some x } rule x 0 (pre ++ [ck])) := by
    rw [scanResource_eq]
    cases hw : rule.When with
    | none => simp [hcheck, whenCalls, hw]
    | some w => simp [hwhen w hw, hcheck]
  refine ⟨hbody, ?_⟩
  intro rest
  rw [scanResources_cons, hbody]
  rfl

/-- C2 at the conditions false, true and an expression that does not parse:
the rule fires on the second and the third is not evaluated. -/
theorem C2_conditions_short_circuit_witness :
    scanResource literalEngine { CurrentResource := some sampleInstance } shortCircuitRule
        sampleInstance =
        (.ok (some (mkViolation shortCircuitRule sampleInstance)),
          [⟨"short", .condition 0, "false", sampleInstance, some sampleInstance, .ok false⟩,
           ⟨"short", .condition 1, "true", sampleInstance, some sampleInstance, .ok true⟩]) ∧
      evaluateExpression literalEngine { CurrentResource := some sampleInstance }
          "invalid \x7b\x7b\x7b syntax" sampleInstance
        = .error "invalid expression: Invalid expression" :=
  ⟨(C2_conditions_short_circuit literalEngine {} shortCircuitRule sampleInstance
      [⟨"false"⟩] ⟨"true"⟩ [⟨"invalid \x7b\x7b\x7b syntax"⟩] (fun _ h => nomatch h) rfl
      (fun c hc => by
        rw [List.mem_singleton] at hc
        subst hc
        rfl) rfl).1,
    rfl⟩

/-- C3: for a rule without `when`, with a resource type that has no wildcard
character and with a single condition that evaluates to true for every
resource of the list, `scanRule` on the index of a resource list returns one
violation for each resource whose type is the resource type of the rule, in
the order of the list; their number is the number of these resources. -/
theorem C3_exact_type_always_true (s : Scanner) (R : List Resource) (rule : Rule)
    (c : Condition) (hwhen : rule.When = none) (htype : hasWildcard rule.ResourceType = false)
    (hconds : rule.Conditions = [c])
    (htrue : ∀ x ∈ R, evaluateExpression s.hcl
      { NewScanContext R with CurrentResource := some x } c.Expression x = .ok true) :
    (scanRule s (NewScanContext R) rule).result
        = .ok ((R.filter fun x => x.Type_ = rule.ResourceType).map (mkViolation rule)) ∧
      ((R.filter fun x => x.Type_ = rule.ResourceType).map (mkViolation rule)).length
        = R.countP fun x => x.Type_ = rule.ResourceType := by
  refine ⟨?_, ?_⟩
  · unfold scanRule
    rw [GetResourcesByType_exact s.order R rule.ResourceType htype]
    apply scanResources_single_true s.hcl rule c hwhen hconds
    intro x hx
    exact htrue x (List.mem_filter.1 hx).1
  · rw [List.length_map, List.countP_eq_length_filter]

/-- C3 at the rule `alwaysRule` on the sample resources: the two instances
give two violations and the bucket between them gives none. -/
theorem C3_exact_type_always_true_witness :
    hasWildcard alwaysRule.ResourceType = false ∧
      (scanRule (sampleScanner [alwaysRule])
          (NewScanContext [sampleInstance, sampleBucket, sampleInstance]) alwaysRule).result
        = .ok [mkViolation alwaysRule sampleInstance, mkViolation alwaysRule sampleInstance] :=
  ⟨by decide,
    (C3_exact_type_always_true (sampleScanner [alwaysRule])
      [sampleInstance, sampleBucket, sampleInstance] alwaysRule ⟨"true"⟩ rfl (by decide) rfl
      (fun _ _ => rfl)).1⟩

/-- C4: when a call of `evaluateExpression` that `Scan` makes, for a `when`
block or for a condition, returns an error, `Scan` returns an error and no
result; the text of the error is `error scanning rule`, the ID of the rule of
that call, and the error of `scanRule`; the call is the last one that `Scan`
makes, and the rules after the failing rule have no effect on what `Scan`
returns and evaluates. The call is the evaluation of its expression for its
resource, with that resource as current resource. -/
theorem C4_scan_aborts_on_error (s : Scanner) (now : Time) (c : EvalCall) (e : String)
    (hc : c ∈ (Scan s now).calls) (he : c.outcome = .error e) :
    (Scan s now).result
        = .error ("error scanning rule " ++ c.ruleID ++ ": " ++ ruleErrorText c e) ∧
      (∀ msg, (Scan s now).result = .error msg →
        Contains msg ("error scanning rule " ++ c.ruleID)) ∧
      (∃ before, (Scan s now).calls = before ++ [c] ∧ ∀ c' ∈ before, c'.failed = false) ∧
      (∃ pre rule post, s.rules = pre ++ rule :: post ∧ rule.ID = c.ruleID ∧
        ∀ post', (Scan { s with rules := pre ++ rule :: post' } now).result = (Scan s now).result ∧
          (Scan { s with rules := pre ++ rule :: post' } now).calls = (Scan s now).calls) ∧
      evaluateExpression s.hcl { s.context with CurrentResource := some c.resource } c.expr
        c.resource = .error e := by
  have hcalls : (Scan s now).calls = (scanRules s s.context s.rules).calls := Scan_calls s now
  rw [hcalls] at hc
  have hreal := (scanRules_calls s s.rules s.context c hc).2
  rw [he] at hreal
  obtain ⟨hres, before, hlog, hbefore⟩ :=
    scanFailFast_error_call _ _ (scanRules_scanFailFast s s.context s.rules) c e hc he
  have hscan : (Scan s now).result
      = .error ("error scanning rule " ++ c.ruleID ++ ": " ++ ruleErrorText c e) := by
    rw [Scan_error s now _ hres]
  refine ⟨hscan, ?_, ⟨before, by rw [hcalls, hlog], hbefore⟩, ?_, hreal.symm⟩
  · intro msg hmsg
    rw [hscan] at hmsg
    cases hmsg
    exact ⟨"", ": " ++ ruleErrorText c e, by simp [String.append_assoc]⟩
  · have hfailed : c.failed = true := by simp [EvalCall.failed, he]
    obtain ⟨pre, rule, post, hsplit, hid, heq⟩ :=
      scanRules_error_prefix s s.context s.rules before c hlog hfailed
    refine ⟨pre, rule, post, hsplit, hid, ?_⟩
    intro post'
    have hrun : scanRules { s with rules := pre ++ rule :: post' } s.context
        (pre ++ rule :: post') = scanRules s s.context s.rules := by
      rw [scanRules_congr s { s with rules := pre ++ rule :: post' } rfl rfl]
      exact heq post'
    have hres' : (scanRules { s with rules := pre ++ rule :: post' }
        ({ s with rules := pre ++ rule :: post' } : Scanner).context
        ({ s with rules := pre ++ rule :: post' } : Scanner).rules).result
        = .error ("error scanning rule " ++ c.ruleID ++ ": " ++ ruleErrorText c e) := by
      show (scanRules { s with rules := pre ++ rule :: post' } s.context
        (pre ++ rule :: post')).result = _
      rw [hrun, hres]
    constructor
    · rw [hscan, Scan_error _ now _ hres']
    · rw [Scan_calls, Scan_calls]
      show (scanRules { s with rules := pre ++ rule :: post' } s.context
        (pre ++ rule :: post')).calls = _
      rw [hrun]

/-- C4 at the rules `alwaysRule`, `brokenRule`, `gatedRule`: the two
violations of the first rule are not returned, the error names the second
rule, and the third rule is not evaluated. -/
theorem C4_scan_aborts_on_error_witness :
    brokenCall ∈ (Scan (sampleScanner [alwaysRule, brokenRule, gatedRule]) 0).calls ∧
      (Scan (sampleScanner [alwaysRule, brokenRule, gatedRule]) 0).result
        = .error ("error scanning rule invalid: error evaluating condition: "
            ++ "invalid expression: Invalid expression") :=
  ⟨List.Mem.tail _ (List.Mem.tail _ (List.Mem.head _)),
    (C4_scan_aborts_on_error (sampleScanner [alwaysRule, brokenRule, gatedRule]) 0 brokenCall
      "invalid expression: Invalid expression"
      (List.Mem.tail _ (List.Mem.tail _ (List.Mem.head _))) rfl).1⟩

/-- C5 (the claim as written fails): the conditional `false ? true : null`
evaluates to the null of type `cty.Bool`, a value of boolean type that is
neither true nor false, and `evaluateExpression` returns false for it with no
error; so it is not the case that every value of boolean type is a boolean
that is returned as it is. -/
theorem C5_null_of_boolean_type_read_as_false :
    literalEngine.run "false ? true : null" (resourceToCtyValue sampleInstance) {}
        = .value (.NullVal .bool) ∧
      (CtyValue.NullVal .bool).Type_ = CtyType.bool ∧
      (CtyValue.NullVal .bool).IsNull = true ∧
      evaluateExpression literalEngine {} "false ? true : null" sampleInstance = .ok false ∧
      ¬ ∀ (hcl : HclEngine) (ctx : ScanContext) (exprStr : String) (resource : Resource)
          (v : CtyValue),
          hcl.run exprStr (resourceToCtyValue resource) ctx = .value v →
          v.Type_ = CtyType.bool →
          ∃ b, v = .BoolVal b ∧ evaluateExpression hcl ctx exprStr resource = .ok b := by
  refine ⟨rfl, rfl, rfl, rfl, ?_⟩
  intro h
  obtain ⟨b, hb, _⟩ := h literalEngine {} "false ? true : null" sampleInstance
    (.NullVal .bool) rfl rfl
  cases hb

/-- C5 (amended): when the engine gives a value for the expression,
`evaluateExpression` returns an error whose text starts with `expression must
return boolean` if the type of the value is not `cty.Bool`, for whatever value
of whatever other type, and never a boolean; if the type is `cty.Bool` it
returns a boolean with no error, which is the value itself when the value is
true or false, and false when the value is the null of type `cty.Bool`. -/
theorem C5_boolean_or_error (hcl : HclEngine) (ctx : ScanContext) (exprStr : String)
    (resource : Resource) (v : CtyValue)
    (hv : hcl.run exprStr (resourceToCtyValue resource) ctx = .value v) :
    (v.Type_ ≠ CtyType.bool →
        (∃ rest, evaluateExpression hcl ctx exprStr resource
          = .error ("expression must return boolean" ++ rest)) ∧
        (∀ msg, evaluateExpression hcl ctx exprStr resource = .error msg →
          Contains msg "expression must return boolean") ∧
        ∀ b, evaluateExpression hcl ctx exprStr resource ≠ .ok b) ∧
      (∀ b, v = .BoolVal b → evaluateExpression hcl ctx exprStr resource = .ok b) ∧
      (v = .NullVal .bool → evaluateExpression hcl ctx exprStr resource = .ok false) ∧
      (v.Type_ = CtyType.bool →
        ∃ b, evaluateExpression hcl ctx exprStr resource = .ok b ∧
          (v = .BoolVal b ∨ (v = .NullVal .bool ∧ b = false))) := by
  have hbool : v.Type_ = CtyType.bool →
      evaluateExpression hcl ctx exprStr resource = .ok v.True_ := by
    intro hty
    unfold evaluateExpression
    rw [hv]
    simp only [if_pos hty]
  refine ⟨?_, ?_, ?_, ?_⟩
  · intro hty
    have heval : evaluateExpression hcl ctx exprStr resource
        = .error ("expression must return boolean" ++ (", got " ++ v.Type_.FriendlyName)) := by
      unfold evaluateExpression
      rw [hv]
      simp only [if_neg hty]
      rw [← String.append_assoc]
      rfl
    refine ⟨⟨_, heval⟩, ?_, ?_⟩
    · intro msg hmsg
      rw [heval] at hmsg
      cases hmsg
      exact ⟨"", ", got " ++ v.Type_.FriendlyName, by simp⟩
    · intro b hb
      rw [heval] at hb
      cases hb
  · intro b hb
    subst hb
    exact hbool rfl
  · intro hnull
    subst hnull
    exact hbool rfl
  · intro hty
    refine ⟨v.True_, hbool hty, ?_⟩
    cases v with
    | BoolVal b => exact Or.inl rfl
    | NullVal ty =>
      have hty2 : ty = CtyType.bool := hty
      subst hty2
      exact Or.inr ⟨rfl, rfl⟩
    | _ => cases hty

/-- C5 at the expression that is the string literal `string` in quotes, which
gives the error, and at the literal `true`, which is returned. -/
theorem C5_boolean_or_error_witness :
    literalEngine.run "\"string\"" (resourceToCtyValue sampleInstance) {}
        = .value (.StringVal "string") ∧
      (∃ rest, evaluateExpression literalEngine {} "\"string\"" sampleInstance
        = .error ("expression must return boolean" ++ rest)) ∧
      evaluateExpression literalEngine {} "true" sampleInstance = .ok true :=
  ⟨rfl, ((C5_boolean_or_error literalEngine {} "\"string\"" sampleInstance
    (.StringVal "string") rfl).1 (by decide)).1,
    (C5_boolean_or_error literalEngine {} "true" sampleInstance
      (.BoolVal true) rfl).2.1 true rfl⟩

/-- C6: `findException` reports an exception exactly when some exception of
the configuration lists the rule of the violation, has no paths or a path
that `MatchesPath` the file, has no resource names or a name pattern that
`MatchesPath` the resource name, and has no expiry or an expiry that is not a
date already past at the current time; otherwise it returns nothing. -/
theorem C6_findException_iff (cfg : Config) (now : Time) (v : Violation) :
    ((findException cfg now v).isSome = true ↔
        ∃ e ∈ cfg.Exceptions,
          v.RuleID ∈ e.Rules ∧
          (e.Paths = [] ∨ ∃ p ∈ e.Paths, MatchesPath p v.File = true) ∧
          (e.ResourceNames = [] ∨ ∃ p ∈ e.ResourceNames, MatchesPath p v.ResourceName = true) ∧
          (e.ExpiresAt = none ∨
            ∃ text, e.ExpiresAt = some text ∧ ¬ ∃ t, timeParse text = some t ∧ now > t)) ∧
      ((¬ ∃ e ∈ cfg.Exceptions,
          v.RuleID ∈ e.Rules ∧
          (e.Paths = [] ∨ ∃ p ∈ e.Paths, MatchesPath p v.File = true) ∧
          (e.ResourceNames = [] ∨ ∃ p ∈ e.ResourceNames, MatchesPath p v.ResourceName = true) ∧
          (e.ExpiresAt = none ∨
            ∃ text, e.ExpiresAt = some text ∧ ¬ ∃ t, timeParse text = some t ∧ now > t)) →
        findException cfg now v = none) := by
  have hiff : (findException cfg now v).isSome = true ↔
      ∃ e ∈ cfg.Exceptions,
        v.RuleID ∈ e.Rules ∧
        (e.Paths = [] ∨ ∃ p ∈ e.Paths, MatchesPath p v.File = true) ∧
        (e.ResourceNames = [] ∨ ∃ p ∈ e.ResourceNames, MatchesPath p v.ResourceName = true) ∧
        (e.ExpiresAt = none ∨
          ∃ text, e.ExpiresAt = some text ∧ ¬ ∃ t, timeParse text = some t ∧ now > t) := by
    unfold findException
    rw [findExceptionIn_isSome]
    constructor
    · rintro ⟨e, he, happ⟩
      exact ⟨e, he, (exceptionApplies_iff now v e).1 happ⟩
    · rintro ⟨e, he, happ⟩
      exact ⟨e, he, (exceptionApplies_iff now v e).2 happ⟩
  refine ⟨hiff, ?_⟩
  intro hno
  cases hfind : findException cfg now v with
  | none => rfl
  | some e =>
    exact absurd (hiff.1 (by rw [hfind]; rfl)) hno

/-- C7: `findException` returns the first exception, in declared order, that
passes all checks: exceptions before it that fail a check do not block it, and
`filterExceptions` pairs the violation with it. -/
theorem C7_first_matching_exception (cfg : Config) (now : Time) (v : Violation)
    (pre : List Exception) (e : Exception) (post : List Exception)
    (hcfg : cfg.Exceptions = pre ++ e :: post)
    (hpre : ∀ e' ∈ pre, exceptionApplies now v e' = false)
    (he : exceptionApplies now v e = true) :
    findException cfg now v = some e ∧
      filterExceptions cfg now [v]
        = { filtered := [], excepted := [⟨v, e⟩], stderr := [exceptionNotice v e] } := by
  have hfind : findException cfg now v = some e := by
    unfold findException
    rw [hcfg]
    exact findExceptionIn_first now v e pre post hpre he
  exact ⟨hfind, filterExceptions_single_some cfg now v e hfind⟩

/-- C7 at the exceptions `narrowException`, `broadException` and a violation
of rule `r` on the resource `y`: the violation is excepted by the second. -/
theorem C7_first_matching_exception_witness :
    exceptionApplies 0 sampleViolation narrowException = false ∧
      exceptionApplies 0 sampleViolation broadException = true ∧
      findException { Exceptions := [narrowException, broadException] } 0 sampleViolation
        = some broadException ∧
      (filterExceptions { Exceptions := [narrowException, broadException] } 0
        [sampleViolation]).excepted = [⟨sampleViolation, broadException⟩] :=
  ⟨by decide, by decide,
    (C7_first_matching_exception { Exceptions := [narrowException, broadException] } 0
      sampleViolation [narrowException] broadException [] rfl
      (fun e' he' => by
        rw [List.mem_singleton] at he'
        subst he'
        decide)
      (by decide)).1,
    congrArg FilterRun.excepted
      (C7_first_matching_exception { Exceptions := [narrowException, broadException] } 0
        sampleViolation [narrowException] broadException [] rfl
        (fun e' he' => by
          rw [List.mem_singleton] at he'
          subst he'
          decide)
        (by decide)).2⟩

/-- Where the dates of C8 hold of the code: for an exception that matches a
violation on rule, paths and resource names and whose expiry parses as
midnight UTC of a date, when no other exception of the configuration applies,
on a host whose zone is `zone` nanoseconds east of UTC: if the date is the day
before the local day of the current time (and the zone is less than a day
east), the exception does not apply and the violation stays active; if it is
the day after and the host is not west of UTC, the exception applies and the
violation is excepted with it. -/
theorem expiry_local_yesterday_tomorrow (cfg : Config) (zone : Int) (now : Time) (v : Violation)
    (pre : List Exception) (e : Exception) (post : List Exception) (text : String) (t : Time)
    (hcfg : cfg.Exceptions = pre ++ e :: post)
    (hothers : ∀ e' ∈ pre ++ post, exceptionApplies now v e' = false)
    (hr : ruleMatched e v = true) (hp : pathMatched e v = true) (hn : nameMatched e v = true)
    (hx : e.ExpiresAt = some text) (ht : timeParse text = some t) :
    (zone < nanosPerDay → t = (localDay zone now - 1) * nanosPerDay →
        exceptionApplies now v e = false ∧ findException cfg now v = none ∧
        filterExceptions cfg now [v] = { filtered := [v], excepted := [], stderr := [] }) ∧
      (0 ≤ zone → t = (localDay zone now + 1) * nanosPerDay →
        exceptionApplies now v e = true ∧ findException cfg now v = some e ∧
        filterExceptions cfg now [v]
          = { filtered := [], excepted := [⟨v, e⟩], stderr := [exceptionNotice v e] }) ∧
      (zone < 0 → nanosPerDay + zone < (now + zone) % nanosPerDay →
        t = (localDay zone now + 1) * nanosPerDay →
        exceptionApplies now v e = false ∧ findException cfg now v = none ∧
        filterExceptions cfg now [v] = { filtered := [v], excepted := [], stderr := [] }) := by
  have hexp : expired now e = decide (now > t) := by
    unfold expired
    rw [hx]
    simp only [ht]
  have hskip : now > t →
      exceptionApplies now v e = false ∧ findException cfg now v = none ∧
        filterExceptions cfg now [v] = { filtered := [v], excepted := [], stderr := [] } := by
    intro hpast
    have happ : exceptionApplies now v e = false := by
      simp [exceptionApplies, hexp, hpast]
    have hfind : findException cfg now v = none := by
      unfold findException
      rw [hcfg, findExceptionIn_skip now v e happ]
      exact findExceptionIn_none now v _ hothers
    exact ⟨happ, hfind, filterExceptions_single_none cfg now v hfind⟩
  refine ⟨?_, ?_, ?_⟩
  · intro hzone hday
    apply hskip
    rw [hday]
    exact yesterday_is_past zone now hzone
  · intro hzone hday
    have happ : exceptionApplies now v e = true := by
      have hpast : ¬ now > t := by
        rw [hday]
        exact tomorrow_is_not_past zone now hzone
      simp [exceptionApplies, hexp, hpast, hr, hp, hn]
    have hfind : findException cfg now v = some e := by
      unfold findException
      rw [hcfg]
      exact findExceptionIn_first now v e pre post
        (fun e' he' => hothers e' (List.mem_append_left _ he')) happ
    exact ⟨happ, hfind, filterExceptions_single_some cfg now v e hfind⟩
  · intro _ hlate hday
    apply hskip
    rw [hday]
    exact tomorrow_is_past_in_the_west zone now hlate

/-- C8 (the code fails the claim): at 2024-06-15 03:00:00 UTC, which is 20:00
of 14 June on a host seven hours west of UTC, tomorrow's date is 2024-06-15
and yesterday's date is 2024-06-13. The exception of
`TestFilterExceptionsNotExpired` with tomorrow's date matches the violation of
the test on rule, paths and resource names, but `findException` reads the date
as midnight UTC, which is three hours past: it returns no exception and
`filterExceptions` leaves the violation in the active set with nothing
excepted, where the claim and the test have it excepted. With yesterday's date
the violation stays active, as the claim says. -/
theorem C8_local_tomorrow_already_expired :
    timeParse "2024-06-14" = some (localDay sevenHoursWest eveningJune14 * nanosPerDay) ∧
      timeParse "2024-06-15"
        = some ((localDay sevenHoursWest eveningJune14 + 1) * nanosPerDay) ∧
      ruleMatched (expiryTestException "2024-06-15") expiryTestViolation = true ∧
      pathMatched (expiryTestException "2024-06-15") expiryTestViolation = true ∧
      nameMatched (expiryTestException "2024-06-15") expiryTestViolation = true ∧
      expired eveningJune14 (expiryTestException "2024-06-15") = true ∧
      findException { Exceptions := [expiryTestException "2024-06-15"] } eveningJune14
        expiryTestViolation = none ∧
      filterExceptions { Exceptions := [expiryTestException "2024-06-15"] } eveningJune14
        [expiryTestViolation]
        = { filtered := [expiryTestViolation], excepted := [], stderr := [] } ∧
      timeParse "2024-06-13"
        = some ((localDay sevenHoursWest eveningJune14 - 1) * nanosPerDay) ∧
      filterExceptions { Exceptions := [expiryTestException "2024-06-13"] } eveningJune14
        [expiryTestViolation]
        = { filtered := [expiryTestViolation], excepted := [], stderr := [] } :=
  ⟨by decide, by decide, by decide, by decide, by decide, by decide, by decide, by decide,
    by decide, by decide⟩

/-- C9: for an exception whose expiry is present and does not parse as a
date, the expiration check passes at every current time: when the exception
matches a violation on rule, paths and resource names and no exception
declared before it applies, `findException` returns it and
`filterExceptions` excepts the violation; neither function has an error
result. -/
theorem C9_unparsable_expiry_applies (cfg : Config) (now : Time) (v : Violation)
    (pre : List Exception) (e : Exception) (post : List Exception) (text : String)
    (hcfg : cfg.Exceptions = pre ++ e :: post)
    (hpre : ∀ e' ∈ pre, exceptionApplies now v e' = false)
    (hr : ruleMatched e v = true) (hp : pathMatched e v = true) (hn : nameMatched e v = true)
    (hx : e.ExpiresAt = some text) (hbad : timeParse text = none) :
    expired now e = false ∧ exceptionApplies now v e = true ∧
      findException cfg now v = some e ∧
      filterExceptions cfg now [v]
        = { filtered := [], excepted := [⟨v, e⟩], stderr := [exceptionNotice v e] } := by
  have hexp : expired now e = false := by
    unfold expired
    rw [hx]
    simp only [hbad]
  have happ : exceptionApplies now v e = true := by
    simp [exceptionApplies, hexp, hr, hp, hn]
  have hfind : findException cfg now v = some e := by
    unfold findException
    rw [hcfg]
    exact findExceptionIn_first now v e pre post hpre happ
  exact ⟨hexp, happ, hfind, filterExceptions_single_some cfg now v e hfind⟩

/-- C9 at the expiry texts `not-a-date` and the empty string. -/
theorem C9_unparsable_expiry_applies_witness :
    timeParse "not-a-date" = none ∧ timeParse "" = none ∧
      findException { Exceptions := [exceptionBadDate] } noonJune14 sampleViolation
        = some exceptionBadDate ∧
      findException { Exceptions := [exceptionEmptyDate] } noonJune14 sampleViolation
        = some exceptionEmptyDate :=
  ⟨by decide, by decide,
    (C9_unparsable_expiry_applies { Exceptions := [exceptionBadDate] } noonJune14
      sampleViolation [] exceptionBadDate [] "not-a-date" rfl (fun _ h => nomatch h)
      (by decide) (by decide) (by decide) rfl (by decide)).2.2.1,
    (C9_unparsable_expiry_applies { Exceptions := [exceptionEmptyDate] } noonJune14
      sampleViolation [] exceptionEmptyDate [] "" rfl (fun _ h => nomatch h)
      (by decide) (by decide) (by decide) rfl (by decide)).2.2.1⟩

/-- C10: `filterExceptions` splits the violations in two: the active ones are
the violations for which `findException` reports nothing, the excepted ones
are the others, each paired with the exception that `findException` reports
for it, both in the order of the input; the two lengths add up to the length
of the input, and the active violations and the violations of the excepted
pairs are sublists of the input. -/
theorem C10_filterExceptions_partition (cfg : Config) (now : Time) (V : List Violation) :
    (filterExceptions cfg now V).filtered
        = V.filter (fun v => (findException cfg now v).isNone) ∧
      (filterExceptions cfg now V).excepted
        = V.filterMap (fun v => (findException cfg now v).map fun e => ⟨v, e⟩) ∧
      (∀ v, v ∈ (filterExceptions cfg now V).filtered ↔
        v ∈ V ∧ findException cfg now v = none) ∧
      (∀ fv, fv ∈ (filterExceptions cfg now V).excepted ↔
        fv.Violation ∈ V ∧ findException cfg now fv.Violation = some fv.Exception) ∧
      (filterExceptions cfg now V).filtered.length + (filterExceptions cfg now V).excepted.length
        = V.length ∧
      (filterExceptions cfg now V).filtered.Sublist V ∧
      ((filterExceptions cfg now V).excepted.map fun fv => fv.Violation).Sublist V := by
  refine ⟨filterExceptions_filtered cfg now V, filterExceptions_excepted cfg now V, ?_, ?_,
    filterExceptions_length cfg now V, ?_, filterExceptions_excepted_sublist cfg now V⟩
  · intro v
    rw [filterExceptions_filtered, List.mem_filter]
    simp
  · intro fv
    rw [filterExceptions_excepted, List.mem_filterMap]
    constructor
    · rintro ⟨v, hv, hmap⟩
      cases hfind : findException cfg now v with
      | none =>
        rw [hfind] at hmap
        cases hmap
      | some e =>
        rw [hfind] at hmap
        simp only [Option.map_some', Option.some.injEq] at hmap
        subst hmap
        exact ⟨hv, hfind⟩
    · rintro ⟨hv, hfind⟩
      exact ⟨fv.Violation, hv, by rw [hfind]; rfl⟩
  · rw [filterExceptions_filtered]
    exact List.filter_sublist _

/-! ## Lemmas on the function-call detector -/

theorem walkExpressions_iff (f : String) :
    ∀ (es : List Expression),
      walkExpressions es f = true ↔ ∃ e ∈ es, walkExpression e f = true
  | [] => by simp [walkExpressions]
  | e :: rest => by
    have ih := walkExpressions_iff f rest
    by_cases he : walkExpression e f = true
    · simp [walkExpressions, he]
    · simp [walkExpressions, he, ih]

theorem walkItems_iff (f : String) :
    ∀ (items : List (Expression × Expression)),
      walkItems items f = true ↔
        ∃ item ∈ items, walkExpression item.1 f = true ∨ walkExpression item.2 f = true
  | [] => by simp [walkItems]
  | (k, v) :: rest => by
    have ih := walkItems_iff f rest
    by_cases hk : walkExpression k f = true
    · simp [walkItems, hk]
    · by_cases hv : walkExpression v f = true
      · simp [walkItems, hv]
      · simp [walkItems, hk, hv, ih]

mutual
theorem walkExpression_sound :
    ∀ (e : Expression) (f : String), walkExpression e f = true → f ∈ allCallNames e
  | .FunctionCallExpr name args, f, h => by
    simp only [walkExpression] at h
    simp only [allCallNames, List.mem_cons]
    by_cases hn : name = f
    · exact Or.inl hn.symm
    · rw [if_neg hn] at h
      exact Or.inr (walkExpressions_sound args f h)
  | .TemplateExpr parts, f, h => by
    simp only [walkExpression] at h
    simp only [allCallNames]
    exact walkExpressions_sound parts f h
  | .TemplateWrapExpr wrapped, f, h => by
    simp only [walkExpression] at h
    simp only [allCallNames]
    exact walkExpression_sound wrapped f h
  | .ConditionalExpr c t e, f, h => by
    simp only [walkExpression, Bool.or_eq_true] at h
    simp only [allCallNames, List.mem_append]
    rcases h with (h | h) | h
    · exact Or.inl (Or.inl (walkExpression_sound c f h))
    · exact Or.inl (Or.inr (walkExpression_sound t f h))
    · exact Or.inr (walkExpression_sound e f h)
  | .BinaryOpExpr lhs _ rhs, f, h => by
    simp only [walkExpression, Bool.or_eq_true] at h
    simp only [allCallNames, List.mem_append]
    rcases h with h | h
    · exact Or.inl (walkExpression_sound lhs f h)
    · exact Or.inr (walkExpression_sound rhs f h)
  | .UnaryOpExpr _ val, f, h => by
    simp only [walkExpression] at h
    simp only [allCallNames]
    exact walkExpression_sound val f h
  | .ParenthesesExpr inner, f, h => by
    simp only [walkExpression] at h
    simp only [allCallNames]
    exact walkExpression_sound inner f h
  | .IndexExpr coll key, f, h => by
    simp only [walkExpression, Bool.or_eq_true] at h
    simp only [allCallNames, List.mem_append]
    rcases h with h | h
    · exact Or.inl (walkExpression_sound coll f h)
    · exact Or.inr (walkExpression_sound key f h)
  | .RelativeTraversalExpr source _, f, h => by
    simp only [walkExpression] at h
    simp only [allCallNames]
    exact walkExpression_sound source f h
  | .SplatExpr source each, f, h => by
    simp only [walkExpression, Bool.or_eq_true] at h
    simp only [allCallNames, List.mem_append]
    rcases h with h | h
    · exact Or.inl (walkExpression_sound source f h)
    · exact Or.inr (walkOptional_sound each f h)
  | .ForExpr coll k v c, f, h => by
    simp only [walkExpression, Bool.or_eq_true] at h
    simp only [allCallNames, List.mem_append]
    rcases h with ((h | h) | h) | h
    · exact Or.inl (Or.inl (Or.inl (walkExpression_sound coll f h)))
    · exact Or.inl (Or.inl (Or.inr (walkOptional_sound k f h)))
    · exact Or.inl (Or.inr (walkOptional_sound v f h))
    · exact Or.inr (walkOptional_sound c f h)
  | .ObjectConsExpr items, f, h => by
    simp only [walkExpression] at h
    simp only [allCallNames]
    exact walkItems_sound items f h
  | .TupleConsExpr exprs, f, h => by
    simp only [walkExpression] at h
    simp only [allCallNames]
    exact walkExpressions_sound exprs f h
  | .LiteralValueExpr _, f, h => by simp [walkExpression] at h
  | .ScopeTraversalExpr _, f, h => by simp [walkExpression] at h
  | .ObjectConsKeyExpr _, f, h => by simp [walkExpression] at h
  | .AnonSymbolExpr, f, h => by simp [walkExpression] at h
  | .TemplateJoinExpr _, f, h => by simp [walkExpression] at h
  | .ExprSyntaxError, f, h => by simp [walkExpression] at h
theorem walkExpressions_sound :
    ∀ (es : List Expression) (f : String), walkExpressions es f = true → f ∈ allCallNamesList es
  | [], f, h => by simp [walkExpressions] at h
  | e :: rest, f, h => by
    simp only [walkExpressions] at h
    simp only [allCallNamesList, List.mem_append]
    by_cases he : walkExpression e f = true
    · exact Or.inl (walkExpression_sound e f he)
    · rw [if_neg he] at h
      exact Or.inr (walkExpressions_sound rest f h)
theorem walkItems_sound :
    ∀ (items : List (Expression × Expression)) (f : String),
      walkItems items f = true → f ∈ allCallNamesItems items
  | [], f, h => by simp [walkItems] at h
  | (k, v) :: rest, f, h => by
    simp only [walkItems] at h
    simp only [allCallNamesItems, List.mem_append]
    by_cases hk : walkExpression k f = true
    · exact Or.inl (Or.inl (walkExpression_sound k f hk))
    · by_cases hv : walkExpression v f = true
      · exact Or.inl (Or.inr (walkExpression_sound v f hv))
      · have hkv : (walkExpression k f || walkExpression v f) = false := by
          simp [hk, hv]
        rw [hkv] at h
        exact Or.inr (walkItems_sound rest f (by simpa using h))
theorem walkOptional_sound :
    ∀ (o : Option Expression) (f : String), walkOptional o f = true → f ∈ allCallNamesOptional o
  | none, f, h => by simp [walkOptional] at h
  | some e, f, h => by
    simp only [walkOptional] at h
    simp only [allCallNamesOptional]
    exact walkExpression_sound e f h
end

mutual
theorem walkExpression_complete :
    ∀ (e : Expression) (f : String), allNodesWalked e = true → f ∈ allCallNames e →
      walkExpression e f = true
  | .FunctionCallExpr name args, f, hw, h => by
    simp only [allNodesWalked] at hw
    simp only [allCallNames, List.mem_cons] at h
    simp only [walkExpression]
    by_cases hn : name = f
    · rw [if_pos hn]
    · rw [if_neg hn]
      rcases h with h | h
      · exact absurd h.symm hn
      · exact walkExpressions_complete args f hw h
  | .TemplateExpr parts, f, hw, h => by
    simp only [allNodesWalked] at hw
    simp only [allCallNames] at h
    simp only [walkExpression]
    exact walkExpressions_complete parts f hw h
  | .TemplateWrapExpr wrapped, f, hw, h => by
    simp only [allNodesWalked] at hw
    simp only [allCallNames] at h
    simp only [walkExpression]
    exact walkExpression_complete wrapped f hw h
  | .ConditionalExpr c t e, f, hw, h => by
    simp only [allNodesWalked, Bool.and_eq_true] at hw
    simp only [allCallNames, List.mem_append] at h
    simp only [walkExpression, Bool.or_eq_true]
    rcases h with (h | h) | h
    · exact Or.inl (Or.inl (walkExpression_complete c f hw.1.1 h))
    · exact Or.inl (Or.inr (walkExpression_complete t f hw.1.2 h))
    · exact Or.inr (walkExpression_complete e f hw.2 h)
  | .BinaryOpExpr lhs _ rhs, f, hw, h => by
    simp only [allNodesWalked, Bool.and_eq_true] at hw
    simp only [allCallNames, List.mem_append] at h
    simp only [walkExpression, Bool.or_eq_true]
    rcases h with h | h
    · exact Or.inl (walkExpression_complete lhs f hw.1 h)
    · exact Or.inr (walkExpression_complete rhs f hw.2 h)
  | .UnaryOpExpr _ val, f, hw, h => by
    simp only [allNodesWalked] at hw
    simp only [allCallNames] at h
    simp only [walkExpression]
    exact walkExpression_complete val f hw h
  | .ParenthesesExpr inner, f, hw, h => by
    simp only [allNodesWalked] at hw
    simp only [allCallNames] at h
    simp only [walkExpression]
    exact walkExpression_complete inner f hw h
  | .IndexExpr coll key, f, hw, h => by
    simp only [allNodesWalked, Bool.and_eq_true] at hw
    simp only [allCallNames, List.mem_append] at h
    simp only [walkExpression, Bool.or_eq_true]
    rcases h with h | h
    · exact Or.inl (walkExpression_complete coll f hw.1 h)
    · exact Or.inr (walkExpression_complete key f hw.2 h)
  | .RelativeTraversalExpr source _, f, hw, h => by
    simp only [allNodesWalked] at hw
    simp only [allCallNames] at h
    simp only [walkExpression]
    exact walkExpression_complete source f hw h
  | .SplatExpr source each, f, hw, h => by
    simp only [allNodesWalked, Bool.and_eq_true] at hw
    simp only [allCallNames, List.mem_append] at h
    simp only [walkExpression, Bool.or_eq_true]
    rcases h with h | h
    · exact Or.inl (walkExpression_complete source f hw.1 h)
    · exact Or.inr (walkOptional_complete each f hw.2 h)
  | .ForExpr coll k v c, f, hw, h => by
    simp only [allNodesWalked, Bool.and_eq_true] at hw
    simp only [allCallNames, List.mem_append] at h
    simp only [walkExpression, Bool.or_eq_true]
    rcases h with ((h | h) | h) | h
    · exact Or.inl (Or.inl (Or.inl (walkExpression_complete coll f hw.1.1.1 h)))
    · exact Or.inl (Or.inl (Or.inr (walkOptional_complete k f hw.1.1.2 h)))
    · exact Or.inl (Or.inr (walkOptional_complete v f hw.1.2 h))
    · exact Or.inr (walkOptional_complete c f hw.2 h)
  | .ObjectConsExpr items, f, hw, h => by
    simp only [allNodesWalked] at hw
    simp only [allCallNames] at h
    simp only [walkExpression]
    exact walkItems_complete items f hw h
  | .TupleConsExpr exprs, f, hw, h => by
    simp only [allNodesWalked] at hw
    simp only [allCallNames] at h
    simp only [walkExpression]
    exact walkExpressions_complete exprs f hw h
  | .LiteralValueExpr _, f, _, h => by simp [allCallNames] at h
  | .ScopeTraversalExpr _, f, _, h => by simp [allCallNames] at h
  | .ObjectConsKeyExpr _, f, hw, _ => by simp [allNodesWalked] at hw
  | .AnonSymbolExpr, f, _, h => by simp [allCallNames] at h
  | .TemplateJoinExpr _, f, hw, _ => by simp [allNodesWalked] at hw
  | .ExprSyntaxError, f, _, h => by simp [allCallNames] at h
theorem walkExpressions_complete :
    ∀ (es : List Expression) (f : String), allNodesWalkedList es = true →
      f ∈ allCallNamesList es → walkExpressions es f = true
  | [], f, _, h => by simp [allCallNamesList] at h
  | e :: rest, f, hw, h => by
    simp only [allNodesWalkedList, Bool.and_eq_true] at hw
    simp only [allCallNamesList, List.mem_append] at h
    simp only [walkExpressions]
    by_cases he : walkExpression e f = true
    · rw [if_pos he]
    · rw [if_neg he]
      rcases h with h | h
      · exact absurd (walkExpression_complete e f hw.1 h) he
      · exact walkExpressions_complete rest f hw.2 h
theorem walkItems_complete :
    ∀ (items : List (Expression × Expression)) (f : String), allNodesWalkedItems items = true →
      f ∈ allCallNamesItems items → walkItems items f = true
  | [], f, _, h => by simp [allCallNamesItems] at h
  | (k, v) :: rest, f, hw, h => by
    simp only [allNodesWalkedItems, Bool.and_eq_true] at hw
    simp only [allCallNamesItems, List.mem_append] at h
    simp only [walkItems]
    by_cases hkv : (walkExpression k f || walkExpression v f) = true
    · rw [if_pos hkv]
    · rw [if_neg hkv]
      simp only [Bool.or_eq_true, not_or] at hkv
      rcases h with (h | h) | h
      · exact absurd (walkExpression_complete k f hw.1.1 h) hkv.1
      · exact absurd (walkExpression_complete v f hw.1.2 h) hkv.2
      · exact walkItems_complete rest f hw.2 h
theorem walkOptional_complete :
    ∀ (o : Option Expression) (f : String), allNodesWalkedOptional o = true →
      f ∈ allCallNamesOptional o → walkOptional o f = true
  | none, f, _, h => by simp [allCallNamesOptional] at h
  | some e, f, hw, h => by
    simp only [allNodesWalkedOptional] at hw
    simp only [allCallNamesOptional] at h
    simp only [walkOptional]
    exact walkExpression_complete e f hw h
end

theorem containsFunctionCall_iff_of_allNodesWalked (e : Expression) (f : String)
    (hw : allNodesWalked e = true) :
    containsFunctionCall (some e) f = true ↔ f ∈ allCallNames e :=
  ⟨walkExpression_sound e f, walkExpression_complete e f hw⟩

theorem any_eq_of_perm {α : Type} (p : α → Bool) {l₁ l₂ : List α} (h : l₁.Perm l₂) :
    l₁.any p = l₂.any p := by
  rw [Bool.eq_iff_iff, List.any_eq_true, List.any_eq_true]
  constructor
  · rintro ⟨x, hx, hp⟩
    exact ⟨x, h.mem_iff.1 hx, hp⟩
  · rintro ⟨x, hx, hp⟩
    exact ⟨x, h.mem_iff.2 hx, hp⟩

/-- C11 (code defect): `containsFunctionCall` does not find a call that
occurs below an `ObjectConsKeyExpr` or a `TemplateJoinExpr`, the two node
types with a child for which `walkExpression` has no case: the call of `f` in
the computed key of an object constructor and the call of `f` in the
collection of a template `for` directive occur in the expression and are not
detected. -/
theorem C11_calls_below_unwalked_nodes_missed :
    "f" ∈ allCallNames computedKeyExpr ∧
      containsFunctionCall (some computedKeyExpr) "f" = false ∧
      "f" ∈ allCallNames templateForExpr ∧
      containsFunctionCall (some templateForExpr) "f" = false := by
  decide

/-- C12: on a function-call node, `walkExpression` is true exactly when the
callee name is the target or `walkExpression` is true on some argument; in
`upper(trim(var.x))` it finds `trim` and does not find `lower`, and in
`a ? f(x) : g(y)` it finds `f` and `g`. -/
theorem C12_call_node_name_or_arguments (g : String) (args : List Expression) (f : String) :
    (walkExpression (.FunctionCallExpr g args) f = true ↔
        g = f ∨ ∃ a ∈ args, walkExpression a f = true) ∧
      walkExpression upperTrimExpr "trim" = true ∧
      walkExpression upperTrimExpr "lower" = false ∧
      walkExpression conditionalCallsExpr "f" = true ∧
      walkExpression conditionalCallsExpr "g" = true := by
  refine ⟨?_, by decide, by decide, by decide, by decide⟩
  simp only [walkExpression]
  by_cases hg : g = f
  · simp [hg]
  · simp [hg, walkExpressions_iff]

/-- C13 (code defect): the call of `f` in the computed key `(f(x))` of an
object constructor is not detected, neither in the object nor in a tuple that
holds the object, while the same call used as a value or as a tuple element
is detected. -/
theorem C13_call_in_object_key_missed :
    walkExpression computedKeyExpr "f" = false ∧
      walkExpression tupleWithKeyExpr "f" = false ∧
      walkExpression callValueExpr "f" = true ∧
      walkExpression tupleWithCallExpr "f" = true := by
  decide

/-- C14: the function `contains_function_call` returns false when the context
has no current resource; with a current resource it returns true exactly when
`containsFunctionCall` is true for one of the raw expressions of the
resource, in whatever order the map is visited; it never returns an error. -/
theorem C14_contains_function_call (order : ExprMapOrder) (ctx : ScanContext)
    (targetFunc : String) (horder : ∀ m, (order m).Perm m) :
    (ctx.CurrentResource = none →
        ContainsFunctionCallFunc order ctx targetFunc = .ok (.BoolVal false)) ∧
      (∀ r, ctx.CurrentResource = some r →
        ContainsFunctionCallFunc order ctx targetFunc
            = .ok (.BoolVal (r.RawExprs.any fun entry => containsFunctionCall entry.2 targetFunc)) ∧
          (ContainsFunctionCallFunc order ctx targetFunc = .ok (.BoolVal true) ↔
            ∃ entry ∈ r.RawExprs, containsFunctionCall entry.2 targetFunc = true)) ∧
      (∀ err, ContainsFunctionCallFunc order ctx targetFunc ≠ .error err) := by
  refine ⟨?_, ?_, ?_⟩
  · intro hnone
    simp only [ContainsFunctionCallFunc, hnone]
  · intro r hr
    have hany := any_eq_of_perm (fun entry : String × Option Expression =>
      containsFunctionCall entry.2 targetFunc) (horder r.RawExprs)
    have hval : ContainsFunctionCallFunc order ctx targetFunc
        = .ok (.BoolVal (r.RawExprs.any fun entry => containsFunctionCall entry.2 targetFunc)) := by
      simp only [ContainsFunctionCallFunc, hr, hany]
      cases (r.RawExprs.any fun entry => containsFunctionCall entry.2 targetFunc) <;> simp
    refine ⟨hval, ?_⟩
    rw [hval, ← List.any_eq_true]
    constructor
    · intro h
      injection h with h
      injection h
    · intro h
      rw [h]
  · intro err
    unfold ContainsFunctionCallFunc
    cases ctx.CurrentResource with
    | none => simp
    | some r =>
      simp only
      split <;> simp

/-- C14 with the map visited in reverse order, for a resource whose second
attribute calls `trim`. -/
theorem C14_contains_function_call_witness :
    ContainsFunctionCallFunc List.reverse {} "trim" = .ok (.BoolVal false) ∧
      ContainsFunctionCallFunc List.reverse { CurrentResource := some sampleRawResource } "trim"
        = .ok (.BoolVal true) :=
  ⟨(C14_contains_function_call List.reverse {} "trim" List.reverse_perm).1 rfl,
    ((C14_contains_function_call List.reverse { CurrentResource := some sampleRawResource }
      "trim" List.reverse_perm).2.1 sampleRawResource rfl).1⟩

/-- C18: for a pattern that is not an absolute path, `MatchesPath` is true
exactly when the glob pattern matches the base name of the candidate or matches
the whole candidate: `*.tf` matches `main.tf` and `legacy/main.tf`,
`legacy/*.tf` matches `legacy/old.tf`, and `*.hcl` does not match `main.tf`. -/
theorem C18_relative_pattern_base_or_full (pattern candidate : String)
    (hrel : filepathIsAbs pattern = false) :
    (MatchesPath pattern candidate = true ↔
        filepathMatch pattern (filepathBase candidate) = true ∨
          filepathMatch pattern candidate = true) ∧
      MatchesPath "*.tf" "main.tf" = true ∧
      MatchesPath "*.tf" "legacy/main.tf" = true ∧
      MatchesPath "legacy/*.tf" "legacy/old.tf" = true ∧
      MatchesPath "*.hcl" "main.tf" = false := by
  refine ⟨?_, by decide, by decide, by decide, by decide⟩
  unfold MatchesPath
  rw [hrel]
  by_cases hbase : filepathMatch pattern (filepathBase candidate) = true
  · simp [hbase]
  · simp [hbase]

/-- C18 at the pattern `*.tf` and the candidate `legacy/main.tf`: the pattern
does not match the whole candidate and matches its base name `main.tf`. -/
theorem C18_relative_pattern_base_or_full_witness :
    filepathIsAbs "*.tf" = false ∧ filepathMatch "*.tf" "legacy/main.tf" = false ∧
      filepathBase "legacy/main.tf" = "main.tf" ∧
      (MatchesPath "*.tf" "legacy/main.tf" = true ↔
        filepathMatch "*.tf" (filepathBase "legacy/main.tf") = true ∨
          filepathMatch "*.tf" "legacy/main.tf" = true) :=
  ⟨by decide, by decide, by decide,
    (C18_relative_pattern_base_or_full "*.tf" "legacy/main.tf" (by decide)).1⟩

/-- C19: for a pattern that is an absolute path, `MatchesPath` is the result
of matching the glob pattern against the whole candidate: a match of the base
name does not make it true when the whole candidate does not match, and it is
false when `filepath.Match` reports a malformed pattern. -/
theorem C19_absolute_pattern_full_only (pattern candidate : String)
    (habs : filepathIsAbs pattern = true) :
    (MatchesPath pattern candidate = true ↔ filepathMatch pattern candidate = true) ∧
      (filepathMatch pattern candidate = false → MatchesPath pattern candidate = false) ∧
      (filepathMatchResult pattern candidate = none → MatchesPath pattern candidate = false) := by
  have h : MatchesPath pattern candidate = filepathMatch pattern candidate := by
    unfold MatchesPath
    rw [habs]
    rfl
  refine ⟨by rw [h], fun hf => by rw [h, hf], fun hbad => ?_⟩
  rw [h]
  unfold filepathMatch
  rw [hbad]
  rfl

/-- C19 at the pattern `/` and the candidate `//`, whose base name `/` the
pattern matches, and at the malformed pattern `/[`. -/
theorem C19_absolute_pattern_full_only_witness :
    filepathIsAbs "/" = true ∧ filepathMatch "/" (filepathBase "//") = true ∧
      MatchesPath "/" "//" = false ∧
      filepathMatchResult "/[" "/a" = none ∧ MatchesPath "/[" "/a" = false :=
  ⟨by decide, by decide,
    (C19_absolute_pattern_full_only "/" "//" (by decide)).2.1 (by decide),
    by decide,
    (C19_absolute_pattern_full_only "/[" "/a" (by decide)).2.2 (by decide)⟩

/-! ## Lemmas on type patterns -/

theorem replaceAllPair_cons (a b : Char) (repl : List Char) (c : Char) (l : List Char)
    (h : ¬ (c = a ∧ l.head? = some b)) :
    replaceAllPair a b repl (c :: l) = c :: replaceAllPair a b repl l := by
  cases l with
  | nil => simp [replaceAllPair]
  | cons d rest =>
    have h' : ¬ (c = a ∧ d = b) := by
      intro hcd
      exact h ⟨hcd.1, by simp [hcd.2]⟩
    simp only [replaceAllPair, if_neg h']

theorem replaceAllPair_pair (a b : Char) (repl : List Char) (l : List Char) :
    replaceAllPair a b repl (a :: b :: l) = repl ++ replaceAllPair a b repl l := by
  simp [replaceAllPair]

theorem quotedChar_head (c : Char) (l : List Char) :
    ∃ d rest, quotedChar c ++ l = d :: rest ∧ d ≠ '*' ∧ d ≠ '?' := by
  unfold quotedChar
  by_cases hc : c ∈ regexpSpecial
  · rw [if_pos hc]
    exact ⟨'\\', c :: l, rfl, by decide, by decide⟩
  · rw [if_neg hc]
    refine ⟨c, l, rfl, ?_, ?_⟩
    · intro h
      exact hc (h ▸ by decide)
    · intro h
      exact hc (h ▸ by decide)

theorem flatMap_quotedChar_head (ps : List Char) :
    (ps.flatMap quotedChar).head? ≠ some '*' ∧ (ps.flatMap quotedChar).head? ≠ some '?' := by
  cases ps with
  | nil => simp
  | cons c ps =>
    obtain ⟨d, rest, heq, h1, h2⟩ := quotedChar_head c (ps.flatMap quotedChar)
    rw [List.flatMap_cons, heq]
    simp only [List.head?_cons, ne_eq, Option.some.injEq]
    exact ⟨h1, h2⟩

theorem replaceStar_quoted (ps : List Char) :
    replaceAllPair '\\' '*' ['.', '*'] (ps.flatMap quotedChar) = ps.flatMap starPiece := by
  induction ps with
  | nil => rfl
  | cons c ps ih =>
    rw [List.flatMap_cons, List.flatMap_cons]
    have hhead := (flatMap_quotedChar_head ps).1
    by_cases hstar : c = '*'
    · subst hstar
      have hs : starPiece '*' = ['.', '*'] := by decide
      have hq : quotedChar '*' = ['\\', '*'] := by decide
      rw [hq, hs]
      show replaceAllPair '\\' '*' ['.', '*'] ('\\' :: '*' :: ps.flatMap quotedChar) = _
      rw [replaceAllPair_pair, ih]
    · have hs : starPiece c = quotedChar c := by simp [starPiece, hstar]
      rw [hs]
      by_cases hc : c ∈ regexpSpecial
      · have hq : quotedChar c = ['\\', c] := by simp [quotedChar, hc]
        rw [hq]
        show replaceAllPair '\\' '*' ['.', '*'] ('\\' :: c :: ps.flatMap quotedChar) = _
        rw [replaceAllPair_cons _ _ _ _ _ (by simp [hstar]),
          replaceAllPair_cons _ _ _ _ _ (fun h => hhead h.2), ih]
        rfl
      · have hq : quotedChar c = [c] := by simp [quotedChar, hc]
        rw [hq]
        show replaceAllPair '\\' '*' ['.', '*'] (c :: ps.flatMap quotedChar) = _
        have hne : c ≠ '\\' := fun h => hc (h ▸ by decide)
        rw [replaceAllPair_cons _ _ _ _ _ (fun h => hne h.1), ih]
        rfl

theorem flatMap_starPiece_head (ps : List Char) :
    (ps.flatMap starPiece).head? ≠ some '?' := by
  cases ps with
  | nil => simp
  | cons c ps =>
    rw [List.flatMap_cons]
    by_cases hstar : c = '*'
    · subst hstar
      have hs : starPiece '*' = ['.', '*'] := by decide
      rw [hs]
      simp
    · have hs : starPiece c = quotedChar c := by simp [starPiece, hstar]
      obtain ⟨d, rest, heq, _, h2⟩ := quotedChar_head c (ps.flatMap starPiece)
      rw [hs, heq]
      simp only [List.head?_cons, ne_eq, Option.some.injEq]
      exact h2

theorem replaceQuestion_starPiece (ps : List Char) :
    replaceAllPair '\\' '?' ['.'] (ps.flatMap starPiece) = ps.flatMap regexpPiece := by
  induction ps with
  | nil => rfl
  | cons c ps ih =>
    rw [List.flatMap_cons, List.flatMap_cons]
    have hhead := flatMap_starPiece_head ps
    by_cases hstar : c = '*'
    · subst hstar
      have hs : starPiece '*' = ['.', '*'] := by decide
      have hr : regexpPiece '*' = ['.', '*'] := by decide
      rw [hs, hr]
      show replaceAllPair '\\' '?' ['.'] ('.' :: '*' :: ps.flatMap starPiece) = _
      rw [replaceAllPair_cons _ _ _ _ _ (by simp),
        replaceAllPair_cons _ _ _ _ _ (by simp), ih]
      rfl
    · have hs : starPiece c = quotedChar c := by simp [starPiece, hstar]
      rw [hs]
      by_cases hq : c = '?'
      · subst hq
        have hq' : quotedChar '?' = ['\\', '?'] := by decide
        have hr : regexpPiece '?' = ['.'] := by decide
        rw [hq', hr]
        show replaceAllPair '\\' '?' ['.'] ('\\' :: '?' :: ps.flatMap starPiece) = _
        rw [replaceAllPair_pair, ih]
      · have hr : regexpPiece c = quotedChar c := by simp [regexpPiece, hstar, hq]
        rw [hr]
        by_cases hc : c ∈ regexpSpecial
        · have hq' : quotedChar c = ['\\', c] := by simp [quotedChar, hc]
          rw [hq']
          show replaceAllPair '\\' '?' ['.'] ('\\' :: c :: ps.flatMap starPiece) = _
          rw [replaceAllPair_cons _ _ _ _ _ (by simp [hq]),
            replaceAllPair_cons _ _ _ _ _ (fun h => hhead h.2), ih]
          rfl
        · have hq' : quotedChar c = [c] := by simp [quotedChar, hc]
          rw [hq']
          show replaceAllPair '\\' '?' ['.'] (c :: ps.flatMap starPiece) = _
          have hne : c ≠ '\\' := fun h => hc (h ▸ by decide)
          rw [replaceAllPair_cons _ _ _ _ _ (fun h => hne h.1), ih]
          rfl

theorem typeRegexp_eq (typePattern : String) :
    typeRegexp typePattern = '^' :: (typePattern.toList.flatMap regexpPiece ++ ['$']) := by
  unfold typeRegexp
  simp only
  have h1 : replaceAllPair '\\' '*' ['.', '*'] ('^' :: QuoteMeta typePattern.toList)
      = '^' :: typePattern.toList.flatMap starPiece := by
    rw [replaceAllPair_cons _ _ _ _ _ (by simp)]
    exact congrArg _ (replaceStar_quoted typePattern.toList)
  have h2 : replaceAllPair '\\' '?' ['.'] ('^' :: typePattern.toList.flatMap starPiece)
      = '^' :: typePattern.toList.flatMap regexpPiece := by
    rw [replaceAllPair_cons _ _ _ _ _ (by simp)]
    exact congrArg _ (replaceQuestion_starPiece typePattern.toList)
  rw [h1, h2]
  rfl

theorem regexpPiece_tail_head (ps : List Char) :
    ∃ d rest, ps.flatMap regexpPiece ++ ['$'] = d :: rest ∧ d ≠ '*' := by
  cases ps with
  | nil => exact ⟨'$', [], rfl, by decide⟩
  | cons c ps =>
    rw [List.flatMap_cons, List.append_assoc]
    by_cases hstar : c = '*'
    · subst hstar
      exact ⟨'.', _, rfl, by decide⟩
    · by_cases hq : c = '?'
      · subst hq
        exact ⟨'.', _, rfl, by decide⟩
      · have hr : regexpPiece c = quotedChar c := by simp [regexpPiece, hstar, hq]
        obtain ⟨d, rest, heq, h1, _⟩ :=
          quotedChar_head c (ps.flatMap regexpPiece ++ ['$'])
        rw [hr, heq]
        exact ⟨d, rest, rfl, h1⟩

theorem regexpParse_pieces (ps : List Char) :
    regexpParse (ps.flatMap regexpPiece ++ ['$']) = some (ps.map patternNode ++ [.endText]) := by
  induction ps with
  | nil => decide
  | cons c ps ih =>
    obtain ⟨d, rest, hrest, hd⟩ := regexpPiece_tail_head ps
    rw [List.flatMap_cons, List.append_assoc, List.map_cons, List.cons_append]
    by_cases hstar : c = '*'
    · subst hstar
      have hr : regexpPiece '*' = ['.', '*'] := by decide
      have hn : patternNode '*' = .anyStar := by decide
      rw [hr, hn]
      show regexpParse ('.' :: '*' :: (ps.flatMap regexpPiece ++ ['$'])) = _
      simp [regexpParse, ih]
    · by_cases hq : c = '?'
      · subst hq
        have hr : regexpPiece '?' = ['.'] := by decide
        have hn : patternNode '?' = .anyChar := by decide
        rw [hr, hn]
        show regexpParse ('.' :: (ps.flatMap regexpPiece ++ ['$'])) = _
        rw [hrest] at ih ⊢
        simp [regexpParse, hd, ih]
      · have hr : regexpPiece c = quotedChar c := by simp [regexpPiece, hstar, hq]
        have hn : patternNode c = .lit c := by simp [patternNode, hstar, hq]
        rw [hr, hn]
        by_cases hc : c ∈ regexpSpecial
        · have hq' : quotedChar c = ['\\', c] := by simp [quotedChar, hc]
          rw [hq']
          show regexpParse ('\\' :: c :: (ps.flatMap regexpPiece ++ ['$'])) = _
          simp [regexpParse, hc, ih]
        · have hq' : quotedChar c = [c] := by simp [quotedChar, hc]
          rw [hq']
          show regexpParse (c :: (ps.flatMap regexpPiece ++ ['$'])) = _
          have h1 : c ≠ '\\' := fun h => hc (h ▸ by decide)
          have h2 : c ≠ '.' := fun h => hc (h ▸ by decide)
          have h3 : c ≠ '$' := fun h => hc (h ▸ by decide)
          rw [hrest] at ih ⊢
          simp [regexpParse, h1, h2, h3, hc, ih]

theorem regexpMatchNodes_pattern :
    ∀ (ps s : List Char),
      regexpMatchNodes (ps.map patternNode ++ [.endText]) s = typePatternMatch ps s
  | [], s => by simp [regexpMatchNodes, typePatternMatch]
  | c :: ps, s => by
    have ih := regexpMatchNodes_pattern ps
    rw [List.map_cons, List.cons_append]
    by_cases hstar : c = '*'
    · subst hstar
      have hn : patternNode '*' = .anyStar := by decide
      have hfun : regexpMatchNodes (ps.map patternNode ++ [.endText]) = typePatternMatch ps :=
        funext ih
      rw [hn]
      simp only [regexpMatchNodes, typePatternMatch, if_true, hfun]
    · by_cases hq : c = '?'
      · subst hq
        have hn : patternNode '?' = .anyChar := by decide
        rw [hn]
        cases s with
        | nil => simp [regexpMatchNodes, typePatternMatch]
        | cons x xs => simp [regexpMatchNodes, typePatternMatch, ih]
      · have hn : patternNode c = .lit c := by simp [patternNode, hstar, hq]
        rw [hn]
        cases s with
        | nil => simp [regexpMatchNodes, typePatternMatch, hstar]
        | cons x xs => simp [regexpMatchNodes, typePatternMatch, hstar, hq, ih]

theorem typeRegexp_match (typePattern : String) (s : List Char) :
    regexpMatchString (typeRegexp typePattern) s
      = some (typePatternMatch typePattern.toList s) := by
  rw [typeRegexp_eq]
  simp only [regexpMatchString, regexpParse_pieces, Option.map_some',
    regexpMatchNodes_pattern]

theorem matchAnyStar_iff (k : List Char → Bool) :
    ∀ (s : List Char), matchAnyStar k s = true ↔
      ∃ run rest, s = run ++ rest ∧ (∀ c ∈ run, c ≠ '\n') ∧ k rest = true
  | [] => by
    simp only [matchAnyStar]
    constructor
    · intro h
      exact ⟨[], [], rfl, by simp, h⟩
    · rintro ⟨run, rest, hs, _, hk⟩
      have hrest : rest = [] := by
        cases run with
        | nil => simpa using hs.symm
        | cons d run => simp at hs
      rw [hrest] at hk
      exact hk
  | c :: cs => by
    have ih := matchAnyStar_iff k cs
    simp only [matchAnyStar, Bool.or_eq_true, Bool.and_eq_true, decide_eq_true_eq]
    constructor
    · rintro (h | ⟨hc, h⟩)
      · exact ⟨[], c :: cs, rfl, by simp, h⟩
      · obtain ⟨run, rest, hs, hrun, hk⟩ := ih.1 h
        refine ⟨c :: run, rest, by rw [hs]; rfl, ?_, hk⟩
        intro d hd
        rcases List.mem_cons.1 hd with hd | hd
        · rw [hd]
          exact hc
        · exact hrun d hd
    · rintro ⟨run, rest, hs, hrun, hk⟩
      cases run with
      | nil =>
        rw [List.nil_append] at hs
        rw [← hs] at hk
        exact Or.inl hk
      | cons d run =>
        rw [List.cons_append] at hs
        injection hs with h1 h2
        subst h1
        refine Or.inr ⟨hrun c (List.mem_cons_self _ _), ih.2 ⟨run, rest, h2, ?_, hk⟩⟩
        intro x hx
        exact hrun x (List.mem_cons_of_mem _ hx)

theorem typePatternMatch_sound :
    ∀ (ps s : List Char), typePatternMatch ps s = true → WildcardMatch ps s
  | [], s, h => by
    simp only [typePatternMatch, List.isEmpty_iff] at h
    rw [h]
    exact .done
  | p :: ps, s, h => by
    by_cases hstar : p = '*'
    · subst hstar
      simp only [typePatternMatch, if_true] at h
      obtain ⟨run, rest, hs, hrun, hk⟩ := (matchAnyStar_iff _ s).1 h
      rw [hs]
      exact .star ps run rest hrun (typePatternMatch_sound ps rest hk)
    · cases s with
      | nil => simp [typePatternMatch, hstar] at h
      | cons c cs =>
        simp only [typePatternMatch, if_neg hstar, Bool.and_eq_true] at h
        by_cases hq : p = '?'
        · subst hq
          simp only [if_true, decide_eq_true_eq] at h
          exact .one ps c cs h.1 (typePatternMatch_sound ps cs h.2)
        · simp only [if_neg hq, decide_eq_true_eq] at h
          rw [← h.1]
          exact .char p ps cs hstar hq (typePatternMatch_sound ps cs h.2)

theorem typePatternMatch_complete (ps s : List Char) (h : WildcardMatch ps s) :
    typePatternMatch ps s = true := by
  induction h with
  | done => rfl
  | star ps run s hrun _ ih =>
    simp only [typePatternMatch, if_true]
    exact (matchAnyStar_iff _ _).2 ⟨run, s, rfl, hrun, ih⟩
  | one ps c s hc _ ih =>
    simp [typePatternMatch, hc, ih]
  | char p ps s hstar hq _ ih =>
    simp [typePatternMatch, hstar, hq, ih]

theorem typePatternMatch_iff (ps s : List Char) :
    typePatternMatch ps s = true ↔ WildcardMatch ps s :=
  ⟨typePatternMatch_sound ps s, typePatternMatch_complete ps s⟩

theorem ResourceMap.set_append (r : Resource) :
    ∀ (m : ResourceMap), m.Typed →
      (m.set r.Type_ (m.get r.Type_ ++ [r])).Typed ∧
        ((m.set r.Type_ (m.get r.Type_ ++ [r])).flatMap fun entry => entry.2).Perm
          ((m.flatMap fun entry => entry.2) ++ [r])
  | [], _ => by
    constructor
    · intro entry hentry x hx
      simp only [ResourceMap.set, ResourceMap.get, List.nil_append, List.mem_singleton] at hentry
      subst hentry
      simp only [List.mem_singleton] at hx
      rw [hx]
    · simp [ResourceMap.set, ResourceMap.get]
  | (k0, v0) :: rest, htyped => by
    have hrest : ResourceMap.Typed rest := fun entry hentry =>
      htyped entry (List.mem_cons_of_mem _ hentry)
    have hhead : ∀ x ∈ v0, x.Type_ = k0 := htyped (k0, v0) (List.mem_cons_self _ _)
    by_cases hk : k0 = r.Type_
    · simp only [ResourceMap.set, ResourceMap.get, if_pos hk]
      constructor
      · intro entry hentry x hx
        rcases List.mem_cons.1 hentry with hentry | hentry
        · subst hentry
          rcases List.mem_append.1 hx with hx | hx
          · rw [hhead x hx, hk]
          · simp only [List.mem_singleton] at hx
            rw [hx]
        · exact hrest entry hentry x hx
      · simp only [List.flatMap_cons, List.append_assoc]
        exact List.Perm.append_left v0 List.perm_append_comm
    · obtain ⟨ih1, ih2⟩ := ResourceMap.set_append r rest hrest
      simp only [ResourceMap.set, ResourceMap.get, if_neg hk]
      constructor
      · intro entry hentry x hx
        rcases List.mem_cons.1 hentry with hentry | hentry
        · subst hentry
          exact hhead x hx
        · exact ih1 entry hentry x hx
      · simp only [List.flatMap_cons, List.append_assoc]
        exact List.Perm.append_left v0 ih2

theorem indexResources_typed_perm :
    ∀ (rs : List Resource) (ctx : ScanContext), ctx.ResourcesByType.Typed →
      (indexResources ctx rs).ResourcesByType.Typed ∧
        ((indexResources ctx rs).ResourcesByType.flatMap fun entry => entry.2).Perm
          ((ctx.ResourcesByType.flatMap fun entry => entry.2) ++ rs)
  | [], ctx, h => by simp [indexResources, h]
  | r :: rest, ctx, h => by
    obtain ⟨h1, h2⟩ := ResourceMap.set_append r ctx.ResourcesByType h
    obtain ⟨ih1, ih2⟩ := indexResources_typed_perm rest
      { ctx with
        ResourcesByType :=
          ctx.ResourcesByType.set r.Type_ (ctx.ResourcesByType.get r.Type_ ++ [r])
        ResourcesByFile :=
          ctx.ResourcesByFile.set r.File (ctx.ResourcesByFile.get r.File ++ [r]) } h1
    refine ⟨ih1, ?_⟩
    refine ih2.trans ?_
    have h3 := List.Perm.append_right rest h2
    simpa [List.append_assoc] using h3

theorem NewScanContext_typed_perm (R : List Resource) :
    (NewScanContext R).ResourcesByType.Typed ∧
      ((NewScanContext R).ResourcesByType.flatMap fun entry => entry.2).Perm R := by
  have h := indexResources_typed_perm R { AllResources := R }
    (fun entry hentry => by cases hentry)
  simpa [NewScanContext] using h

theorem filter_flatMap_typed (f : String → Bool) :
    ∀ (m : ResourceMap), m.Typed →
      ((m.filter fun entry => f entry.1).flatMap fun entry => entry.2)
        = (m.flatMap fun entry => entry.2).filter fun r => f r.Type_
  | [], _ => rfl
  | (k0, v0) :: rest, htyped => by
    have hrest : ResourceMap.Typed rest := fun entry hentry =>
      htyped entry (List.mem_cons_of_mem _ hentry)
    have hhead : ∀ x ∈ v0, x.Type_ = k0 := htyped (k0, v0) (List.mem_cons_self _ _)
    have ih := filter_flatMap_typed f rest hrest
    have hv0 : v0.filter (fun r => f r.Type_) = if f k0 then v0 else [] := by
      by_cases hf : f k0 = true
      · rw [if_pos hf, List.filter_eq_self]
        intro x hx
        rw [hhead x hx]
        exact hf
      · rw [if_neg hf, List.filter_eq_nil_iff]
        intro x hx
        rw [hhead x hx]
        exact hf
    rw [List.flatMap_cons, List.filter_append, hv0, ← ih, List.filter_cons]
    by_cases hf : f k0 = true
    · simp [hf]
    · simp [hf]

theorem GetResourcesByType_wildcard (order : MapOrder) (ctx : ScanContext) (typePattern : String)
    (hwild : hasWildcard typePattern = true) (hne : typePattern ≠ "*") :
    GetResourcesByType order ctx typePattern =
      ((order ctx.ResourcesByType).filter
        fun entry => typePatternMatch typePattern.toList entry.1.toList).flatMap
          fun entry => entry.2 := by
  unfold GetResourcesByType
  rw [if_neg hne, if_pos hwild]
  simp only [typeRegexp_match, Option.getD_some]

theorem GetResourcesByType_wildcard_perm (order : MapOrder) (R : List Resource)
    (typePattern : String) (horder : ∀ m, (order m).Perm m)
    (hwild : hasWildcard typePattern = true) (hne : typePattern ≠ "*") :
    (GetResourcesByType order (NewScanContext R) typePattern).Perm
      (R.filter fun r => typePatternMatch typePattern.toList r.Type_.toList) := by
  obtain ⟨htyped, hperm⟩ := NewScanContext_typed_perm R
  rw [GetResourcesByType_wildcard order _ typePattern hwild hne]
  have h1 := ((horder (NewScanContext R).ResourcesByType).filter
    fun entry => typePatternMatch typePattern.toList entry.1.toList).flatMap_right
      fun entry => entry.2
  refine h1.trans ?_
  rw [filter_flatMap_typed (fun t => typePatternMatch typePattern.toList t.toList) _ htyped]
  exact hperm.filter _

theorem typePatternMatch_char (p : Char) (ps s : List Char) (hstar : p ≠ '*') (hq : p ≠ '?') :
    typePatternMatch (p :: ps) s = true ↔ ∃ cs, s = p :: cs ∧ typePatternMatch ps cs = true := by
  cases s with
  | nil => simp [typePatternMatch, hstar]
  | cons c cs =>
    simp only [typePatternMatch, if_neg hstar, if_neg hq, Bool.and_eq_true, decide_eq_true_eq,
      List.cons.injEq]
    constructor
    · rintro ⟨h1, h2⟩
      exact ⟨cs, ⟨h1.symm, rfl⟩, h2⟩
    · rintro ⟨cs', ⟨h1, h2⟩, h3⟩
      subst h2
      exact ⟨h1.symm, h3⟩

theorem typePatternMatch_aws (s : List Char) :
    typePatternMatch "aws_*".toList s = true ↔
      ∃ rest, s = "aws_".toList ++ rest ∧ ∀ c ∈ rest, c ≠ '\n' := by
  show typePatternMatch ['a', 'w', 's', '_', '*'] s = true ↔
    ∃ rest, s = ['a', 'w', 's', '_'] ++ rest ∧ ∀ c ∈ rest, c ≠ '\n'
  have hlast : ∀ t, typePatternMatch ['*'] t = true ↔ ∀ c ∈ t, c ≠ '\n' := by
    intro t
    simp only [typePatternMatch, if_true]
    rw [matchAnyStar_iff]
    constructor
    · rintro ⟨run, rest, ht, hrun, hrest⟩
      simp only [List.isEmpty_iff] at hrest
      rw [ht, hrest, List.append_nil]
      exact hrun
    · intro h
      exact ⟨t, [], by simp, h, rfl⟩
  rw [typePatternMatch_char 'a' _ _ (by decide) (by decide)]
  constructor
  · rintro ⟨s1, h1, h⟩
    rw [typePatternMatch_char 'w' _ _ (by decide) (by decide)] at h
    obtain ⟨s2, h2, h⟩ := h
    rw [typePatternMatch_char 's' _ _ (by decide) (by decide)] at h
    obtain ⟨s3, h3, h⟩ := h
    rw [typePatternMatch_char '_' _ _ (by decide) (by decide)] at h
    obtain ⟨s4, h4, h⟩ := h
    exact ⟨s4, by rw [h1, h2, h3, h4]; rfl, (hlast s4).1 h⟩
  · rintro ⟨rest, hs, hrest⟩
    refine ⟨'w' :: 's' :: '_' :: rest, by rw [hs]; rfl, ?_⟩
    rw [typePatternMatch_char 'w' _ _ (by decide) (by decide)]
    refine ⟨'s' :: '_' :: rest, rfl, ?_⟩
    rw [typePatternMatch_char 's' _ _ (by decide) (by decide)]
    refine ⟨'_' :: rest, rfl, ?_⟩
    rw [typePatternMatch_char '_' _ _ (by decide) (by decide)]
    exact ⟨rest, rfl, (hlast rest).2 hrest⟩

/-- C15, as stated, fails: the type of `lineFeedResource` begins with `aws_`
and `GetResourcesByType` does not return the resource for the pattern
`aws_*`, since `*` does not stand for a line feed. -/
theorem C15_line_feed_not_matched :
    "aws_".toList.isPrefixOf lineFeedResource.Type_.toList = true ∧
      (GetResourcesByType id (NewScanContext [lineFeedResource]) "aws_*").length = 0 := by
  decide

/-- C15, amended: for a type pattern with `*` or `?` other than the bare `*`,
`GetResourcesByType` on the index of a resource list returns, up to the order,
the resources of the list whose whole type matches the pattern, where `*`
stands for zero or more characters other than a line feed, `?` for one
character other than a line feed, and every other character of the pattern,
special in regular expressions or not, for itself; for `aws_*` these are the
resources whose type is `aws_` followed by characters other than a line
feed. -/
theorem C15_wildcard_pattern_matches (order : MapOrder) (R : List Resource)
    (typePattern : String) (horder : ∀ m, (order m).Perm m)
    (hwild : hasWildcard typePattern = true) (hne : typePattern ≠ "*") :
    (GetResourcesByType order (NewScanContext R) typePattern).Perm
        (R.filter fun r => typePatternMatch typePattern.toList r.Type_.toList) ∧
      (∀ r, r ∈ GetResourcesByType order (NewScanContext R) typePattern ↔
        r ∈ R ∧ WildcardMatch typePattern.toList r.Type_.toList) ∧
      (∀ r, r ∈ GetResourcesByType order (NewScanContext R) "aws_*" ↔
        r ∈ R ∧ ∃ rest, r.Type_.toList = "aws_".toList ++ rest ∧ ∀ c ∈ rest, c ≠ '\n') := by
  have hperm := GetResourcesByType_wildcard_perm order R typePattern horder hwild hne
  refine ⟨hperm, ?_, ?_⟩
  · intro r
    rw [hperm.mem_iff, List.mem_filter, typePatternMatch_iff]
  · intro r
    have haws := GetResourcesByType_wildcard_perm order R "aws_*" horder (by decide) (by decide)
    rw [haws.mem_iff, List.mem_filter, typePatternMatch_aws]

/-- C15, amended, at the pattern `aws_*` with the map visited in reverse
order: the instance and the bucket are returned, the virtual machine is
not. -/
theorem C15_wildcard_pattern_matches_witness :
    hasWildcard "aws_*" = true ∧
      (GetResourcesByType List.reverse
        (NewScanContext [sampleInstance, sampleMachine, sampleBucket]) "aws_*").Perm
        ([sampleInstance, sampleMachine, sampleBucket].filter fun r =>
          typePatternMatch "aws_*".toList r.Type_.toList) ∧
      ([sampleInstance, sampleMachine, sampleBucket].filter fun r =>
          typePatternMatch "aws_*".toList r.Type_.toList) = [sampleInstance, sampleBucket] :=
  ⟨by decide,
    (C15_wildcard_pattern_matches List.reverse [sampleInstance, sampleMachine, sampleBucket]
      "aws_*" List.reverse_perm (by decide) (by decide)).1,
    rfl⟩

theorem GetResourcesByType_star (order : MapOrder) (R : List Resource) :
    GetResourcesByType order (NewScanContext R) "*" = R := by
  unfold GetResourcesByType NewScanContext
  rw [if_pos rfl, indexResources_all]

/-- C16: on the index of a resource list, `GetResourcesByType` with the
pattern `*` returns the list itself: every resource, once per occurrence, in
the order of extraction. -/
theorem C16_star_returns_all (order : MapOrder) (R : List Resource) :
    GetResourcesByType order (NewScanContext R) "*" = R ∧
      (GetResourcesByType order (NewScanContext R) "*").length = R.length := by
  rw [GetResourcesByType_star]
  exact ⟨rfl, rfl⟩

/-- C17: for a pattern with neither `*` nor `?`, `GetResourcesByType` on the
index of a resource list returns the resources of the list whose type is the
pattern, in the order of extraction; the index holds under every type the
resources of that type in that order; and the result is empty when no
resource has the type. -/
theorem C17_exact_lookup (order : MapOrder) (R : List Resource) (t : String)
    (ht : hasWildcard t = false) :
    GetResourcesByType order (NewScanContext R) t = R.filter (fun r => r.Type_ = t) ∧
      (GetResourcesByType order (NewScanContext R) t).Sublist R ∧
      (∀ t', (NewScanContext R).ResourcesByType.get t' = R.filter fun r => r.Type_ = t') ∧
      ((∀ r ∈ R, r.Type_ ≠ t) → GetResourcesByType order (NewScanContext R) t = []) := by
  have h := GetResourcesByType_exact order R t ht
  refine ⟨h, ?_, ?_, ?_⟩
  · rw [h]
    exact List.filter_sublist _
  · intro t'
    unfold NewScanContext
    rw [indexResources_get]
    simp [ResourceMap.get]
  · intro hnone
    rw [h, List.filter_eq_nil_iff]
    intro r hr
    simpa using hnone r hr

/-- C17 at the type `aws_instance` on a list with two instances around a
bucket, and at a type that no resource has. -/
theorem C17_exact_lookup_witness :
    hasWildcard "aws_instance" = false ∧
      GetResourcesByType id (NewScanContext [sampleInstance, sampleBucket, sampleInstance])
        "aws_instance" = [sampleInstance, sampleInstance] ∧
      GetResourcesByType id (NewScanContext [sampleInstance, sampleBucket, sampleInstance])
        "aws_lambda_function" = [] :=
  ⟨by decide,
    (C17_exact_lookup id [sampleInstance, sampleBucket, sampleInstance] "aws_instance"
      (by decide)).1,
    (C17_exact_lookup id [sampleInstance, sampleBucket, sampleInstance] "aws_lambda_function"
      (by decide)).1⟩

/-! ## Lemmas on the order of the violations -/

theorem scanResource_violation (hcl : HclEngine) (ctx : ScanContext) (rule : Rule) (x : Resource)
    (v : Violation) (h : (scanResource hcl ctx rule x).1 = .ok (some v)) :
    v = mkViolation rule x := by
  have hcheck : ∀ v, (checkConditions hcl ctx rule x).1 = .ok (some v) → v = mkViolation rule x := by
    intro v hv
    rw [checkConditions_eq] at hv
    simp only at hv
    cases hr : (evalConditions hcl ctx rule x 0 rule.Conditions).1 with
    | error err =>
      rw [hr] at hv
      cases hv
    | ok b =>
      rw [hr] at hv
      cases b with
      | false => cases hv
      | true =>
        injection hv with hv
        injection hv with hv
        exact hv.symm
  rw [scanResource_eq] at h
  cases hw : rule.When with
  | none =>
    rw [hw] at h
    exact hcheck v h
  | some w =>
    rw [hw] at h
    simp only at h
    cases hout : evaluateExpression hcl ctx w.Expression x with
    | error err =>
      rw [hout] at h
      cases h
    | ok b =>
      rw [hout] at h
      cases b with
      | false => cases h
      | true => exact hcheck v h

theorem resourceViolations_mem (hcl : HclEngine) (ctx : ScanContext) (rule : Rule) (x : Resource)
    (v : Violation) (h : v ∈ resourceViolations hcl ctx rule x) : v = mkViolation rule x := by
  unfold resourceViolations at h
  cases hr : (scanResource hcl { ctx with CurrentResource := some x } rule x).1 with
  | error err =>
    rw [hr] at h
    cases h
  | ok found =>
    rw [hr] at h
    cases found with
    | none => cases h
    | some v' =>
      simp only [List.mem_singleton] at h
      rw [h]
      exact scanResource_violation hcl _ rule x v' hr

theorem scanResources_ok (hcl : HclEngine) (rule : Rule) :
    ∀ (rs : List Resource) (ctx : ScanContext) (vs : List Violation),
      (scanResources hcl rule ctx rs).result = .ok vs →
      vs = rs.flatMap (resourceViolations hcl ctx rule)
  | [], ctx, vs, h => by
    simp only [scanResources] at h
    injection h with h
    rw [← h]
    rfl
  | x :: rest, ctx, vs, h => by
    rw [scanResources_cons] at h
    cases hr : (scanResource hcl { ctx with CurrentResource := some x } rule x).1 with
    | error err =>
      rw [hr] at h
      cases h
    | ok found =>
      rw [hr] at h
      simp only at h
      cases hrest : (scanResources hcl rule { ctx with CurrentResource := some x } rest).result with
      | error err =>
        rw [hrest] at h
        cases h
      | ok vs' =>
        rw [hrest] at h
        have ih := scanResources_ok hcl rule rest { ctx with CurrentResource := some x } vs' hrest
        have hvs : vs = found.toList ++ vs' := by
          injection h with h
          exact h.symm
        have hhead : resourceViolations hcl ctx rule x = found.toList := by
          unfold resourceViolations
          rw [hr]
          cases found <;> rfl
        rw [hvs, List.flatMap_cons, hhead, ih]
        rfl

theorem flatMap_enumFrom_succ {α β : Type} (f : Nat × α → List β) :
    ∀ (l : List α) (k : Nat),
      (l.enumFrom (k + 1)).flatMap f = (l.enumFrom k).flatMap fun p => f (p.1 + 1, p.2)
  | [], _ => rfl
  | a :: l, k => by
    rw [List.enumFrom_cons, List.enumFrom_cons, List.flatMap_cons, List.flatMap_cons,
      flatMap_enumFrom_succ f l (k + 1)]

theorem scanRules_ok :
    ∀ (s : Scanner) (rules : List Rule) (ctx : ScanContext) (vs : List Violation),
      (scanRules s ctx rules).result = .ok vs →
      vs = rules.enum.flatMap fun p =>
        (GetResourcesByType (s.orders p.1) ctx p.2.ResourceType).flatMap
          (resourceViolations s.hcl ctx p.2)
  | s, [], ctx, vs, h => by
    simp only [scanRules] at h
    injection h with h
    rw [← h]
    rfl
  | s, rule :: rest, ctx, vs, h => by
    rw [scanRules_cons] at h
    cases hr : (scanRule s ctx rule).result with
    | error err =>
      rw [hr] at h
      cases h
    | ok ruleViolations =>
      rw [hr] at h
      simp only at h
      obtain ⟨a, ha⟩ := scanResources_context s.hcl rule ctx
        (GetResourcesByType s.order ctx rule.ResourceType)
      have hctx : (scanRule s ctx rule).context = { ctx with CurrentResource := a } := ha
      rw [hctx] at h
      cases hrest : (scanRules s.nextRange { ctx with CurrentResource := a } rest).result with
      | error err =>
        rw [hrest] at h
        cases h
      | ok vs' =>
        rw [hrest] at h
        have ih := scanRules_ok s.nextRange rest { ctx with CurrentResource := a } vs' hrest
        have hvs : vs = ruleViolations ++ vs' := by
          injection h with h
          exact h.symm
        have hhead := scanResources_ok s.hcl rule _ ctx ruleViolations hr
        rw [hvs, List.enum_cons, List.flatMap_cons, flatMap_enumFrom_succ, ih, hhead]
        rfl

theorem ResourceMap.keys_set (k : String) (v : List Resource) :
    ∀ (m : ResourceMap), (m.set k v).map (fun entry => entry.1) =
      if k ∈ m.map (fun entry => entry.1) then m.map (fun entry => entry.1)
      else m.map (fun entry => entry.1) ++ [k]
  | [] => by simp [ResourceMap.set]
  | (k0, v0) :: rest => by
    have ih := ResourceMap.keys_set k v rest
    by_cases hk : k0 = k
    · subst hk
      simp [ResourceMap.set]
    · have hk' : ¬ k = k0 := fun h => hk h.symm
      simp only [ResourceMap.set, if_neg hk, List.map_cons, ih, List.mem_cons, hk', false_or]
      by_cases hmem : k ∈ rest.map (fun entry => entry.1)
      · simp [hmem]
      · simp [hmem]

theorem ResourceMap.nodup_set (k : String) (v : List Resource) (m : ResourceMap)
    (h : (m.map fun entry => entry.1).Nodup) :
    ((m.set k v).map fun entry => entry.1).Nodup := by
  rw [ResourceMap.keys_set]
  by_cases hmem : k ∈ m.map (fun entry => entry.1)
  · rw [if_pos hmem]
    exact h
  · rw [if_neg hmem]
    exact List.Nodup.append h (List.nodup_singleton k) (by simpa using hmem)

theorem ResourceMap.get_of_mem :
    ∀ (m : ResourceMap), (m.map fun entry => entry.1).Nodup → ∀ entry ∈ m,
      m.get entry.1 = entry.2
  | [], _, entry, hentry => by cases hentry
  | (k0, v0) :: rest, hnodup, entry, hentry => by
    rw [List.map_cons, List.nodup_cons] at hnodup
    rcases List.mem_cons.1 hentry with hentry | hentry
    · subst hentry
      simp [ResourceMap.get]
    · have hne : ¬ k0 = entry.1 := by
        intro h
        exact hnodup.1 (h ▸ List.mem_map_of_mem (fun entry => entry.1) hentry)
      simp only [ResourceMap.get, if_neg hne]
      exact ResourceMap.get_of_mem rest hnodup.2 entry hentry

theorem indexResources_nodup :
    ∀ (rs : List Resource) (ctx : ScanContext),
      (ctx.ResourcesByType.map fun entry => entry.1).Nodup →
      ((indexResources ctx rs).ResourcesByType.map fun entry => entry.1).Nodup
  | [], ctx, h => h
  | r :: rest, ctx, h => by
    rw [indexResources]
    exact indexResources_nodup rest _ (ResourceMap.nodup_set _ _ _ h)

theorem NewScanContext_entry (R : List Resource) (entry : String × List Resource)
    (hentry : entry ∈ (NewScanContext R).ResourcesByType) :
    entry.2 = R.filter fun r => r.Type_ = entry.1 := by
  have hnodup : ((NewScanContext R).ResourcesByType.map fun entry => entry.1).Nodup :=
    indexResources_nodup R { AllResources := R } (by simp)
  rw [← ResourceMap.get_of_mem _ hnodup entry hentry]
  unfold NewScanContext
  rw [indexResources_get]
  simp [ResourceMap.get]

theorem flatMap_eq_of_forall {α β : Type} (f g : α → List β) :
    ∀ (l : List α), (∀ x ∈ l, f x = g x) → l.flatMap f = l.flatMap g
  | [], _ => rfl
  | x :: rest, h => by
    rw [List.flatMap_cons, List.flatMap_cons, h x (List.mem_cons_self _ _),
      flatMap_eq_of_forall f g rest (fun y hy => h y (List.mem_cons_of_mem _ hy))]

theorem GetResourcesByType_wildcard_groups (order : MapOrder) (R : List Resource)
    (typePattern : String) (horder : ∀ m, (order m).Perm m)
    (hwild : hasWildcard typePattern = true) (hne : typePattern ≠ "*") :
    GetResourcesByType order (NewScanContext R) typePattern =
      ((order (NewScanContext R).ResourcesByType).filter
        fun entry => typePatternMatch typePattern.toList entry.1.toList).flatMap
          fun entry => R.filter fun r => r.Type_ = entry.1 := by
  rw [GetResourcesByType_wildcard order _ typePattern hwild hne]
  apply flatMap_eq_of_forall
  intro entry hentry
  have h1 : entry ∈ order (NewScanContext R).ResourcesByType := (List.mem_filter.1 hentry).1
  exact NewScanContext_entry R entry ((horder _).mem_iff.1 h1)

/-- C20, as stated, fails: for the rule `wildcardRule`, whose pattern `aws_*`
matches the two types of an instance, a bucket and a second instance, the
violations do not come in the order of extraction, neither when the type index
is visited in the order of its keys nor when it is visited in the reverse
order: the two instances come together. -/
theorem C20_wildcard_not_extraction_order :
    (Scan (wildcardScanner id) 0).result
        = .ok ⟨[mkViolation wildcardRule sampleInstance, mkViolation wildcardRule secondInstance,
            mkViolation wildcardRule sampleBucket], []⟩ ∧
      (Scan (wildcardScanner List.reverse) 0).result
        = .ok ⟨[mkViolation wildcardRule sampleBucket, mkViolation wildcardRule sampleInstance,
            mkViolation wildcardRule secondInstance], []⟩ ∧
      [mkViolation wildcardRule sampleInstance, mkViolation wildcardRule secondInstance,
          mkViolation wildcardRule sampleBucket]
        ≠ [sampleInstance, sampleBucket, secondInstance].map (mkViolation wildcardRule) ∧
      [mkViolation wildcardRule sampleBucket, mkViolation wildcardRule sampleInstance,
          mkViolation wildcardRule secondInstance]
        ≠ [sampleInstance, sampleBucket, secondInstance].map (mkViolation wildcardRule) :=
  ⟨rfl, rfl, by decide, by decide⟩

/-- C20, amended: when `Scan` succeeds, the violations before exception
filtering are the concatenation, in the order of the rules, of the violations
of each rule, and the violations of a rule follow the order in which its call
of `GetResourcesByType` returns the candidate resources, each candidate giving
its violation or nothing; every rule has its own range over the type index,
with an order of its own. The result of `Scan` is what `filterExceptions`
makes of these violations. On the index of a resource list, and whatever the
order of the range, the candidates are the list itself for `*`, the resources
of the type in the order of extraction for a pattern without wildcard, and for
a wildcard pattern the matched types in the order in which the range visits
the index, each with its resources in the order of extraction. -/
theorem C20_violations_follow_candidates (s : Scanner) (now : Time) (res : ScanResult)
    (hok : (Scan s now).result = .ok res) :
    ∃ vs, (scanRules s s.context s.rules).result = .ok vs ∧
      vs = s.rules.enum.flatMap (fun p =>
        (GetResourcesByType (s.orders p.1) s.context p.2.ResourceType).flatMap
          (resourceViolations s.hcl s.context p.2)) ∧
      (∀ rule x v, v ∈ resourceViolations s.hcl s.context rule x → v = mkViolation rule x) ∧
      res.Violations = (filterExceptions s.config now vs).filtered ∧
      res.FilteredViolations = (filterExceptions s.config now vs).excepted ∧
      ∀ R, s.context = NewScanContext R → ∀ (rule : Rule) (order : MapOrder),
        (rule.ResourceType = "*" →
          GetResourcesByType order s.context rule.ResourceType = R) ∧
        (hasWildcard rule.ResourceType = false →
          GetResourcesByType order s.context rule.ResourceType
            = R.filter fun r => r.Type_ = rule.ResourceType) ∧
        ((∀ m, (order m).Perm m) → hasWildcard rule.ResourceType = true →
          rule.ResourceType ≠ "*" →
          GetResourcesByType order s.context rule.ResourceType
            = ((order (NewScanContext R).ResourcesByType).filter
                fun entry => typePatternMatch rule.ResourceType.toList entry.1.toList).flatMap
                  fun entry => R.filter fun r => r.Type_ = entry.1) := by
  cases hr : (scanRules s s.context s.rules).result with
  | error err =>
    rw [Scan_error s now err hr] at hok
    cases hok
  | ok vs =>
    have hscan : (Scan s now).result
        = .ok { Violations := (filterExceptions s.config now vs).filtered
                FilteredViolations := (filterExceptions s.config now vs).excepted } := by
      simp only [Scan, hr]
    rw [hscan] at hok
    injection hok with hok
    refine ⟨vs, rfl, scanRules_ok s s.rules s.context vs hr,
      fun rule x v hv => resourceViolations_mem s.hcl s.context rule x v hv,
      by rw [← hok], by rw [← hok], ?_⟩
    intro R hR rule order
    rw [hR]
    refine ⟨?_, ?_, ?_⟩
    · intro hstar
      rw [hstar]
      exact GetResourcesByType_star order R
    · intro hexact
      exact GetResourcesByType_exact order R rule.ResourceType hexact
    · intro horder hwild hne
      exact GetResourcesByType_wildcard_groups order R rule.ResourceType horder hwild hne

/-- C20, amended, at the scanner `twoWildcardScanner`, whose two rules have
the same pattern and whose two ranges visit the type index in opposite orders:
the first rule gives the two instances and then the bucket, the second rule
gives the bucket and then the two instances. -/
theorem C20_violations_follow_candidates_witness :
    (Scan twoWildcardScanner 0).result
        = .ok ⟨[mkViolation wildcardRule sampleInstance, mkViolation wildcardRule secondInstance,
            mkViolation wildcardRule sampleBucket,
            mkViolation wildcardAgainRule sampleBucket,
            mkViolation wildcardAgainRule sampleInstance,
            mkViolation wildcardAgainRule secondInstance], []⟩ ∧
      ∃ vs, (scanRules twoWildcardScanner twoWildcardScanner.context
          twoWildcardScanner.rules).result = .ok vs ∧
        vs = twoWildcardScanner.rules.enum.flatMap (fun p =>
          (GetResourcesByType (twoWildcardScanner.orders p.1) twoWildcardScanner.context
            p.2.ResourceType).flatMap
              (resourceViolations literalEngine twoWildcardScanner.context p.2)) :=
  ⟨rfl,
    (C20_violations_follow_candidates twoWildcardScanner 0
      ⟨[mkViolation wildcardRule sampleInstance, mkViolation wildcardRule secondInstance,
        mkViolation wildcardRule sampleBucket,
        mkViolation wildcardAgainRule sampleBucket,
        mkViolation wildcardAgainRule sampleInstance,
        mkViolation wildcardAgainRule secondInstance], []⟩ rfl).imp fun _ h => ⟨h.1, h.2.1⟩⟩

/-! ## The violation record and the current resource -/

/-- C21: when `scanRule` succeeds for a rule, every violation it returns is
the violation that the loop body found for one of the candidate resources; its
rule id, rule name, severity and message are those of the rule, its
remediation is the remediation text of the rule when the rule has one and the
empty string otherwise, and its file, line, column, resource type and resource
name are those of the resource. -/
theorem C21_violation_fields (s : Scanner) (ctx : ScanContext) (rule : Rule)
    (vs : List Violation) (hok : (scanRule s ctx rule).result = .ok vs) :
    ∀ v ∈ vs, ∃ x ∈ GetResourcesByType s.order ctx rule.ResourceType,
      v ∈ resourceViolations s.hcl ctx rule x ∧
      v.RuleID = rule.ID ∧ v.RuleName = rule.Name ∧ v.Severity = rule.Severity ∧
      v.Message = rule.Message ∧
      (∀ text, rule.Remediation = some text → v.Remediation = text) ∧
      (rule.Remediation = none → v.Remediation = "") ∧
      v.File = x.File ∧ v.Line = x.Line ∧ v.Column = x.Column ∧
      v.ResourceType = x.Type_ ∧ v.ResourceName = x.Name := by
  intro v hv
  have hvs := scanResources_ok s.hcl rule _ ctx vs hok
  rw [hvs, List.mem_flatMap] at hv
  obtain ⟨x, hx, hvx⟩ := hv
  have hmk := resourceViolations_mem s.hcl ctx rule x v hvx
  refine ⟨x, hx, hvx, ?_⟩
  subst hmk
  refine ⟨rfl, rfl, rfl, rfl, ?_, ?_, rfl, rfl, rfl, rfl, rfl⟩
  · intro text htext
    simp only [mkViolation, htext]
  · intro hnone
    simp only [mkViolation, hnone]

/-- C21 at the rule `remediationRule` on the sample resources: the one
violation is that of the bucket, with the remediation text of the rule. -/
theorem C21_violation_fields_witness :
    (scanRule (sampleScanner [remediationRule]) (sampleScanner [remediationRule]).context
        remediationRule).result
      = .ok [{ RuleID := "fix", RuleName := "Bucket found", Severity := "warning",
               Message := "a bucket is declared", Remediation := "remove the bucket",
               File := "main.tf", Line := 9, Column := 1, ResourceType := "aws_s3_bucket",
               ResourceName := "logs" }] ∧
      ∃ x ∈ GetResourcesByType id (sampleScanner [remediationRule]).context "aws_s3_bucket",
        (mkViolation remediationRule sampleBucket).Remediation = "remove the bucket" ∧
        (mkViolation remediationRule sampleBucket).Line = x.Line :=
  ⟨rfl,
    (C21_violation_fields (sampleScanner [remediationRule])
      (sampleScanner [remediationRule]).context remediationRule
      [mkViolation remediationRule sampleBucket] rfl
      (mkViolation remediationRule sampleBucket) (List.Mem.head _)).imp
      fun _ h => ⟨h.1, h.2.2.2.2.2.2.1 "remove the bucket" rfl, h.2.2.2.2.2.2.2.2.2.1⟩⟩

/-- C22: at every call of `evaluateExpression` that `scanRule` makes, for the
`when` block or for a condition, the resource passed is one of the candidates
and the slot `CurrentResource` of the context holds that resource; the call is
evaluated on the context with the slot so set, and on that context the
function `contains_function_call` searches the raw expressions of the resource
passed, in whatever order the map is visited. -/
theorem C22_current_resource_at_each_call (s : Scanner) (ctx : ScanContext) (rule : Rule)
    (c : EvalCall) (hc : c ∈ (scanRule s ctx rule).calls) :
    c.resource ∈ GetResourcesByType s.order ctx rule.ResourceType ∧
      c.current = some c.resource ∧
      c.outcome = evaluateExpression s.hcl { ctx with CurrentResource := c.current }
        c.expr c.resource ∧
      ∀ (order : ExprMapOrder) (targetFunc : String), (∀ m, (order m).Perm m) →
        ContainsFunctionCallFunc order { ctx with CurrentResource := c.current } targetFunc
          = .ok (.BoolVal
              (c.resource.RawExprs.any fun entry => containsFunctionCall entry.2 targetFunc)) := by
  obtain ⟨h1, h2, h3, _⟩ := scanResources_calls s.hcl rule ctx _ c hc
  refine ⟨h1, h2, by rw [h2]; exact h3, ?_⟩
  intro order targetFunc horder
  have hany := any_eq_of_perm (fun entry : String × Option Expression =>
    containsFunctionCall entry.2 targetFunc) (horder c.resource.RawExprs)
  simp only [ContainsFunctionCallFunc, h2, hany]
  cases (c.resource.RawExprs.any fun entry => containsFunctionCall entry.2 targetFunc) <;> simp

/-- C22 at the rule `shortCircuitRule` on the sample resources: the second
condition is evaluated for the first instance with the slot holding that
instance. -/
theorem C22_current_resource_at_each_call_witness :
    (⟨"short", .condition 1, "true", sampleInstance, some sampleInstance, .ok true⟩ : EvalCall)
        ∈ (scanRule (sampleScanner [shortCircuitRule]) (sampleScanner [shortCircuitRule]).context
            shortCircuitRule).calls ∧
      (⟨"short", .condition 1, "true", sampleInstance, some sampleInstance,
        .ok true⟩ : EvalCall).current = some sampleInstance :=
  ⟨List.Mem.tail _ (List.Mem.head _),
    (C22_current_resource_at_each_call (sampleScanner [shortCircuitRule])
      (sampleScanner [shortCircuitRule]).context shortCircuitRule
      ⟨"short", .condition 1, "true", sampleInstance, some sampleInstance, .ok true⟩
      (List.Mem.tail _ (List.Mem.head _))).2.1⟩

/-! ## The object bound to `self` -/

theorem GetAttr_setAttr (attrs : List (String × CtyValue)) (key : String) (val : CtyValue)
    (name : String) :
    (CtyValue.ObjectVal (setAttr attrs key val)).GetAttr name
      = if key = name then some val else (CtyValue.ObjectVal attrs).GetAttr name := by
  induction attrs with
  | nil =>
    by_cases h : key = name <;> simp [setAttr, CtyValue.GetAttr, List.find?, h]
  | cons kv rest ih =>
    obtain ⟨k, v⟩ := kv
    simp only [CtyValue.GetAttr] at ih ⊢
    by_cases hk : k = key
    · subst hk
      by_cases h : k = name <;> simp [setAttr, List.find?, h]
    · by_cases hkn : k = name
      · subst hkn
        have hne : ¬ key = k := fun h => hk h.symm
        simp [setAttr, hk, List.find?, hne]
      · simp only [setAttr, hk, if_false, List.find?, hkn, decide_False]
        exact ih

theorem GetAttr_foldl_of_not_mem (name : String) :
    ∀ (kvs acc : List (String × CtyValue)), name ∉ kvs.map Prod.fst →
      (CtyValue.ObjectVal (kvs.foldl (fun acc kv => setAttr acc kv.1 kv.2) acc)).GetAttr name
        = (CtyValue.ObjectVal acc).GetAttr name
  | [], acc, _ => rfl
  | kv :: rest, acc, h => by
    rw [List.map_cons, List.mem_cons, not_or] at h
    rw [List.foldl_cons, GetAttr_foldl_of_not_mem name rest _ h.2, GetAttr_setAttr]
    have hne : ¬ kv.1 = name := fun e => h.1 e.symm
    simp [hne]

theorem GetAttr_foldl_of_mem (name : String) (val : CtyValue) :
    ∀ (kvs acc : List (String × CtyValue)), (kvs.map Prod.fst).Nodup → (name, val) ∈ kvs →
      (CtyValue.ObjectVal (kvs.foldl (fun acc kv => setAttr acc kv.1 kv.2) acc)).GetAttr name
        = some val
  | [], acc, _, h => by cases h
  | kv :: rest, acc, hnodup, h => by
    rw [List.map_cons, List.nodup_cons] at hnodup
    rw [List.foldl_cons]
    rcases List.mem_cons.1 h with h | h
    · subst h
      rw [GetAttr_foldl_of_not_mem name rest _ hnodup.1, GetAttr_setAttr]
      simp
    · exact GetAttr_foldl_of_mem name val rest _ hnodup.2 h

theorem GetAttr_metadata (resource : Resource) (name : String) :
    (CtyValue.ObjectVal
        (setAttr (setAttr (setAttr (setAttr [] "type" (.StringVal resource.Type_))
          "name" (.StringVal resource.Name)) "file" (.StringVal resource.File))
          "line" (.NumberIntVal resource.Line))).GetAttr name
      = if name = "line" then some (.NumberIntVal resource.Line)
        else if name = "file" then some (.StringVal resource.File)
        else if name = "name" then some (.StringVal resource.Name)
        else if name = "type" then some (.StringVal resource.Type_)
        else none := by
  simp only [GetAttr_setAttr, eq_comm (b := name)]
  rfl

/-- C23, as stated, fails: the resource `namedRole` is named `admin` and
declares the attribute `name` with the value `prod-admin`; the attribute
`name` of the object bound to `self` is `prod-admin`, not the name of the
resource. -/
theorem C23_declared_name_replaces_resource_name :
    (resourceToCtyValue namedRole).GetAttr "name" = some (.StringVal "prod-admin") ∧
      (resourceToCtyValue namedRole).GetAttr "name" ≠ some (.StringVal namedRole.Name) := by
  refine ⟨rfl, ?_⟩
  intro h
  have h2 : (resourceToCtyValue namedRole).GetAttr "name" = some (.StringVal "prod-admin") := rfl
  rw [h2] at h
  injection h with h
  injection h with h
  exact absurd h (by decide)

/-- C23, amended: for every resource whose attribute mapping has pairwise
distinct names, the object bound to `self` has every entry of the mapping
under its own name with its own value, also for an attribute called `type`,
`name`, `file` or `line`; and each of the attributes `type`, `name`, `file`
and `line` that the resource does not declare holds the type, the name, the
file or the line of the resource. -/
theorem C23_self_object (resource : Resource)
    (hkeys : (resource.Attributes.map Prod.fst).Nodup) :
    (∀ name val, (name, val) ∈ resource.Attributes →
        (resourceToCtyValue resource).GetAttr name = some val) ∧
      ("type" ∉ resource.Attributes.map Prod.fst →
        (resourceToCtyValue resource).GetAttr "type" = some (.StringVal resource.Type_)) ∧
      ("name" ∉ resource.Attributes.map Prod.fst →
        (resourceToCtyValue resource).GetAttr "name" = some (.StringVal resource.Name)) ∧
      ("file" ∉ resource.Attributes.map Prod.fst →
        (resourceToCtyValue resource).GetAttr "file" = some (.StringVal resource.File)) ∧
      ("line" ∉ resource.Attributes.map Prod.fst →
        (resourceToCtyValue resource).GetAttr "line" = some (.NumberIntVal resource.Line)) := by
  refine ⟨?_, ?_, ?_, ?_, ?_⟩
  · intro name val hmem
    exact GetAttr_foldl_of_mem name val resource.Attributes _ hkeys hmem
  all_goals
    intro hnot
    unfold resourceToCtyValue
    simp only
    rw [GetAttr_foldl_of_not_mem _ resource.Attributes _ hnot, GetAttr_metadata]
    rfl

/-- C23, amended, at the resource `namedRole`: the attribute `path` holds its
declared value, and the attribute `type`, which the resource does not declare,
holds the type of the resource. -/
theorem C23_self_object_witness :
    (resourceToCtyValue namedRole).GetAttr "path" = some (.StringVal "/") ∧
      (resourceToCtyValue namedRole).GetAttr "type" = some (.StringVal "aws_iam_role") :=
  ⟨(C23_self_object namedRole (by decide)).1 "path" (.StringVal "/")
      (List.Mem.tail _ (List.Mem.head _)),
    (C23_self_object namedRole (by decide)).2.1 (by decide)⟩

/-! ## The function `resources` -/

/-- C24 fails on the code: two instances, of which only the second declares
the attribute `monitoring`, are both returned by `GetResourcesByType` for the
pattern `aws_instance`, and the function `resources` panics on that pattern,
because `cty.ListVal` does not take objects of two different types; on the
index of two instances with the same attributes it returns the list of the two
objects, and on a pattern that matches nothing it returns the empty list. -/
theorem C24_resources_panics_on_mixed_attributes :
    GetResourcesByType id (NewScanContext [plainInstance, monitoredInstance]) "aws_instance"
        = [plainInstance, monitoredInstance] ∧
      ResourcesFunc id (NewScanContext [plainInstance, monitoredInstance]) "aws_instance"
        = none ∧
      ResourcesFunc id (NewScanContext [plainInstance, monitoredInstance]) "*" = none ∧
      ResourcesFunc id (NewScanContext [plainInstance, plainInstance]) "aws_instance"
        = some (.ListVal (resourceToCty plainInstance).Type_
            [resourceToCty plainInstance, resourceToCty plainInstance]) ∧
      ResourcesFunc id (NewScanContext [plainInstance, monitoredInstance]) "aws_s3_bucket"
        = some (.ListVal CtyType.dynamic []) :=
  ⟨rfl, rfl, rfl, rfl, rfl⟩

/-! ## The exit decision of the reporter -/

theorem filterBySeverityLoop_pos (severity : String) (vs : List Violation) :
    (filterBySeverityLoop severity vs).length > 0 ↔ ∃ v ∈ vs, v.Severity = severity := by
  induction vs with
  | nil => simp [filterBySeverityLoop]
  | cons v rest ih =>
    by_cases h : v.Severity = severity
    · simp [filterBySeverityLoop, h]
    · simp only [filterBySeverityLoop, h, if_false, ih, List.mem_cons, exists_eq_or_imp, false_or]

theorem ShouldFail_error (r : Reporter) :
    r.ShouldFail "error" = true ↔ ∃ v ∈ r.violations, v.Severity = "error" := by
  unfold Reporter.ShouldFail
  by_cases hlen : r.violations.length = 0
  · have hnil : r.violations = [] := List.length_eq_zero.1 hlen
    simp [hlen, hnil]
  · simp only [hlen, if_false, if_true, decide_eq_true_eq, Reporter.filterBySeverity]
    exact filterBySeverityLoop_pos "error" r.violations

/-- C25: `ShouldFail` is false when there is no active violation; for the
threshold `error` it is true exactly when an active violation has the severity
`error`; for `warning`, exactly when one has the severity `warning` or
`error`; for `info`, exactly when there is an active violation; for every
other threshold it is what it is for `error`; and the excepted violations of
the reporter have no part in the result. -/
theorem C25_should_fail (r : Reporter) (failOn : String) :
    (r.violations = [] → r.ShouldFail failOn = false) ∧
      (r.ShouldFail "error" = true ↔ ∃ v ∈ r.violations, v.Severity = "error") ∧
      (r.ShouldFail "warning" = true ↔
        ∃ v ∈ r.violations, v.Severity = "warning" ∨ v.Severity = "error") ∧
      (r.ShouldFail "info" = true ↔ r.violations ≠ []) ∧
      (failOn ≠ "error" → failOn ≠ "warning" → failOn ≠ "info" →
        r.ShouldFail failOn = r.ShouldFail "error") ∧
      (∀ filtered : List FilteredViolation,
        (NewReporter r.violations filtered).ShouldFail failOn = r.ShouldFail failOn) := by
  refine ⟨?_, ShouldFail_error r, ?_, ?_, ?_, ?_⟩
  · intro hnil
    simp [Reporter.ShouldFail, hnil]
  · unfold Reporter.ShouldFail
    by_cases hlen : r.violations.length = 0
    · have hnil : r.violations = [] := List.length_eq_zero.1 hlen
      simp [hlen, hnil]
    · have hw : ¬ ("warning" = "error") := by decide
      simp only [hlen, if_false, hw, if_true, Bool.or_eq_true, decide_eq_true_eq,
        Reporter.filterBySeverity, filterBySeverityLoop_pos]
      constructor
      · rintro (⟨v, hv, h⟩ | ⟨v, hv, h⟩)
        · exact ⟨v, hv, Or.inl h⟩
        · exact ⟨v, hv, Or.inr h⟩
      · rintro ⟨v, hv, h | h⟩
        · exact Or.inl ⟨v, hv, h⟩
        · exact Or.inr ⟨v, hv, h⟩
  · unfold Reporter.ShouldFail
    by_cases hlen : r.violations.length = 0
    · have hnil : r.violations = [] := List.length_eq_zero.1 hlen
      simp [hlen, hnil]
    · have h1 : ¬ ("info" = "error") := by decide
      have h2 : ¬ ("info" = "warning") := by decide
      have hne : r.violations ≠ [] := fun h => hlen (by rw [h]; rfl)
      simp only [hlen, if_false, h1, h2, if_true, decide_eq_true_eq]
      exact ⟨fun _ => hne, fun _ => Nat.pos_of_ne_zero hlen⟩
  · intro h1 h2 h3
    unfold Reporter.ShouldFail
    simp only [h1, h2, h3, if_false, if_true]
  · intro filtered
    rfl

/-- C25 at a reporter with one active violation of severity `warning` and one
excepted violation of severity `error`, and at the threshold `strict`, which
is none of the three known ones. -/
theorem C25_should_fail_witness :
    (NewReporter [warningViolation] [⟨errorViolation, broadException⟩]).ShouldFail "strict"
        = false ∧
      (NewReporter [warningViolation] [⟨errorViolation, broadException⟩]).ShouldFail "warning"
        = true ∧
      (NewReporter [warningViolation] [⟨errorViolation, broadException⟩]).ShouldFail "strict"
        = (NewReporter [warningViolation] [⟨errorViolation, broadException⟩]).ShouldFail "error" :=
  ⟨by decide, by decide,
    (C25_should_fail (NewReporter [warningViolation] [⟨errorViolation, broadException⟩])
      "strict").2.2.2.2.1 (by decide) (by decide) (by decide)⟩

/-! ## Lemmas on addresses and masks -/

theorem ipValue_append (xs : List Nat) (b : Nat) : ipValue (xs ++ [b]) = ipValue xs * 256 + b := by
  simp [ipValue, List.foldl_append]

theorem ipValue_foldl (acc : Nat) (xs : List Nat) :
    xs.foldl (fun acc b => acc * 256 + b) acc = acc * 256 ^ xs.length + ipValue xs := by
  induction xs generalizing acc with
  | nil => simp [ipValue]
  | cons b rest ih =>
    simp only [List.foldl_cons, List.length_cons, ipValue]
    rw [ih, ih (0 * 256 + b)]
    ring

theorem ipValue_cons (b : Nat) (rest : List Nat) :
    ipValue (b :: rest) = b * 256 ^ rest.length + ipValue rest := by
  have h := ipValue_foldl b rest
  simp only [ipValue, List.foldl_cons] at h ⊢
  simpa using h

theorem ipValue_lt : ∀ (ip : List Nat), (∀ b ∈ ip, b < 256) → ipValue ip < 256 ^ ip.length
  | [], _ => by simp [ipValue]
  | b :: rest, h => by
    rw [ipValue_cons, List.length_cons, pow_succ]
    have hb : b < 256 := h b (List.mem_cons_self _ _)
    have hr := ipValue_lt rest fun x hx => h x (List.mem_cons_of_mem _ hx)
    nlinarith

theorem ipBytes_length : ∀ (len v : Nat), (ipBytes len v).length = len
  | 0, _ => rfl
  | len + 1, v => by simp [ipBytes, ipBytes_length len]

theorem ipBytes_ipValue : ∀ (len : Nat) (ip : List Nat), ip.length = len → (∀ b ∈ ip, b < 256) →
    ipBytes len (ipValue ip) = ip
  | 0, ip, hlen, _ => by
    rw [List.length_eq_zero.1 hlen]
    rfl
  | len + 1, ip, hlen, hb => by
    rcases List.eq_nil_or_concat ip with hnil | ⟨xs, b, hcat⟩
    · rw [hnil] at hlen
      cases hlen
    · rw [List.concat_eq_append] at hcat
      subst hcat
      have hxs : xs.length = len := by simpa using hlen
      have hb256 : b < 256 := hb b (by simp)
      rw [ipValue_append, ipBytes]
      have h1 : (ipValue xs * 256 + b) / 256 = ipValue xs := by omega
      have h2 : (ipValue xs * 256 + b) % 256 = b := by omega
      rw [h1, h2, ipBytes_ipValue len xs hxs fun x hx => hb x (by simp [hx])]

theorem cidrMaskLoop_length : ∀ (l n : Nat), (cidrMaskLoop l n).length = l
  | 0, _ => rfl
  | l + 1, n => by
    unfold cidrMaskLoop
    split <;> simp [cidrMaskLoop_length l]

theorem cidrMaskLoop_zero : ∀ (l : Nat), cidrMaskLoop l 0 = List.replicate l 0
  | 0 => rfl
  | l + 1 => by
    unfold cidrMaskLoop
    simp [cidrMaskLoop_zero l, List.replicate_succ]

theorem maskByte_lt (n : Nat) : 0xff - (0xff >>> n) < 256 :=
  Nat.lt_succ_of_le (Nat.sub_le _ _)

theorem cidrMaskLoop_lt : ∀ (l n : Nat), ∀ m ∈ cidrMaskLoop l n, m < 256
  | 0, _, m, hm => by simp [cidrMaskLoop] at hm
  | l + 1, n, m, hm => by
    unfold cidrMaskLoop at hm
    split at hm
    · rcases List.mem_cons.1 hm with h | h
      · omega
      · exact cidrMaskLoop_lt l _ m h
    · rcases List.mem_cons.1 hm with h | h
      · rw [h]
        exact maskByte_lt n
      · exact cidrMaskLoop_lt l _ m h


set_option maxRecDepth 1000000 in
theorem land_maskByte : ∀ n < 8, ∀ b < 256,
    b &&& (0xff - (0xff >>> n)) = b / 2 ^ (8 - n) * 2 ^ (8 - n) := by
  decide

theorem land_ff (b : Nat) : b &&& 0xff = b % 256 :=
  Nat.and_pow_two_sub_one_eq_mod b 8

theorem land_small (b m : Nat) (hm : m < 256) : b &&& m = (b % 256) &&& m := by
  have h : m &&& 0xff = m := by
    rw [land_ff]
    exact Nat.mod_eq_of_lt hm
  calc b &&& m = b &&& (m &&& 0xff) := by rw [h]
    _ = (b &&& 0xff) &&& m := by rw [Nat.land_comm m, Nat.land_assoc]
    _ = (b % 256) &&& m := by rw [land_ff]

theorem leadingOnes_maskByte : ∀ n < 8, leadingOnes 8 (0xff - (0xff >>> n)) = (n, 0) := by
  decide

theorem maskByte_ne_ff : ∀ n < 8, 0xff - (0xff >>> n) ≠ 0xff := by
  decide

theorem zipLand_length (ip mask : List Nat) (h : ip.length = mask.length) :
    (List.zipWith (fun b m => b &&& m) ip mask).length = ip.length := by
  simp [List.length_zipWith, h]

theorem zipLand_lt : ∀ (ip mask : List Nat), (∀ m ∈ mask, m < 256) →
    ∀ x ∈ List.zipWith (fun b m => b &&& m) ip mask, x < 256
  | [], _, _, x, hx => by simp at hx
  | _ :: _, [], _, x, hx => by simp at hx
  | b :: ip, m :: mask, hm, x, hx => by
    rw [List.zipWith_cons_cons] at hx
    rcases List.mem_cons.1 hx with h | h
    · rw [h]
      exact lt_of_le_of_lt Nat.and_le_right (hm m (List.mem_cons_self _ _))
    · exact zipLand_lt ip mask (fun y hy => hm y (List.mem_cons_of_mem _ hy)) x h

theorem zipLand_zero : ∀ (ip : List Nat) (l : Nat), ip.length = l →
    List.zipWith (fun b m => b &&& m) ip (List.replicate l 0) = List.replicate l 0
  | [], 0, _ => rfl
  | [], _ + 1, h => by cases h
  | _ :: _, 0, h => by cases h
  | b :: ip, l + 1, h => by
    rw [List.replicate_succ, List.zipWith_cons_cons, zipLand_zero ip l (by simpa using h)]
    simp

theorem ipValue_replicate_zero : ∀ l : Nat, ipValue (List.replicate l 0) = 0
  | 0 => rfl
  | l + 1 => by
    rw [List.replicate_succ, ipValue_cons, ipValue_replicate_zero l]
    simp

theorem pow256 (l : Nat) : 256 ^ l = 2 ^ (8 * l) := by
  rw [pow_mul]
  norm_num

theorem mask_dvd : ∀ (l n : Nat) (ip : List Nat), ip.length = l → n ≤ 8 * l →
    2 ^ (8 * l - n) ∣ ipValue (List.zipWith (fun b m => b &&& m) ip (cidrMaskLoop l n))
  | 0, n, ip, hlen, _ => by
    rw [List.length_eq_zero.1 hlen]
    simp [cidrMaskLoop, ipValue]
  | l + 1, n, [], hlen, _ => by cases hlen
  | l + 1, n, b :: ip, hlen, hn => by
    have hl : ip.length = l := by simpa using hlen
    unfold cidrMaskLoop
    by_cases h8 : n ≥ 8
    · rw [if_pos h8, List.zipWith_cons_cons, ipValue_cons]
      have ih := mask_dvd l (n - 8) ip hl (by omega)
      have hexp : 8 * (l + 1) - n = 8 * l - (n - 8) := by omega
      rw [hexp]
      refine Nat.dvd_add (Dvd.dvd.mul_left ?_ _) ih
      rw [zipLand_length ip _ (by rw [cidrMaskLoop_length, hl]), hl, pow256]
      exact Nat.pow_dvd_pow 2 (Nat.sub_le _ _)
    · rw [if_neg h8, List.zipWith_cons_cons, ipValue_cons, cidrMaskLoop_zero,
        zipLand_zero ip l hl, ipValue_replicate_zero, Nat.add_zero, List.length_replicate,
        land_small b _ (maskByte_lt n),
        land_maskByte n (by omega) (b % 256) (Nat.mod_lt _ (by norm_num)), pow256]
      have hexp : 8 * (l + 1) - n = (8 - n) + 8 * l := by omega
      rw [hexp, pow_add, Nat.mul_assoc]
      exact Dvd.intro_left _ rfl

theorem ipValue_eq_zero : ∀ (ip : List Nat), ipValue ip = 0 → ip = List.replicate ip.length 0
  | [], _ => rfl
  | b :: rest, h => by
    rw [ipValue_cons] at h
    have hb : b = 0 := by
      by_contra hb
      have : 0 < b * 256 ^ rest.length := Nat.mul_pos (Nat.pos_of_ne_zero hb) (by positivity)
      omega
    have hr : ipValue rest = 0 := by omega
    rw [List.length_cons, List.replicate_succ, ← ipValue_eq_zero rest hr, hb]

theorem mask_id : ∀ (l n : Nat) (ip : List Nat), ip.length = l → (∀ b ∈ ip, b < 256) →
    n ≤ 8 * l → 2 ^ (8 * l - n) ∣ ipValue ip →
    List.zipWith (fun b m => b &&& m) ip (cidrMaskLoop l n) = ip
  | 0, n, ip, hlen, _, _, _ => by
    rw [List.length_eq_zero.1 hlen]
    rfl
  | l + 1, n, [], hlen, _, _, _ => by cases hlen
  | l + 1, n, b :: ip, hlen, hb, hn, hdvd => by
    have hl : ip.length = l := by simpa using hlen
    have hb256 : b < 256 := hb b (List.mem_cons_self _ _)
    have hrest : ∀ x ∈ ip, x < 256 := fun x hx => hb x (List.mem_cons_of_mem _ hx)
    have hlt := ipValue_lt ip hrest
    rw [ipValue_cons, hl, pow256] at hdvd
    rw [hl, pow256] at hlt
    unfold cidrMaskLoop
    by_cases h8 : n ≥ 8
    · rw [if_pos h8, List.zipWith_cons_cons, land_ff, Nat.mod_eq_of_lt hb256]
      have hexp : 8 * (l + 1) - n = 8 * l - (n - 8) := by omega
      rw [hexp] at hdvd
      have h1 : 2 ^ (8 * l - (n - 8)) ∣ b * 2 ^ (8 * l) :=
        Dvd.dvd.mul_left (Nat.pow_dvd_pow 2 (Nat.sub_le _ _)) _
      have h2 : 2 ^ (8 * l - (n - 8)) ∣ ipValue ip := (Nat.dvd_add_right h1).1 hdvd
      rw [mask_id l (n - 8) ip hl hrest (by omega) h2]
    · have hexp : 8 * (l + 1) - n = 8 * l + (8 - n) := by omega
      rw [hexp] at hdvd
      have h0 : 2 ^ (8 * l) ∣ b * 2 ^ (8 * l) + ipValue ip :=
        Dvd.dvd.trans (Nat.pow_dvd_pow 2 (Nat.le_add_right _ _)) hdvd
      have h1 : 2 ^ (8 * l) ∣ ipValue ip := (Nat.dvd_add_right (Dvd.intro_left _ rfl)).1 h0
      have hzero : ipValue ip = 0 := Nat.eq_zero_of_dvd_of_lt h1 hlt
      have hip := ipValue_eq_zero ip hzero
      rw [hzero, Nat.add_zero, pow_add, Nat.mul_comm (2 ^ (8 * l))] at hdvd
      have hbd : 2 ^ (8 - n) ∣ b :=
        Nat.dvd_of_mul_dvd_mul_right (by positivity) hdvd
      rw [if_neg h8, List.zipWith_cons_cons, cidrMaskLoop_zero, zipLand_zero ip l hl,
        land_maskByte n (by omega) b hb256, Nat.div_mul_cancel hbd]
      rw [hl] at hip
      rw [← hip]


theorem cidrHostLoop_zero (rev : List Nat) : cidrHostLoop rev 0 = rev := by
  cases rev <;> simp [cidrHostLoop]

theorem ipValue_reverse_cons (b : Nat) (rest : List Nat) :
    ipValue (b :: rest).reverse = ipValue rest.reverse * 256 + b := by
  rw [List.reverse_cons, ipValue_append]

theorem cidrHostLoop_add : ∀ (rev : List Nat) (h k : Nat), (∀ b ∈ rev, b < 256) →
    2 ^ k ∣ ipValue rev.reverse → h < 2 ^ k → k ≤ 8 * rev.length →
    (cidrHostLoop rev (h : Int)).length = rev.length ∧
      (∀ b ∈ cidrHostLoop rev (h : Int), b < 256) ∧
      ipValue (cidrHostLoop rev (h : Int)).reverse = ipValue rev.reverse + h
  | [], h, k, _, _, hlt, hk => by
    have hk0 : k = 0 := by simpa using hk
    subst hk0
    have h0 : h = 0 := by simpa using hlt
    subst h0
    simp [cidrHostLoop]
  | b :: rest, h, k, hb, hdvd, hlt, hk => by
    have hb256 : b < 256 := hb b (List.mem_cons_self _ _)
    have hrest : ∀ x ∈ rest, x < 256 := fun x hx => hb x (List.mem_cons_of_mem _ hx)
    rw [ipValue_reverse_cons] at hdvd ⊢
    by_cases hpos : h = 0
    · subst hpos
      refine ⟨by simp [cidrHostLoop], ?_, ?_⟩
      · simpa [cidrHostLoop] using hb
      · simp [cidrHostLoop, ipValue_append]
    · have hgt : (h : Int) > 0 := by omega
      have hmod : ((h : Int) % 256).toNat = h % 256 := by omega
      have hdiv : (h : Int) / 256 = ((h / 256 : Nat) : Int) := by omega
      simp only [cidrHostLoop, hgt, if_true, hmod, hdiv]
      by_cases h8 : 8 ≤ k
      · obtain ⟨j, hj⟩ : ∃ j, k = j + 8 := ⟨k - 8, by omega⟩
        subst hj
        have h256 : (2 : Nat) ^ (j + 8) = 2 ^ j * 256 := by
          rw [pow_add]
          norm_num
        rw [h256] at hdvd hlt
        have hb0 : b = 0 := by
          have : 256 ∣ ipValue rest.reverse * 256 + b := Dvd.dvd.trans (Dvd.intro_left _ rfl) hdvd
          omega
        subst hb0
        have hd : 2 ^ j ∣ ipValue rest.reverse := by
          rw [Nat.add_zero] at hdvd
          exact Nat.dvd_of_mul_dvd_mul_right (by norm_num) hdvd
        have hlt2 : h / 256 < 2 ^ j := by
          rw [Nat.div_lt_iff_lt_mul (by norm_num)]
          exact hlt
        have hk2 : j ≤ 8 * rest.length := by
          simp only [List.length_cons] at hk
          omega
        obtain ⟨ih1, ih2, ih3⟩ := cidrHostLoop_add rest (h / 256) j hrest hd hlt2 hk2
        refine ⟨by rw [List.length_cons, ih1, List.length_cons], ?_, ?_⟩
        · intro x hx
          rcases List.mem_cons.1 hx with hx | hx
          · omega
          · exact ih2 x hx
        · rw [ipValue_reverse_cons, ih3]
          omega
      · have hk8 : k < 8 := by omega
        have hh : h < 256 := lt_of_lt_of_le hlt (by
          calc 2 ^ k ≤ 2 ^ 8 := Nat.pow_le_pow_right (by norm_num) (by omega)
            _ = 256 := by norm_num)
        have hdiv0 : h / 256 = 0 := by omega
        have hd256 : 2 ^ k ∣ ipValue rest.reverse * 256 :=
          Dvd.dvd.mul_left (by
            have : (256 : Nat) = 2 ^ k * 2 ^ (8 - k) := by
              rw [← pow_add]
              have : k + (8 - k) = 8 := by omega
              rw [this]
              norm_num
            rw [this]
            exact Dvd.intro _ rfl) _
        have hdb : 2 ^ k ∣ b := (Nat.dvd_add_right hd256).1 hdvd
        have hsum : h + b < 256 := by
          interval_cases k <;> omega
        rw [hdiv0]
        simp only [Nat.cast_zero, cidrHostLoop_zero]
        refine ⟨rfl, ?_, ?_⟩
        · intro x hx
          rcases List.mem_cons.1 hx with hx | hx
          · omega
          · exact hrest x hx
        · rw [ipValue_reverse_cons]
          omega

theorem cidrHost_add (base : List Nat) (mask : List Nat) (h k : Nat)
    (hb : ∀ b ∈ base, b < 256) (hdvd : 2 ^ k ∣ ipValue base) (hlt : h < 2 ^ k)
    (hk : k ≤ 8 * base.length) :
    (cidrHost base mask (h : Int)).length = base.length ∧
      (∀ b ∈ cidrHost base mask (h : Int), b < 256) ∧
      ipValue (cidrHost base mask (h : Int)) = ipValue base + h ∧
      cidrHost base mask (h : Int) = ipBytes base.length (ipValue base + h) := by
  obtain ⟨h1, h2, h3⟩ := cidrHostLoop_add base.reverse h k (by simpa using hb)
    (by simpa using hdvd) hlt (by simpa using hk)
  rw [List.reverse_reverse] at h3
  have hlen : (cidrHost base mask (h : Int)).length = base.length := by
    simpa [cidrHost] using h1
  have hbytes : ∀ b ∈ cidrHost base mask (h : Int), b < 256 := by
    simpa [cidrHost] using h2
  refine ⟨hlen, hbytes, h3, ?_⟩
  have h4 : ipValue (cidrHost base mask (h : Int)) = ipValue base + h := h3
  rw [← h4, ipBytes_ipValue _ _ hlen hbytes]

theorem simpleMaskLengthLoop_cidrMask : ∀ (l n : Nat) (acc : Int), n ≤ 8 * l →
    simpleMaskLengthLoop acc (cidrMaskLoop l n) = acc + n
  | 0, n, acc, hn => by
    have : n = 0 := by omega
    subst this
    simp [cidrMaskLoop, simpleMaskLengthLoop]
  | l + 1, n, acc, hn => by
    unfold cidrMaskLoop
    by_cases h8 : n ≥ 8
    · rw [if_pos h8]
      simp only [simpleMaskLengthLoop, if_true]
      rw [simpleMaskLengthLoop_cidrMask l (n - 8) (acc + 8) (by omega)]
      omega
    · rw [if_neg h8]
      have hn8 : n < 8 := by omega
      simp only [simpleMaskLengthLoop, maskByte_ne_ff n hn8, if_false,
        leadingOnes_maskByte n hn8, cidrMaskLoop_zero]
      simp

theorem simpleMaskLength_cidrMask (l n : Nat) (hn : n ≤ 8 * l) :
    simpleMaskLength (cidrMaskLoop l n) = n := by
  unfold simpleMaskLength
  rw [simpleMaskLengthLoop_cidrMask l n 0 hn]
  simp

theorem IPMask_Size_cidrMask (l n : Nat) (hn : n ≤ 8 * l) :
    IPMask.Size (cidrMaskLoop l n) = ((n : Int), (l : Int) * 8) := by
  unfold IPMask.Size
  rw [simpleMaskLength_cidrMask l n hn, cidrMaskLoop_length]
  have : ¬ ((n : Int) = -1) := by omega
  simp [this]

theorem IP_Mask_same_length (ip mask : List Nat) (h : ip.length = mask.length) :
    IP.Mask ip mask = List.zipWith (fun b m => b &&& m) ip mask := by
  unfold IP.Mask
  have h1 : ¬ (mask.length = 16 ∧ ip.length = 4 ∧
      ((mask.take 12).all fun b => decide (b = 0xff)) = true) := by
    rintro ⟨a, b, _⟩
    omega
  have h2 : ¬ (mask.length = 4 ∧ ip.length = 16 ∧ ip.take 12 = v4InV6Prefix) := by
    rintro ⟨a, b, _⟩
    omega
  simp only [h1, if_false, h2]
  simp [h]

theorem IP_Mask_v4InV6 (ip mask : List Nat) (hip : ip.length = 4) (hmask : mask.length = 4) :
    IP.Mask (v4InV6Prefix ++ ip) mask = List.zipWith (fun b m => b &&& m) ip mask := by
  unfold IP.Mask
  have h1 : ¬ (mask.length = 16 ∧ (v4InV6Prefix ++ ip).length = 4 ∧
      ((mask.take 12).all fun b => decide (b = 0xff)) = true) := by
    rintro ⟨a, _, _⟩
    omega
  have hlen : (v4InV6Prefix ++ ip).length = 16 := by simp [v4InV6Prefix, hip]
  have htake : (v4InV6Prefix ++ ip).take 12 = v4InV6Prefix := by
    rw [List.take_append_of_le_length (by simp [v4InV6Prefix])]
    rfl
  have hdrop : (v4InV6Prefix ++ ip).drop 12 = ip := by
    rw [List.drop_append_of_le_length (by simp [v4InV6Prefix])]
    rfl
  simp only [h1, if_false, hmask, hlen, htake, and_self, if_true, hdrop]
  simp [hip, hmask]


theorem CIDRMask_eq (n l : Nat) (hl : l = 4 ∨ l = 16) (hn : n ≤ 8 * l) :
    CIDRMask (n : Int) (8 * (l : Int)) = cidrMaskLoop l n := by
  unfold CIDRMask
  have h1 : ¬ ((8 * (l : Int) ≠ 8 * 4) ∧ (8 * (l : Int) ≠ 8 * 16)) := by
    rcases hl with h | h <;> subst h <;> simp
  have h2 : ¬ ((n : Int) < 0 ∨ (n : Int) > 8 * (l : Int)) := by omega
  have h3 : (8 * (l : Int) / 8).toNat = l := by omega
  simp only [h1, if_false, h2, h3, Int.toNat_ofNat]

theorem CIDRMask_other (n : Int) (l : Nat) (hl : ¬ (l = 4 ∨ l = 16)) :
    CIDRMask n (8 * (l : Int)) = [] := by
  unfold CIDRMask
  have h1 : (8 * (l : Int) ≠ 8 * 4) ∧ (8 * (l : Int) ≠ 8 * 16) := by
    constructor <;> omega
  rw [if_pos h1]

theorem ParseCIDR_some (s : String) (network : IPNet) (h : ParseCIDR s = some network) :
    ∃ (ip : List Nat) (n : Nat), n ≤ 8 * ip.length ∧
      network.Mask = CIDRMask (n : Int) (8 * (ip.length : Int)) ∧
      network.IP = IP.Mask (if ip.length = 4 then v4InV6Prefix ++ ip else ip)
        (CIDRMask (n : Int) (8 * (ip.length : Int))) := by
  unfold ParseCIDR at h
  split at h
  · cases h
  · split at h
    · cases h
    · rename_i ip _
      split at h
      · cases h
      · rename_i n _
        split at h
        · cases h
        · rename_i hn
          injection h with h
          subst h
          exact ⟨ip, n, by omega, rfl, rfl⟩

theorem ParseCIDR_v4 (s : String) (network : IPNet) (n : Nat)
    (h : ParseCIDR s = some network) (hsize : IPMask.Size network.Mask = ((n : Int), 32)) :
    n ≤ 32 ∧ network.Mask = cidrMaskLoop 4 n ∧ network.IP.length = 4 ∧
      (∀ b ∈ network.IP, b < 256) ∧ 2 ^ (32 - n) ∣ ipValue network.IP := by
  obtain ⟨ip, k, hk, hmask, hip⟩ := ParseCIDR_some s network h
  by_cases hl : ip.length = 4 ∨ ip.length = 16
  · rw [CIDRMask_eq k ip.length hl hk] at hmask hip
    rw [hmask, IPMask_Size_cidrMask _ _ hk] at hsize
    injection hsize with h1 h2
    have hlen : ip.length = 4 := by omega
    have hkn : k = n := by omega
    subst hkn
    rw [if_pos hlen, hlen, IP_Mask_v4InV6 ip _ hlen (cidrMaskLoop_length 4 k)] at hip
    rw [hlen] at hmask hk
    refine ⟨hk, hmask, ?_, ?_, ?_⟩
    · rw [hip, zipLand_length ip _ (by rw [cidrMaskLoop_length, hlen]), hlen]
    · rw [hip]
      exact zipLand_lt ip _ (cidrMaskLoop_lt 4 k)
    · rw [hip]
      exact mask_dvd 4 k ip hlen hk
  · rw [CIDRMask_other _ _ hl] at hmask
    rw [hmask] at hsize
    have h2 := congrArg Prod.snd hsize
    simp [IPMask.Size, simpleMaskLength, simpleMaskLengthLoop] at h2

theorem wrapInt64_id (x : Int) (h1 : -9223372036854775808 ≤ x) (h2 : x < 9223372036854775808) :
    wrapInt64 x = x := by
  unfold wrapInt64
  omega

theorem bigFloatInt64_id (x : Int) (h1 : -9223372036854775808 ≤ x)
    (h2 : x < 9223372036854775808) : bigFloatInt64 x = x := by
  unfold bigFloatInt64
  have h3 : ¬ x < -9223372036854775808 := by omega
  have h4 : ¬ x > 9223372036854775807 := by omega
  rw [if_neg h3, if_neg h4]

theorem IP_String_v4 (ip : List Nat) (h : ip.length = 4) :
    IP.String ip = String.mk (string4 ip) := by
  simp [IP.String, IP.chars, IP.To4, h]

theorem IPNet_String_v4 (ip : List Nat) (m : Nat) (h : ip.length = 4) (hm : m ≤ 32) :
    IPNet.String { IP := ip, Mask := cidrMaskLoop 4 m }
      = String.mk (string4 ip ++ '/' :: uitoa m) := by
  have hsz := simpleMaskLength_cidrMask 4 m (by omega)
  have hne : ¬ ((m : Int) = -1) := by omega
  simp [IPNet.String, networkNumberAndMask, IP.To4, h, cidrMaskLoop_length, IP.chars, hsz, hne]


theorem shiftAmount_small (a : Nat) (ha : a < 64) :
    wrapInt64 (a : Int) % 18446744073709551616 = (a : Int) := by
  rw [wrapInt64_id _ (by omega) (by omega)]
  omega

theorem shiftLeftInt_small (t s : Nat) (hs : s < 64) (ht : t * 2 ^ s < 4294967296) :
    shiftLeftInt (t : Int) (s : Int) = ((t * 2 ^ s : Nat) : Int) := by
  unfold shiftLeftInt
  have hs' : ¬ ((s : Int) ≥ 64) := by omega
  have hcast : (t : Int) * 2 ^ s = ((t * 2 ^ s : Nat) : Int) := by
    push_cast
    rfl
  have h0 : (0 : Int) ≤ ((t * 2 ^ s : Nat) : Int) := Int.ofNat_nonneg _
  have hlt : ((t * 2 ^ s : Nat) : Int) < 4294967296 := by exact_mod_cast ht
  rw [if_neg hs', Int.toNat_ofNat, hcast]
  generalize ((t * 2 ^ s : Nat) : Int) = x at h0 hlt
  exact wrapInt64_id x (by omega) (by omega)

/-! ## The properties of the CIDR functions -/

/-- C26: for a text that `net.ParseCIDR` reads as an IPv4 network of prefix
length `n`, for `newbits` from 0 with `n + newbits` at most 32 and for `netnum`
from 0 and below `2 ^ newbits`, `cidrSubnet` returns the network whose mask has
`n + newbits` ones and whose address is the number of the network address plus
`netnum * 2 ^ (32 - n - newbits)`, and `cidrsubnet` returns its text, the dotted
address, a slash and `n + newbits`; the network `192.168.1.0/24` with two new
bits and the number 1 gives `192.168.1.64/26`. -/
theorem C26_cidrsubnet_base_address (pfx : String) (network : IPNet) (n : Nat)
    (newbits netnum : Int) (hparse : ParseCIDR pfx = some network)
    (hsize : IPMask.Size network.Mask = ((n : Int), 32))
    (hnew : 0 ≤ newbits) (hsum : (n : Int) + newbits ≤ 32)
    (hnet0 : 0 ≤ netnum) (hnet : netnum < 2 ^ newbits.toNat) :
    cidrSubnet network newbits netnum
        = { IP := ipBytes 4 (ipValue network.IP + netnum.toNat * 2 ^ (32 - n - newbits.toNat))
            Mask := CIDRMask ((n : Int) + newbits) 32 } ∧
      CIDRSubnetFunc pfx newbits netnum
        = .ok (.StringVal (String.mk
            (string4 (ipBytes 4 (ipValue network.IP + netnum.toNat * 2 ^ (32 - n - newbits.toNat)))
              ++ '/' :: uitoa (n + newbits.toNat)))) ∧
      CIDRSubnetFunc "192.168.1.0/24" 2 1 = .ok (.StringVal "192.168.1.64/26") := by
  obtain ⟨hn, hmask, hlen, hbytes, hdvd⟩ := ParseCIDR_v4 pfx network n hparse hsize
  obtain ⟨m, hm⟩ := Int.eq_ofNat_of_zero_le hnew
  obtain ⟨t, ht⟩ := Int.eq_ofNat_of_zero_le hnet0
  subst hm
  subst ht
  simp only [Int.toNat_ofNat] at hnet ⊢
  have hm32 : n + m ≤ 32 := by omega
  have ht' : t < 2 ^ m := by exact_mod_cast hnet
  have hpow : t * 2 ^ (32 - n - m) < 2 ^ (32 - n) := by
    have h1 : (2 : Nat) ^ (32 - n) = 2 ^ m * 2 ^ (32 - n - m) := by
      rw [← pow_add]
      congr 1
      omega
    rw [h1]
    exact Nat.mul_lt_mul_of_pos_right ht' (by positivity)
  have hpow32 : t * 2 ^ (32 - n - m) < 4294967296 :=
    lt_of_lt_of_le hpow (le_trans (Nat.pow_le_pow_right (by norm_num) (Nat.sub_le 32 n))
      (by norm_num))
  have hs64 : 32 - n - m < 64 := by omega
  have hsub32 : (32 : Int) - ((n : Int) + (m : Int)) = ((32 - n - m : Nat) : Int) := by omega
  have hgt : ¬ ((n : Int) + (m : Int) > 32) := by omega
  have hwb1 : -9223372036854775808 ≤ (n : Int) + (m : Int) := by omega
  have hwb2 : (n : Int) + (m : Int) < 9223372036854775808 := by omega
  have hmb1 : -9223372036854775808 ≤ (m : Int) := by omega
  have hmb2 : (m : Int) < 9223372036854775808 := by omega
  have htb1 : -9223372036854775808 ≤ (t : Int) := by omega
  have htb2 : (t : Int) < 9223372036854775808 := by
    have h2 : t < 4294967296 :=
      calc t ≤ t * 2 ^ (32 - n - m) := Nat.le_mul_of_pos_right _ (by positivity)
        _ < 4294967296 := hpow32
    omega
  have h48 : n + m ≤ 8 * 4 := by omega
  have hn48 : n ≤ 8 * 4 := by omega
  have hk48 : 32 - n ≤ 8 * network.IP.length := by
    rw [hlen]
    omega
  have hexp : 8 * 4 - (n + m) = 32 - n - m := by omega
  have hle : 32 - n - m ≤ 32 - n := by omega
  have hnewmask : CIDRMask ((n : Int) + (m : Int)) 32 = cidrMaskLoop 4 (n + m) := by
    have := CIDRMask_eq (n + m) 4 (Or.inl rfl) h48
    simpa using this
  have hbase : IP.Mask network.IP network.Mask = network.IP := by
    rw [hmask, IP_Mask_same_length _ _ (by rw [hlen, cidrMaskLoop_length])]
    exact mask_id 4 n network.IP hlen hbytes hn48 hdvd
  have hw : wrapInt64 ((n : Int) + (m : Int)) = (n : Int) + (m : Int) :=
    wrapInt64_id _ hwb1 hwb2
  have hshift : shiftLeftInt (t : Int)
      (wrapInt64 (32 - ((n : Int) + (m : Int))) % 18446744073709551616)
      = ((t * 2 ^ (32 - n - m) : Nat) : Int) := by
    rw [hsub32, shiftAmount_small _ hs64, shiftLeftInt_small t _ hs64 hpow32]
  obtain ⟨hl2, hb2, hv2, he2⟩ := cidrHost_add network.IP (cidrMaskLoop 4 (n + m))
    (t * 2 ^ (32 - n - m)) (32 - n) hbytes hdvd hpow hk48
  have hdvd2 : 2 ^ (8 * 4 - (n + m)) ∣ ipValue network.IP + t * 2 ^ (32 - n - m) := by
    rw [hexp]
    exact Nat.dvd_add (Dvd.dvd.trans (Nat.pow_dvd_pow 2 hle) hdvd) (Dvd.intro_left _ rfl)
  have hsub : cidrSubnet network (m : Int) (t : Int)
      = { IP := ipBytes 4 (ipValue network.IP + t * 2 ^ (32 - n - m))
          Mask := CIDRMask ((n : Int) + (m : Int)) 32 } := by
    unfold cidrSubnet
    simp only [hsize]
    rw [hw, if_neg hgt, hbase, hshift, hnewmask,
      IP_Mask_same_length _ _ (by rw [hl2, hlen, cidrMaskLoop_length]),
      mask_id 4 (n + m) _ (by rw [hl2, hlen]) hb2 h48 (by rw [hv2]; exact hdvd2),
      he2, hlen]
  refine ⟨hsub, ?_, rfl⟩
  unfold CIDRSubnetFunc
  rw [hparse]
  simp only
  rw [bigFloatInt64_id _ hmb1 hmb2, bigFloatInt64_id _ htb1 htb2,
    hsub, hnewmask, IPNet_String_v4 _ _ (ipBytes_length 4 _) hm32]

/-- C26 at the text `10.20.0.0/14` with ten new bits and the network number
513: the number of the address grows by `513 * 2 ^ 8`. -/
theorem C26_cidrsubnet_base_address_witness :
    ParseCIDR "10.20.0.0/14" = some ⟨[10, 20, 0, 0], [255, 252, 0, 0]⟩ ∧
      CIDRSubnetFunc "10.20.0.0/14" 10 513 = .ok (.StringVal "10.22.1.0/24") :=
  ⟨by decide,
    (C26_cidrsubnet_base_address "10.20.0.0/14" ⟨[10, 20, 0, 0], [255, 252, 0, 0]⟩ 14 10 513
      (by decide) (by decide) (by decide) (by decide) (by decide) (by decide)).2.1⟩

/-- C27: for a text that `net.ParseCIDR` reads as an IPv4 network of prefix
length `n` and for a host number from 0 and below `2 ^ (32 - n)`, the addition
that `cidrHost` makes byte by byte gives the address whose number is the number
of the network address plus the host number, no carry being lost, and
`cidrhost` returns its dotted text; the host 5 of `192.168.1.0/24` is
`192.168.1.5` and the host 1 of `10.0.0.0/16` is `10.0.0.1`. -/
theorem C27_cidrhost_adds_host_number (pfx : String) (network : IPNet) (n : Nat)
    (hostnum : Int) (hparse : ParseCIDR pfx = some network)
    (hsize : IPMask.Size network.Mask = ((n : Int), 32))
    (h0 : 0 ≤ hostnum) (hlt : hostnum < 2 ^ (32 - n)) :
    cidrHost network.IP network.Mask hostnum
        = ipBytes 4 (ipValue network.IP + hostnum.toNat) ∧
      CIDRHostFunc pfx hostnum
        = .ok (.StringVal (String.mk
            (string4 (ipBytes 4 (ipValue network.IP + hostnum.toNat))))) ∧
      CIDRHostFunc "192.168.1.0/24" 5 = .ok (.StringVal "192.168.1.5") ∧
      CIDRHostFunc "10.0.0.0/16" 1 = .ok (.StringVal "10.0.0.1") := by
  obtain ⟨hn, hmask, hlen, hbytes, hdvd⟩ := ParseCIDR_v4 pfx network n hparse hsize
  obtain ⟨t, ht⟩ := Int.eq_ofNat_of_zero_le h0
  subst ht
  simp only [Int.toNat_ofNat]
  have ht' : t < 2 ^ (32 - n) := by exact_mod_cast hlt
  have ht32 : t < 4294967296 :=
    lt_of_lt_of_le ht' (le_trans (Nat.pow_le_pow_right (by norm_num) (Nat.sub_le 32 n))
      (by norm_num))
  obtain ⟨_, _, _, he⟩ := cidrHost_add network.IP network.Mask t (32 - n) hbytes hdvd ht'
    (by rw [hlen]; omega)
  rw [hlen] at he
  refine ⟨he, ?_, rfl, rfl⟩
  unfold CIDRHostFunc
  rw [hparse]
  simp only
  rw [bigFloatInt64_id _ (by omega) (by omega), he, IP_String_v4 _ (ipBytes_length 4 _)]

/-- C27 at the text `10.0.16.77/20`, whose network address is `10.0.16.0`, and
the host number 4095, which fills the twelve host bits over two bytes. -/
theorem C27_cidrhost_adds_host_number_witness :
    ParseCIDR "10.0.16.77/20" = some ⟨[10, 0, 16, 0], [255, 255, 240, 0]⟩ ∧
      CIDRHostFunc "10.0.16.77/20" 4095 = .ok (.StringVal "10.0.31.255") :=
  ⟨by decide,
    (C27_cidrhost_adds_host_number "10.0.16.77/20" ⟨[10, 0, 16, 0], [255, 255, 240, 0]⟩ 20 4095
      (by decide) (by decide) (by decide) (by decide)).2.1⟩

/-- C28 fails on the code: for the network `192.168.1.0/24`, two new bits and
the network number 4, which two bits cannot write, `cidrSubnet` returns the
network `192.168.2.0/26`, and the address `192.168.2.0` does not belong to
`192.168.1.0/24`: the bits of the number that do not fit the new bits are
added to the bits of the given network. -/
theorem C28_subnet_outside_given_block :
    ParseCIDR "192.168.1.0/24" = some ⟨[192, 168, 1, 0], [255, 255, 255, 0]⟩ ∧
      cidrSubnet ⟨[192, 168, 1, 0], [255, 255, 255, 0]⟩ 2 4
        = ⟨[192, 168, 2, 0], [255, 255, 255, 192]⟩ ∧
      CIDRSubnetFunc "192.168.1.0/24" 2 4 = .ok (.StringVal "192.168.2.0/26") ∧
      IPNet.Contains ⟨[192, 168, 1, 0], [255, 255, 255, 0]⟩ [192, 168, 2, 0] = false :=
  ⟨by decide, by decide, rfl, by decide⟩

/-! ## The functions `anytrue` and `alltrue` -/

theorem anyTrueLoop_bools (bs : List Bool) :
    anyTrueLoop (bs.map CtyValue.BoolVal) = bs.any id := by
  induction bs with
  | nil => rfl
  | cons b rest ih =>
    cases b <;> simp [anyTrueLoop, CtyValue.True_, ih]

theorem allTrueLoop_bools (bs : List Bool) :
    allTrueLoop (bs.map CtyValue.BoolVal) = bs.all id := by
  induction bs with
  | nil => rfl
  | cons b rest ih =>
    cases b <;> simp [allTrueLoop, CtyValue.True_, ih]

/-- C29: on a list of booleans, `anytrue` returns true exactly when an element
of the list is true and `alltrue` returns true exactly when every element is
true; on the empty list `anytrue` returns false and `alltrue` returns true;
neither returns an error. -/
theorem C29_anytrue_alltrue (bs : List Bool) :
    (∃ r, AnyTrueFunc (.ListVal CtyType.bool (bs.map CtyValue.BoolVal)) = .ok (.BoolVal r) ∧
        (r = true ↔ ∃ b ∈ bs, b = true)) ∧
      (∃ r, AllTrueFunc (.ListVal CtyType.bool (bs.map CtyValue.BoolVal)) = .ok (.BoolVal r) ∧
        (r = true ↔ ∀ b ∈ bs, b = true)) ∧
      AnyTrueFunc (.ListVal CtyType.bool []) = .ok (.BoolVal false) ∧
      AllTrueFunc (.ListVal CtyType.bool []) = .ok (.BoolVal true) := by
  refine ⟨⟨bs.any id, ?_, by simp⟩, ⟨bs.all id, ?_, by simp⟩, rfl, rfl⟩
  · cases bs with
    | nil => rfl
    | cons b rest =>
      simp only [AnyTrueFunc, CtyValue.IsNull, anyTrueLoop_bools]
      cases (b :: rest).any id <;> simp
  · cases bs with
    | nil => rfl
    | cons b rest =>
      simp only [AllTrueFunc, CtyValue.IsNull, allTrueLoop_bools]
      cases (b :: rest).all id <;> simp

/-! ## Loading the rules of a directory -/

/-- C30 fails on the code: in the file system `rulesDirectory` the directory
`rules` holds the file `rules/aws.hcl` with one rule; `LoadRules` returns that
rule for the path of the file and for the pattern `rules/*.hcl`, and returns
no rule for the path `rules` of the directory, because the files of the
directory are appended to a slice that the running loop does not read again. -/
theorem C30_directory_rules_not_loaded :
    LoadRules rulesDirectory ["rules"] = .ok [] ∧
      loadMatches rulesDirectory ["rules"] ["rules"] []
        = .ok ([], ["rules", "rules/aws.hcl"]) ∧
      LoadRules rulesDirectory ["rules/aws.hcl"] = .ok [alwaysRule] ∧
      LoadRules rulesDirectory ["rules/*.hcl"] = .ok [alwaysRule] :=
  ⟨rfl, rfl, rfl, rfl⟩

/-! ## Expiry, time and repeated filtering -/

theorem timeParse_midnight (text : String) (D : Time) (h : timeParse text = some D) :
    ∃ days : Int, D = days * nanosPerDay := by
  unfold timeParse at h
  split at h
  · split at h
    · simp only at h
      split at h
      · injection h with h
        exact ⟨_, h.symm⟩
      · cases h
    · cases h
  · cases h

theorem expired_of_parse (now : Time) (e : Exception) (text : String) (D : Time)
    (hx : e.ExpiresAt = some text) (ht : timeParse text = some D) :
    expired now e = decide (now > D) := by
  unfold expired
  rw [hx]
  simp only [ht]

theorem expired_mono (t1 t2 : Time) (h : t1 ≤ t2) (e : Exception)
    (hexp : expired t1 e = true) : expired t2 e = true := by
  unfold expired at hexp ⊢
  cases hx : e.ExpiresAt with
  | none =>
    rw [hx] at hexp
    cases hexp
  | some text =>
    rw [hx] at hexp
    simp only at hexp ⊢
    cases ht : timeParse text with
    | none =>
      rw [ht] at hexp
      cases hexp
    | some D =>
      rw [ht] at hexp
      simp only [decide_eq_true_eq] at hexp ⊢
      exact lt_of_lt_of_le hexp h

theorem exceptionApplies_mono (t1 t2 : Time) (h : t1 ≤ t2) (v : Violation) (e : Exception)
    (happ : exceptionApplies t2 v e = true) : exceptionApplies t1 v e = true := by
  unfold exceptionApplies at happ ⊢
  simp only [Bool.and_eq_true, Bool.not_eq_true'] at happ ⊢
  refine ⟨happ.1, ?_⟩
  cases h1 : expired t1 e with
  | false => rfl
  | true =>
    have h2 := expired_mono t1 t2 h e h1
    rw [happ.2] at h2
    cases h2

theorem findExceptionIn_mono (t1 t2 : Time) (h : t1 ≤ t2) (v : Violation) (e2 : Exception) :
    ∀ (es : List Exception), findExceptionIn t2 v es = some e2 →
      ∃ e1 pre post, findExceptionIn t1 v es = some e1 ∧ es = pre ++ e1 :: post ∧
        e2 ∈ e1 :: post
  | [], h2 => by simp [findExceptionIn] at h2
  | p :: rest, h2 => by
    by_cases hp : exceptionApplies t1 v p = true
    · refine ⟨p, [], rest, ?_, rfl, ?_⟩
      · rw [findExceptionIn_cons, if_pos hp]
      · exact (findExceptionIn_some_applies t2 v e2 _ h2).1
    · have hp2 : ¬ exceptionApplies t2 v p = true :=
        fun h2p => hp (exceptionApplies_mono t1 t2 h v p h2p)
      rw [findExceptionIn_cons, if_neg hp2] at h2
      obtain ⟨e1, pre, post, h1, hes, hmem⟩ := findExceptionIn_mono t1 t2 h v e2 rest h2
      refine ⟨e1, p :: pre, post, ?_, ?_, hmem⟩
      · rw [findExceptionIn_cons, if_neg hp]
        exact h1
      · rw [hes]
        rfl

theorem filterExceptions_excepted_find (cfg : Config) (now : Time) :
    ∀ (vs : List Violation), ∀ fv ∈ (filterExceptions cfg now vs).excepted,
      findException cfg now fv.Violation = some fv.Exception
  | [], fv, h => by simp [filterExceptions] at h
  | v :: rest, fv, h => by
    rw [filterExceptions_cons] at h
    cases hf : findException cfg now v with
    | none =>
      rw [hf] at h
      exact filterExceptions_excepted_find cfg now rest fv h
    | some e =>
      rw [hf] at h
      rcases List.mem_cons.1 h with h | h
      · rw [h]
        exact hf
      · exact filterExceptions_excepted_find cfg now rest fv h

theorem filterExceptions_all_none (cfg : Config) (now : Time) :
    ∀ (vs : List Violation), (∀ v ∈ vs, findException cfg now v = none) →
      filterExceptions cfg now vs = { filtered := vs, excepted := [], stderr := [] }
  | [], _ => rfl
  | v :: rest, h => by
    rw [filterExceptions_cons, h v (List.mem_cons_self _ _),
      filterExceptions_all_none cfg now rest fun x hx => h x (List.mem_cons_of_mem _ hx)]

theorem filterExceptions_all_some (cfg : Config) (now : Time) :
    ∀ (vs : List Violation), (∀ v ∈ vs, (findException cfg now v).isSome = true) →
      (filterExceptions cfg now vs).filtered = []
  | [], _ => rfl
  | v :: rest, h => by
    rw [filterExceptions_cons]
    have hv := h v (List.mem_cons_self _ _)
    have ih := filterExceptions_all_some cfg now rest
      fun x hx => h x (List.mem_cons_of_mem _ hx)
    cases hf : findException cfg now v with
    | none =>
      rw [hf] at hv
      cases hv
    | some e => exact ih

/-- C32: for an exception whose expiry text parses as a date, the instant
parsed is midnight UTC of that date; the expiration check treats the exception
as expired, so that it does not apply, at every instant after that midnight,
and not as expired at every instant up to and including it; when the date is
the UTC date of the current time, the exception is expired at every instant of
the day other than its first. -/
theorem C32_expiry_date_exclusive (now : Time) (v : Violation) (e : Exception) (text : String)
    (D : Time) (hx : e.ExpiresAt = some text) (ht : timeParse text = some D) :
    (∃ days : Int, D = days * nanosPerDay) ∧
      (now > D → expired now e = true ∧ exceptionApplies now v e = false) ∧
      (now ≤ D → expired now e = false) ∧
      (D = utcDay now * nanosPerDay → now ≠ D →
        expired now e = true ∧ exceptionApplies now v e = false) := by
  have hexp := expired_of_parse now e text D hx ht
  have hafter : now > D → expired now e = true ∧ exceptionApplies now v e = false := by
    intro hgt
    have h1 : expired now e = true := by
      rw [hexp]
      exact decide_eq_true hgt
    exact ⟨h1, by simp [exceptionApplies, h1]⟩
  refine ⟨timeParse_midnight text D ht, hafter, ?_, ?_⟩
  · intro hle
    rw [hexp]
    exact decide_eq_false (not_lt.2 hle)
  · intro hday hne
    apply hafter
    have hle : utcDay now * nanosPerDay ≤ now := by
      unfold utcDay
      exact Int.ediv_mul_le now (by decide)
    rw [← hday] at hle
    exact lt_of_le_of_ne hle (Ne.symm hne)

/-- C32 at noon of 2024-06-14 for an exception whose expiry is 2024-06-14: the
exception is expired and the violation stays active. -/
theorem C32_expiry_date_exclusive_witness :
    timeParse "2024-06-14" = some (utcDay noonJune14 * nanosPerDay) ∧
      expired noonJune14 exceptionUntil14 = true ∧
      exceptionApplies noonJune14 sampleViolation exceptionUntil14 = false ∧
      expired (utcDay noonJune14 * nanosPerDay) exceptionUntil14 = false :=
  ⟨by decide,
    ((C32_expiry_date_exclusive noonJune14 sampleViolation exceptionUntil14 "2024-06-14"
      (utcDay noonJune14 * nanosPerDay) rfl (by decide)).2.2.2 rfl (by decide)).1,
    ((C32_expiry_date_exclusive noonJune14 sampleViolation exceptionUntil14 "2024-06-14"
      (utcDay noonJune14 * nanosPerDay) rfl (by decide)).2.1 (by decide)).2,
    by decide⟩

/-- C33: for a rule whose pattern selects no resource of the index, `scanRule`
returns no violation and no error, makes no call of `evaluateExpression` and
leaves the context as it is, whatever the `when` block and the conditions of
the rule are. -/
theorem C33_no_candidate_no_evaluation (s : Scanner) (ctx : ScanContext) (rule : Rule)
    (hnone : GetResourcesByType s.order ctx rule.ResourceType = []) :
    (scanRule s ctx rule).result = .ok [] ∧ (scanRule s ctx rule).calls = [] ∧
      (scanRule s ctx rule).context = ctx := by
  unfold scanRule
  rw [hnone]
  exact ⟨rfl, rfl, rfl⟩

/-- C33 at the rule `unusableRule`, whose `when` expression is a number and
whose condition cannot be parsed, on an index without bucket; on the index of
the sample resources, which has a bucket, the same rule fails. -/
theorem C33_no_candidate_no_evaluation_witness :
    (scanRule instanceScanner instanceScanner.context unusableRule).result = .ok [] ∧
      (scanRule instanceScanner instanceScanner.context unusableRule).calls = [] ∧
      (scanRule (sampleScanner [unusableRule]) (sampleScanner [unusableRule]).context
          unusableRule).result
        = .error "error evaluating when condition: expression must return boolean, got number" :=
  ⟨(C33_no_candidate_no_evaluation instanceScanner instanceScanner.context unusableRule rfl).1,
    (C33_no_candidate_no_evaluation instanceScanner instanceScanner.context unusableRule rfl).2.1,
    rfl⟩

/-- C35: for a violation and a configuration, when `findException` reports an
exception at the time `t2`, it reports one at every time `t1` not after `t2`,
and the exception reported at `t1` is declared no later than the one reported
at `t2`; a violation for which no exception is reported at `t1` has none
reported at `t2`. -/
theorem C35_exception_matching_monotone (cfg : Config) (v : Violation) (t1 t2 : Time)
    (h : t1 ≤ t2) :
    (∀ e2, findException cfg t2 v = some e2 →
        ∃ e1 pre post, findException cfg t1 v = some e1 ∧
          cfg.Exceptions = pre ++ e1 :: post ∧ e2 ∈ e1 :: post) ∧
      (findException cfg t1 v = none → findException cfg t2 v = none) := by
  have hfirst : ∀ e2, findException cfg t2 v = some e2 →
      ∃ e1 pre post, findException cfg t1 v = some e1 ∧
        cfg.Exceptions = pre ++ e1 :: post ∧ e2 ∈ e1 :: post :=
    fun e2 h2 => findExceptionIn_mono t1 t2 h v e2 cfg.Exceptions h2
  refine ⟨hfirst, ?_⟩
  intro h1
  cases h2 : findException cfg t2 v with
  | none => rfl
  | some e2 =>
    obtain ⟨e1, _, _, he1, _, _⟩ := hfirst e2 h2
    rw [h1] at he1
    cases he1

/-- C35 for the exceptions until 2024-06-14 and until 2024-06-15: at noon of
2024-06-14 the second one is reported, and at the midnight before the first
one is. -/
theorem C35_exception_matching_monotone_witness :
    findException { Exceptions := [exceptionUntil14, exceptionUntil15] } noonJune14
        sampleViolation = some exceptionUntil15 ∧
      findException { Exceptions := [exceptionUntil14, exceptionUntil15] }
        (utcDay noonJune14 * nanosPerDay) sampleViolation = some exceptionUntil14 ∧
      ∃ e1 pre post,
        findException { Exceptions := [exceptionUntil14, exceptionUntil15] }
          (utcDay noonJune14 * nanosPerDay) sampleViolation = some e1 ∧
        [exceptionUntil14, exceptionUntil15] = pre ++ e1 :: post ∧
        exceptionUntil15 ∈ e1 :: post :=
  ⟨by decide, by decide,
    (C35_exception_matching_monotone { Exceptions := [exceptionUntil14, exceptionUntil15] }
      sampleViolation (utcDay noonJune14 * nanosPerDay) noonJune14 (by decide)).1
      exceptionUntil15 (by decide)⟩

/-- C36: with the configuration and the current time fixed, filtering the
active violations that `filterExceptions` returned gives them back as active,
with no excepted violation and no line written, and filtering the violations
of the excepted records gives no active violation. -/
theorem C36_filterExceptions_idempotent (cfg : Config) (now : Time) (vs : List Violation) :
    filterExceptions cfg now (filterExceptions cfg now vs).filtered
        = { filtered := (filterExceptions cfg now vs).filtered, excepted := [], stderr := [] } ∧
      (filterExceptions cfg now
        ((filterExceptions cfg now vs).excepted.map fun fv => fv.Violation)).filtered = [] := by
  constructor
  · apply filterExceptions_all_none
    intro v hv
    rw [filterExceptions_filtered, List.mem_filter] at hv
    exact Option.isNone_iff_eq_none.1 hv.2
  · apply filterExceptions_all_some
    intro v hv
    obtain ⟨fv, hfv, rfl⟩ := List.mem_map.1 hv
    rw [filterExceptions_excepted_find cfg now vs fv hfv]
    rfl

/-- C40: for every list of active violations, `ShouldFail` for `error` implies
`ShouldFail` for `warning`, which implies `ShouldFail` for `info`; and for
every threshold, a reporter whose active violations hold those of another
reporter, and others, fails when the other one fails. -/
theorem C40_should_fail_monotone (r : Reporter) (failOn : String) :
    (r.ShouldFail "error" = true → r.ShouldFail "warning" = true) ∧
      (r.ShouldFail "warning" = true → r.ShouldFail "info" = true) ∧
      (∀ r2 : Reporter, (∀ v ∈ r.violations, v ∈ r2.violations) →
        r.ShouldFail failOn = true → r2.ShouldFail failOn = true) := by
  have hlen : ∀ q : Reporter, q.violations.length = 0 ↔ q.violations = [] :=
    fun q => List.length_eq_zero
  have hsev : ∀ (q : Reporter) (sev : String),
      decide ((q.filterBySeverity sev).length > 0) = true ↔
        ∃ v ∈ q.violations, v.Severity = sev := by
    intro q sev
    rw [decide_eq_true_eq]
    exact filterBySeverityLoop_pos sev q.violations
  have hne : ∀ q : Reporter, q.ShouldFail failOn = true → q.violations ≠ [] := by
    intro q hq hnil
    simp [Reporter.ShouldFail, hnil] at hq
  refine ⟨?_, ?_, ?_⟩
  · intro herr
    obtain ⟨v, hv, hs⟩ := (ShouldFail_error r).1 herr
    have hnz : ¬ r.violations.length = 0 := by
      intro h0
      rw [(hlen r).1 h0] at hv
      cases hv
    have hw : ¬ ("warning" = "error") := by decide
    simp only [Reporter.ShouldFail, hnz, if_false, hw, if_true, Bool.or_eq_true]
    exact Or.inr ((hsev r "error").2 ⟨v, hv, hs⟩)
  · intro hwarn
    have hnz : ¬ r.violations.length = 0 := by
      intro h0
      simp [Reporter.ShouldFail, h0] at hwarn
    have h1 : ¬ ("info" = "error") := by decide
    have h2 : ¬ ("info" = "warning") := by decide
    simp only [Reporter.ShouldFail, hnz, if_false, h1, h2, if_true, decide_eq_true_eq]
    exact Nat.pos_of_ne_zero hnz
  · intro r2 hsub hfail
    have hnz : ¬ r.violations.length = 0 := fun h0 => hne r hfail ((hlen r).1 h0)
    obtain ⟨v0, hv0⟩ := List.exists_mem_of_ne_nil _ (hne r hfail)
    have hnz2 : ¬ r2.violations.length = 0 := by
      intro h0
      have := hsub v0 hv0
      rw [(hlen r2).1 h0] at this
      cases this
    have hup : ∀ sev, decide ((r.filterBySeverity sev).length > 0) = true →
        decide ((r2.filterBySeverity sev).length > 0) = true := by
      intro sev hs
      obtain ⟨v, hv, hvs⟩ := (hsev r sev).1 hs
      exact (hsev r2 sev).2 ⟨v, hsub v hv, hvs⟩
    unfold Reporter.ShouldFail at hfail ⊢
    rw [if_neg hnz] at hfail
    rw [if_neg hnz2]
    by_cases he : failOn = "error"
    · rw [if_pos he] at hfail ⊢
      exact hup _ hfail
    · rw [if_neg he] at hfail ⊢
      by_cases hw : failOn = "warning"
      · rw [if_pos hw] at hfail ⊢
        rw [Bool.or_eq_true] at hfail ⊢
        exact hfail.imp (hup _) (hup _)
      · rw [if_neg hw] at hfail ⊢
        by_cases hi : failOn = "info"
        · rw [if_pos hi]
          exact decide_eq_true (Nat.pos_of_ne_zero hnz2)
        · rw [if_neg hi] at hfail ⊢
          exact hup _ hfail

/-- C40 at a reporter with one violation of severity `warning`, to which a
violation of severity `error` is added, and the threshold `warning`. -/
theorem C40_should_fail_monotone_witness :
    (NewReporter [warningViolation] []).ShouldFail "warning" = true ∧
      (NewReporter [warningViolation] []).ShouldFail "info" = true ∧
      (NewReporter [errorViolation, warningViolation] []).ShouldFail "warning" = true :=
  ⟨by decide,
    (C40_should_fail_monotone (NewReporter [warningViolation] []) "warning").2.1 (by decide),
    (C40_should_fail_monotone (NewReporter [warningViolation] []) "warning").2.2
      (NewReporter [errorViolation, warningViolation] [])
      (fun _ hv => List.mem_cons_of_mem _ hv) (by decide)⟩

/-! ## Date formats -/

theorem Contains_iff_data (text needle : String) :
    Contains text needle ↔ needle.data <:+: text.data := by
  constructor
  · rintro ⟨before, after, h⟩
    refine ⟨before.data, after.data, ?_⟩
    rw [h]
    simp [String.data_append]
  · rintro ⟨pre, post, h⟩
    refine ⟨String.mk pre, String.mk post, ?_⟩
    apply String.ext
    rw [← h]
    simp [String.data_append]

theorem replaceAllLoop_nil (old new : List Char) (fuel : Nat) (result : List Char) :
    replaceAllLoop old new fuel [] result = some result := by
  cases fuel <;> rfl

theorem replaceAllLoop_absent (old new : List Char) :
    ∀ (s : List Char) (fuel : Nat) (result : List Char), s.length ≤ fuel → ¬ old <:+: s →
      replaceAllLoop old new fuel s result = some (result ++ s)
  | [], fuel, result, _, _ => by
    rw [replaceAllLoop_nil, List.append_nil]
  | c :: s, 0, result, hfuel, _ => by
    simp at hfuel
  | c :: s, fuel + 1, result, hfuel, habsent => by
    have hhead : ¬ ((c :: s).length ≥ old.length ∧ (c :: s).take old.length = old) := by
      rintro ⟨_, htake⟩
      apply habsent
      refine ⟨[], (c :: s).drop old.length, ?_⟩
      rw [List.nil_append]
      nth_rewrite 1 [← htake]
      exact List.take_append_drop _ _
    have htail : ¬ old <:+: s := by
      rintro ⟨pre, post, h⟩
      exact habsent ⟨c :: pre, post, by rw [← h]; simp⟩
    rw [replaceAllLoop, if_neg hhead,
      replaceAllLoop_absent old new s fuel (result ++ [c]) (by simpa using hfuel) htail]
    simp

theorem replaceAll_absent (s old new : String) (h : ¬ Contains s old) :
    replaceAll s old new = some s := by
  rw [Contains_iff_data] at h
  unfold replaceAll
  rw [replaceAllLoop_absent old.toList new.toList s.toList s.length [] (le_refl _) h]
  rfl

theorem convertLoop_absent : ∀ (table : List (String × String)) (tfFormat : String),
    (∀ kv ∈ table, ¬ Contains tfFormat kv.1) → convertLoop table tfFormat = some tfFormat
  | [], _, _ => rfl
  | (tf, go_) :: rest, tfFormat, h => by
    rw [convertLoop, replaceAll_absent tfFormat tf go_ (h (tf, go_) (List.mem_cons_self _ _))]
    exact convertLoop_absent rest tfFormat fun kv hkv => h kv (List.mem_cons_of_mem _ hkv)

/-- C31: for a format string that holds none of the codes `YYYY`, `YY`, `MM`,
`DD`, `hh`, `mm` and `ss` as a substring, `convertTerraformDateFormat` returns
the string unchanged, in whatever order the table of replacements is visited;
the format `XYZ` stays `XYZ`. -/
theorem C31_format_without_code_unchanged (order : ReplacementOrder) (tfFormat : String)
    (horder : ∀ m, (order m).Perm m)
    (habsent : ∀ code ∈ ["YYYY", "YY", "MM", "DD", "hh", "mm", "ss"],
      ¬ Contains tfFormat code) :
    convertTerraformDateFormat order tfFormat = some tfFormat ∧
      convertTerraformDateFormat id "XYZ" = some "XYZ" := by
  refine ⟨?_, by decide⟩
  apply convertLoop_absent
  intro kv hkv
  have hmem : kv ∈ replacements := (horder replacements).mem_iff.1 hkv
  exact habsent kv.1 (List.mem_map_of_mem Prod.fst hmem)

/-- C31 at the format `XYZ at noon`, with the table visited in reverse
order. -/
theorem C31_format_without_code_unchanged_witness :
    convertTerraformDateFormat List.reverse "XYZ at noon" = some "XYZ at noon" :=
  (C31_format_without_code_unchanged List.reverse "XYZ at noon" List.reverse_perm
    (fun code hcode => (Contains_iff_data "XYZ at noon" code).not.2
      ((by decide : ∀ code ∈ ["YYYY", "YY", "MM", "DD", "hh", "mm", "ss"],
        ¬ code.data <:+: "XYZ at noon".data) code hcode))).1

/-- C37 fails on the code: when the entries of the table are visited in the
order in which they are written, `YYYY` converts to `2006` and `YYYY-MM-DD` to
`2006-01-02`; when they are visited in the reverse order, which a Go map may
do, `YY` is replaced before `YYYY`, and `YYYY` converts to `0606` and
`YYYY-MM-DD` to `0606-01-02`. -/
theorem C37_conversion_depends_on_map_order :
    convertTerraformDateFormat id "YYYY" = some "2006" ∧
      convertTerraformDateFormat id "YYYY-MM-DD" = some "2006-01-02" ∧
      convertTerraformDateFormat List.reverse "YYYY" = some "0606" ∧
      convertTerraformDateFormat List.reverse "YYYY-MM-DD" = some "0606-01-02" ∧
      (List.reverse replacements).Perm replacements :=
  ⟨by decide, by decide, by decide, by decide, List.reverse_perm _⟩

/-! ## The order of the resources of a wildcard pattern -/

/-- C38 fails on the code: for the IPv6 network `2001:db8::/32` and 16 new
bits the shift is by 80 bits, and a Go `int` shifted by 64 bits or more is 0,
so the subnet numbers 1 and 2, both below `2 ^ 16`, give the same network
`2001:db8::/48`, which is also the network of the subnet number 0. -/
theorem C38_subnet_numbers_collide :
    ParseCIDR "2001:db8::/32"
        = some ⟨[32, 1, 13, 184, 0, 0, 0, 0, 0, 0, 0, 0, 0, 0, 0, 0],
            [255, 255, 255, 255, 0, 0, 0, 0, 0, 0, 0, 0, 0, 0, 0, 0]⟩ ∧
      cidrSubnet ⟨[32, 1, 13, 184, 0, 0, 0, 0, 0, 0, 0, 0, 0, 0, 0, 0],
            [255, 255, 255, 255, 0, 0, 0, 0, 0, 0, 0, 0, 0, 0, 0, 0]⟩ 16 1
        = cidrSubnet ⟨[32, 1, 13, 184, 0, 0, 0, 0, 0, 0, 0, 0, 0, 0, 0, 0],
            [255, 255, 255, 255, 0, 0, 0, 0, 0, 0, 0, 0, 0, 0, 0, 0]⟩ 16 2 ∧
      shiftLeftInt 1 80 = 0 ∧ shiftLeftInt 2 80 = 0 ∧
      CIDRSubnetFunc "2001:db8::/32" 16 0 = .ok (.StringVal "2001:db8::/48") ∧
      CIDRSubnetFunc "2001:db8::/32" 16 1 = .ok (.StringVal "2001:db8::/48") ∧
      CIDRSubnetFunc "2001:db8::/32" 16 2 = .ok (.StringVal "2001:db8::/48") :=
  ⟨by decide, by decide, by decide, by decide, rfl, rfl, rfl⟩

/-- C39 fails on the code: called with a valid network and no number,
`cidrsubnets` passes the empty slice to `cty.ListVal`, which panics; called
with the numbers 8, 8 and 4 it returns the list of the three networks that
`cidrsubnet` gives for the subnet numbers 0, 1 and 2. -/
theorem C39_cidrsubnets_panics_without_numbers :
    CIDRSubnetsFunc "10.0.0.0/8" [] = none ∧
      CIDRSubnetsFunc "10.0.0.0/8" [8, 8, 4]
        = some (.ok (.ListVal CtyType.string
            [.StringVal "10.0.0.0/16", .StringVal "10.1.0.0/16", .StringVal "10.32.0.0/12"])) ∧
      CIDRSubnetFunc "10.0.0.0/8" 8 0 = .ok (.StringVal "10.0.0.0/16") ∧
      CIDRSubnetFunc "10.0.0.0/8" 8 1 = .ok (.StringVal "10.1.0.0/16") ∧
      CIDRSubnetFunc "10.0.0.0/8" 4 2 = .ok (.StringVal "10.32.0.0/12") :=
  ⟨rfl, rfl, rfl, rfl, rfl⟩

end Planguard
